import Mathlib

/-!
# CampusLabs/cache: a verification development for `index.js`

`index.js` keeps a JavaScript object `this.all` (normalized key ↦ entry record
`{v, t, u, d}`) mirrored into `localStorage`, expires entries at read time and
evicts the least recently used entry when `localStorage.setItem` throws.

Modelling conventions.

* `this.all` is an association list in `for ... in` order: assignment to a new
  key appends, assignment to an existing key replaces in place, `delete`
  removes.  This is the enumeration order of a plain object for keys that are
  not canonical array indices and not names inherited from `Object.prototype`
  (every key carrying the default prefix `'cache:'` is of that kind).
* `__proto__` (`protoKey`) names no own property of `this.all`: the assignment
  `this.all['__proto__'] = data`, which a normalized key reaches only when the
  prefix is a prefix of `__proto__` (the prefix `''`, say), makes `data` the
  prototype of `this.all`; reading `this.all['__proto__']` then gives `data`
  back, `delete this.all['__proto__']` removes nothing and
  `Object.keys(this.all)` does not list it.  In the list, an entry under the
  key `__proto__` stands for the prototype so installed: `assign` and `lookup`
  treat the key as any other, `deleteOwn` leaves it and `ownKeys` leaves it
  out.
* On a mapping with an installed prototype the model goes no further than
  that.  The properties `v`, `t`, `d`, `u` of the installed prototype are
  inherited by `this.all`: the `for ... in` loops of `purge` and `clearLru`
  visit them after the own keys, and a read of one of these four names finds
  them; `purgeLoop`, `lruScan` and `lookup` know nothing of this, and visit or
  find the keys of the list.  Neither does `lookup` give the `Object.prototype`
  that the source reads under `__proto__` while nothing is installed (`get`
  returns `null` for it as for a missing entry, after a `removeItem`).  The
  general statements that depend on any of this are for a mapping that holds
  nothing under `__proto__` (`State.plain`), which every call keeps whose key
  does not normalize to `__proto__` (`plain_call`).
* Times are integers (milliseconds), and so are the durations that are numbers
  (milliseconds, or seconds where the source multiplies by 1000).  A duration
  can also be `NaN`, coming from the number `NaN` or from an invalid `Date`; it
  is `none` where the source computes with it.  `Date.now()` has one value
  `now` during one call of a public operation, which is passed as an argument.
* An entry record always has `v` and a numeric `u`; `t` and `d` may be missing
  (`none`), which is what `purge` guards against.  A `d` that is `NaN` is
  `none` as well: the source reads `d` in `data.d || ...` and in `!data.d`,
  where `NaN` and a missing property give the same result, and otherwise only
  behind that test.
* The string `JSON.stringify(data)` is represented by `Raw.json data`, the JSON
  text of a value that is no entry record by `Raw.other`, and a string that
  `JSON.parse` rejects by `Raw.text`.
* `this.useLocalStorage` decides whether the cache has a backing store at all:
  when it is `false` no operation touches `localStorage`.
* `localStorage.setItem` may throw.  Whether its `i`-th call throws is given by
  `Storage.rejects i`; `Storage.writes` counts the calls made so far.
* The `while (true)` loop of `save` takes a fuel argument bounding the number
  of `setItem` attempts; `Outcome.timeout` means the fuel ran out.
* A sequence of public calls is a list of calls, each with its clock reading
  (`run`); a call that throws hands its state to the next call.
* `State.purges` is a spy on `purge`, counting its calls; it is not part of
  the source and no operation reads it.
-/

namespace Cache

/-- Cached payloads: the values that `JSON.stringify` can represent. -/
inductive Value where
  | null
  | bool (b : Bool)
  | num (n : Int)
  | str (s : String)
  | arr (items : List Value)
  | obj (fields : List (String × Value))
  deriving Repr

/-- JavaScript truthiness of a payload, as used by `if (this.get(...))`. -/
def Value.truthy : Value → Bool
  | .null => false
  | .bool b => b
  | .num n => n != 0
  | .str s => s != ""
  | .arr _ => true
  | .obj _ => true

/-- The record `data = {v = value, t = creation time, u = last used time,
d = duration}`; `t` and `d` are `none` when the property is missing, and `d`
also when it is `NaN`. -/
structure Entry where
  v : Value
  t : Option Int
  u : Int
  d : Option Int
  deriving Repr

/-- A string held by `localStorage`: the text `JSON.stringify(data)` of an entry
record, the JSON text of a value that is no entry record (such as `null`, `5`
or `{}`), or a string that is not JSON. -/
inductive Raw where
  | json (data : Entry)
  | other (v : Value)
  | text (s : String)
  deriving Repr

/-- The value of `obj[k]` for a key that `Object.prototype` does not define,
`none` standing for `undefined`. -/
def lookup {β : Type} (k : String) : List (String × β) → Option β
  | [] => none
  | (k', b) :: rest => if k' = k then some b else lookup k rest

/-- The effect of `obj[k] = b`: an existing property keeps its place, a new one
goes last.  In the mapping, the pair under `__proto__` is the prototype that
such an assignment installs. -/
def assign {β : Type} (k : String) (b : β) : List (String × β) → List (String × β)
  | [] => [(k, b)]
  | (k', b') :: rest => if k' = k then (k, b) :: rest else (k', b') :: assign k b rest

/-- The effect of `delete obj[k]` on an own property, and of
`localStorage.removeItem(k)` on the items of the store. -/
def delete {β : Type} (k : String) : List (String × β) → List (String × β)
  | [] => []
  | (k', b') :: rest => if k' = k then delete k rest else (k', b') :: delete k rest

/-- The keys of the list in order: `Object.keys(localStorage)` for the store;
for the mapping see `ownKeys`. -/
def keys {β : Type} (m : List (String × β)) : List String := m.map Prod.fst

/-- The global `localStorage`. -/
structure Storage where
  items : List (String × Raw)
  rejects : Nat → Bool
  writes : Nat

/-- The backing store accepts writes: no call of `setItem` throws. -/
def Storage.acceptsWrites (ls : Storage) : Prop := ∀ i, ls.rejects i = false

/-- The call `localStorage.setItem(k, raw)`: `false` in the first component means
that the call threw. -/
def Storage.setItem (ls : Storage) (k : String) (raw : Raw) : Bool × Storage :=
  if ls.rejects ls.writes then (false, { ls with writes := ls.writes + 1 })
  else (true, { ls with items := assign k raw ls.items, writes := ls.writes + 1 })

/-- The call `localStorage.removeItem(k)`. -/
def Storage.removeItem (ls : Storage) (k : String) : Storage :=
  { ls with items := delete k ls.items }

/-- The options a cache is constructed with, with the prototype's defaults
(`useLocalStorage` defaults to `HAS_LS`, the result of the start-up probe, taken
to have succeeded). -/
structure Options where
  pfx : String := "cache:"
  defaultDuration : Int := 60 * 60 * 24
  useLocalStorage : Bool := true
  wrapKey : String → String := fun key => key

/-- The mutable state: `this.all` and the global `localStorage`.  The field
`purges` is a spy on `purge`: it counts the calls of `purge` made so far and no
operation reads it. -/
structure State where
  all : List (String × Entry)
  localStorage : Storage
  purges : Nat := 0

/-- The result of running an operation. -/
inductive Outcome (α : Type) where
  | ok (a : α) (s : State)
  | thrown (s : State)
  | timeout

/-- The optional `duration` argument of `get`, `set` and `clean`: left out, a
number of seconds, a `Date` (given by its time in milliseconds), the number
`NaN`, or a `Date` that is invalid (its time is `NaN`). -/
inductive Duration where
  | omitted
  | seconds (n : Int)
  | date (ms : Int)
  | nan
  | invalidDate
  deriving DecidableEq, Repr

/-- The property name `__proto__`: assigning to it replaces the prototype of an
object instead of adding a key. -/
def protoKey : String := "__proto__"

/-- Source: `normalizeKey`, `this.prefix + this.wrapKey(key)`. -/
def normalizeKey (o : Options) (key : String) : String := o.pfx ++ o.wrapKey key

/-- The effect of `delete this.all[k]`: `__proto__` names no own property of
`this.all`, so the statement removes nothing when `k` is `__proto__`. -/
def deleteOwn (k : String) (all : List (String × Entry)) : List (String × Entry) :=
  if k = protoKey then all else delete k all

/-- The snapshot `Object.keys(this.all)`: the own keys, `__proto__` never being
one of them. -/
def ownKeys (all : List (String × Entry)) : List String :=
  (keys all).filter (fun k => k != protoKey)

/-- Source: `removeNormalized`. -/
def removeNormalized (o : Options) (normalizedKey : String) (s : State) : State :=
  let s1 : State := { s with all := deleteOwn normalizedKey s.all }
  if o.useLocalStorage then { s1 with localStorage := s1.localStorage.removeItem normalizedKey }
  else s1

/-- Source: `remove`. -/
def remove (o : Options) (key : String) (s : State) : State :=
  removeNormalized o (normalizeKey o key) s

/-- The test `!lru` on the loop variable of `clearLru`: `undefined` and the
empty string are falsy. -/
def falsyKey : Option String → Bool
  | none => true
  | some nk => nk = ""

/-- The test `all[nk].u < all[lru].u` for a truthy `lru`. -/
def usedBefore (all : List (String × Entry)) (e : Entry) (lru : String) : Bool :=
  match lookup lru all with
  | some l => e.u < l.u
  | none => false

/-- One turn of the `for (var nk in all)` loop of `clearLru`, for a mapping
whose prototype is `Object.prototype`, which has no enumerable key: the keys
visited are the own keys. -/
def lruStep (all : List (String × Entry)) (lru : Option String) (p : String × Entry) :
    Option String :=
  match lru with
  | none => some p.1
  | some l => if falsyKey (some l) || usedBefore all p.2 l then some p.1 else some l

/-- The value of `lru` after the scan of `clearLru`. -/
def lruScan (all : List (String × Entry)) : Option String :=
  all.foldl (lruStep all) none

/-- The property key that `lru.nk` evaluates to: `lru` is a string, its
property `nk` is `undefined`, and `undefined` used as a property name or as an
argument of `removeItem` is the string `"undefined"`. -/
def undefinedKey : String := "undefined"

/-- Source: `clearLru`.  The result `none` is the return value `false`. -/
def clearLru (o : Options) (s : State) : Option String × State :=
  let lru := lruScan s.all
  if falsyKey lru then (none, s)
  else (lru, removeNormalized o undefinedKey s)

/-- The `while (true)` loop of `save`. -/
def saveLoop (o : Options) (normalizedKey : String) (raw : Raw) : Nat → State → Outcome Unit
  | 0, _ => .timeout
  | fuel + 1, s =>
    match s.localStorage.setItem normalizedKey raw with
    | (true, ls) => .ok () { s with localStorage := ls }
    | (false, ls) =>
      match clearLru o { s with localStorage := ls } with
      | (none, s1) => .thrown s1
      | (some _, s1) => saveLoop o normalizedKey raw fuel s1

/-- Source: `save`. -/
def save (o : Options) (fuel : Nat) (normalizedKey : String) (data : Entry) (s : State) :
    Outcome Unit :=
  let s1 : State := { s with all := assign normalizedKey data s.all }
  if o.useLocalStorage then saveLoop o normalizedKey (Raw.json data) fuel s1
  else .ok () s1

/-- Source: `tap`.  The assignment `data.u = ...` on a missing entry throws. -/
def tap (o : Options) (fuel : Nat) (now : Int) (normalizedKey : String) (s : State) :
    Outcome Unit :=
  match lookup normalizedKey s.all with
  | none => .thrown s
  | some data => save o fuel normalizedKey { data with u := now } s

/-- The expression `data.d || this.defaultDuration * 1000`: a missing or zero
`d` is falsy. -/
def storedOrDefault (o : Options) (data : Entry) : Int :=
  match data.d with
  | some d => if d = 0 then o.defaultDuration * 1000 else d
  | none => o.defaultDuration * 1000

/-- The value of `duration` in `get` after its three conversions, `none` when
it is `NaN`. -/
def getDuration (o : Options) (now : Int) (data : Entry) : Duration → Option Int
  | .seconds n => some (n * 1000)
  | .date ms => some (ms - now)
  | .omitted => some (storedOrDefault o data)
  | .nan => none
  | .invalidDate => none

/-- The test `Date.now() < data.t + duration`; with `data.t` missing or with a
`duration` that is `NaN` the sum is `NaN` and the comparison is false. -/
def live (now : Int) (data : Entry) (duration : Option Int) : Bool :=
  match data.t, duration with
  | some t, some d => now < t + d
  | _, _ => false

/-- Source: `get`.  The result `none` is the `return null` of a miss, `some v`
is `return data.v`. -/
def get (o : Options) (fuel : Nat) (now : Int) (key : String) (duration : Duration)
    (s : State) : Outcome (Option Value) :=
  let normalizedKey := normalizeKey o key
  match lookup normalizedKey s.all with
  | none => .ok none s
  | some data =>
    if live now data (getDuration o now data duration) then
      match tap o fuel now normalizedKey s with
      | .ok _ s1 => .ok (some data.v) s1
      | .thrown s1 => .thrown s1
      | .timeout => .timeout
    else .ok none (removeNormalized o normalizedKey s)

/-- The value of `duration` in `set` after its three conversions, `none` when
it is `NaN`. -/
def setDuration (o : Options) (now : Int) : Duration → Option Int
  | .omitted => some (o.defaultDuration * 1000)
  | .seconds n => some (n * 1000)
  | .date ms => some (ms - now)
  | .nan => none
  | .invalidDate => none

/-- The test `duration <= 0`, which is false when `duration` is `NaN`. -/
def nonPositive : Option Int → Bool
  | some d => decide (d ≤ 0)
  | none => false

/-- Source: `set`.  A `duration` that is `NaN` passes the test `duration <= 0`
and is stored as the `d` of the entry. -/
def set (o : Options) (fuel : Nat) (now : Int) (key : String) (val : Value)
    (duration : Duration) (s : State) : Outcome Unit :=
  let duration := setDuration o now duration
  if nonPositive duration then .ok () (remove o key s)
  else save o fuel (normalizeKey o key) { v := val, t := some now, d := duration, u := 0 } s

/-- The `for (var normalizedKey in this.all)` loop of `purge` over the keys
still to visit, for a mapping whose prototype is `Object.prototype`, which has
no enumerable key: the keys visited are the own keys.  The flag is `false`
when the loop was left by the bare `return` taken for a missing or zero `t` or
`d`. -/
def purgeLoop (o : Options) (now : Int) : List String → State → Bool × State
  | [], s => (true, s)
  | normalizedKey :: rest, s =>
    match lookup normalizedKey s.all with
    | none => purgeLoop o now rest s
    | some data =>
      match data.t, data.d with
      | some t, some d =>
        if t = 0 ∨ d = 0 then (false, s)
        else if now ≥ t + d then purgeLoop o now rest (removeNormalized o normalizedKey s)
        else purgeLoop o now rest s
      | _, _ => (false, s)

/-- Source: `purge`.  The flag is `true` when `purge` returns `this` and `false`
when it returns `undefined`. -/
def purge (o : Options) (now : Int) (s : State) : Bool × State :=
  purgeLoop o now (keys s.all) { s with purges := s.purges + 1 }

/-- Source: `clear`. -/
def clear (o : Options) (s : State) : State :=
  (ownKeys s.all).foldl (fun acc normalizedKey => removeNormalized o normalizedKey acc) s

/-- The value of `duration` in `clean` after `if (!duration) duration =
this.defaultDuration`: `undefined`, `0` and `NaN` are falsy, a `Date` is not. -/
def cleanDuration (o : Options) : Duration → Duration
  | .omitted => .seconds o.defaultDuration
  | .seconds n => if n = 0 then .seconds o.defaultDuration else .seconds n
  | .date ms => .date ms
  | .nan => .seconds o.defaultDuration
  | .invalidDate => .invalidDate

/-- The test `if (this.get(...))` on the result of `get`: the `null` of a miss
and a falsy value fail it. -/
def truthyResult : Option Value → Bool
  | some v => v.truthy
  | none => false

/-- Source: `clean`.  The result is `true` when `clean` returns `this` and
`false` when it returns `undefined`; calling `set` on the `undefined` returned
by `purge` throws. -/
def clean (o : Options) (fuel : Nat) (now : Int) (duration : Duration) (s : State) :
    Outcome Bool :=
  let duration := cleanDuration o duration
  match get o fuel now "__lastClean" duration s with
  | .timeout => .timeout
  | .thrown s1 => .thrown s1
  | .ok r s1 =>
    if truthyResult r then .ok false s1
    else
      match purge o now s1 with
      | (false, s2) => .thrown s2
      | (true, s2) =>
        match set o fuel now "__lastClean" (.bool true) duration s2 with
        | .ok _ s3 => .ok true s3
        | .thrown s3 => .thrown s3
        | .timeout => .timeout

/-- The test `key.indexOf(prefix) === 0`: the key starts with the prefix. -/
def hasPrefix (o : Options) (key : String) : Bool := o.pfx.data.isPrefixOf key.data

/-- What `JSON.parse` returns for a stored string: an entry record, or a value
that is none. -/
inductive Parsed where
  | entry (data : Entry)
  | other (v : Value)
  deriving Repr

/-- The call `JSON.parse(raw)`, `none` when it throws. -/
def parse : Raw → Option Parsed
  | .json data => some (.entry data)
  | .other v => some (.other v)
  | .text _ => none

/-- One turn of the `reduce` of the constructor: a key without the prefix is
skipped, a key with it is assigned what `JSON.parse` returns for its item;
`none` when `JSON.parse` throws.  The assignment is that of an own property;
under the key `__proto__` the source installs a prototype instead, and only
when the value is an object or `null`. -/
def loadStep (o : Options) (all : List (String × Parsed)) (p : String × Raw) :
    Option (List (String × Parsed)) :=
  if hasPrefix o p.1 then
    match parse p.2 with
    | some parsed => some (assign p.1 parsed all)
    | none => none
  else some all

/-- The object that the constructor makes `this.all`: the `reduce` over
`Object.keys(this.useLocalStorage ? localStorage : {})`, `none` when it
throws. -/
def load (o : Options) (ls : Storage) : Option (List (String × Parsed)) :=
  if o.useLocalStorage then ls.items.foldlM (loadStep o) [] else some []

/-- The loaded object as a mapping of entries, `none` when one of its values is
no entry record. -/
def entries : List (String × Parsed) → Option (List (String × Entry))
  | [] => some []
  | (k, .entry data) :: rest => (entries rest).map (fun all => (k, data) :: all)
  | (_, .other _) :: _ => none

/-- Source: the constructor `Cache`.  The result is `none` when the constructor
throws (`load` is `none`), and also when it returns a cache in which some key
holds a value that is no entry record, a cache that `State` does not
represent. -/
def construct (o : Options) (ls : Storage) : Option State :=
  match load o ls with
  | some loaded => (entries loaded).map (fun all => { all := all, localStorage := ls })
  | none => none

/-! ## Sequences of public calls -/

/-- A call of a public operation. -/
inductive Call where
  | get (key : String) (duration : Duration)
  | set (key : String) (val : Value) (duration : Duration)
  | remove (key : String)
  | clear
  | purge
  | clean (duration : Duration)

/-- What a call gives back: the result of `get`, `this`, `undefined`, or an
exception. -/
inductive Reply where
  | value (r : Option Value)
  | self
  | undefined
  | threw

/-- The reply and the state after an operation, `none` when it never returns. -/
def Outcome.reply {α : Type} (f : α → Reply) : Outcome α → Option (Reply × State)
  | .ok a s => some (f a, s)
  | .thrown s => some (Reply.threw, s)
  | .timeout => none

/-- One public call made when `Date.now()` is `now`. -/
def call (o : Options) (fuel : Nat) (now : Int) : Call → State → Option (Reply × State)
  | .get key duration, s => (get o fuel now key duration s).reply Reply.value
  | .set key val duration, s => (set o fuel now key val duration s).reply (fun _ => Reply.self)
  | .remove key, s => some (Reply.self, remove o key s)
  | .clear, s => some (Reply.self, clear o s)
  | .purge, s =>
    match purge o now s with
    | (true, s1) => some (Reply.self, s1)
    | (false, s1) => some (Reply.undefined, s1)
  | .clean duration, s =>
    (clean o fuel now duration s).reply (fun b => if b then Reply.self else Reply.undefined)

/-- A sequence of public calls, each with the reading of the clock at which it
is made; a call that throws leaves its state to the next call, a call that
never returns ends the run (`none`). -/
def run (o : Options) (fuel : Nat) : List (Int × Call) → State → Option (List Reply × State)
  | [], s => some ([], s)
  | (now, c) :: rest, s =>
    match call o fuel now c s with
    | none => none
    | some (r, s1) =>
      match run o fuel rest s1 with
      | none => none
      | some (rs, s2) => some (r :: rs, s2)

/-! ## Definitions used to state the claims -/

/-- The items of the backing store that bear the cache's prefix. -/
def stored (o : Options) (s : State) : List (String × Raw) :=
  s.localStorage.items.filter (fun p => hasPrefix o p.1)

/-- The in-memory mapping with every entry serialized. -/
def serialized (all : List (String × Entry)) : List (String × Raw) :=
  all.map (fun p => (p.1, Raw.json p.2))

/-- Memory and store are consistent: the prefixed items of the store are the
serialized entries of the mapping. -/
def consistent (o : Options) (s : State) : Prop := stored o s = serialized s.all

/-- An entry with `createdAt + duration <= now`. -/
def expired (now : Int) (e : Entry) : Bool :=
  match e.t, e.d with
  | some t, some d => decide (t + d ≤ now)
  | _, _ => false

/-- An entry that has a `createdAt` and a `duration`, neither of them zero. -/
def dated (e : Entry) : Bool :=
  match e.t, e.d with
  | some t, some d => decide (t ≠ 0 ∧ d ≠ 0)
  | _, _ => false

/-- The well-formedness of an entry at the time `now`: `duration > 0`,
`createdAt > 0`, and `lastUsedAt = 0` or `createdAt <= lastUsedAt <= now`. -/
def wellFormed (now : Int) (e : Entry) : Bool :=
  match e.t, e.d with
  | some t, some d => decide (0 < d ∧ 0 < t ∧ (e.u = 0 ∨ (t ≤ e.u ∧ e.u ≤ now)))
  | _, _ => false

/-- The effective duration of a read as the specification words it: the
override if given, else the entry's stored duration, else the default; `none`
when the override is `NaN`. -/
def claimedDuration (o : Options) (now : Int) (data : Entry) : Duration → Option Int
  | .seconds n => some (n * 1000)
  | .date ms => some (ms - now)
  | .omitted =>
    match data.d with
    | some d => some d
    | none => some (o.defaultDuration * 1000)
  | .nan => none
  | .invalidDate => none

/-- The effective duration of a read as the amended claim C2 words it: the
override if given, else the entry's stored duration when it is not zero, else
`defaultDuration * 1000`; `none` when the override is `NaN`. -/
def amendedDuration (o : Options) (now : Int) (data : Entry) : Duration → Option Int
  | .seconds n => some (n * 1000)
  | .date ms => some (ms - now)
  | .omitted =>
    match data.d with
    | some d => if d ≠ 0 then some d else some (o.defaultDuration * 1000)
    | none => some (o.defaultDuration * 1000)
  | .nan => none
  | .invalidDate => none

/-- The mapping is an object whose prototype is still `Object.prototype`:
nothing has been assigned to `this.all['__proto__']`, so that the list holds
nothing under that key. -/
def State.plain (s : State) : Prop := lookup protoKey s.all = none

/-- The key that a call reads or writes, if it has one; `clean` keeps its
record under `__lastClean`. -/
def Call.key : Call → Option String
  | .get key _ => some key
  | .set key _ _ => some key
  | .remove key => some key
  | .clear => none
  | .purge => none
  | .clean _ => some "__lastClean"

/-- A call whose key, if it has one, does not normalize to `__proto__`. -/
def Call.ordinary (o : Options) (c : Call) : Bool :=
  match c.key with
  | some key => normalizeKey o key != protoKey
  | none => true

/-- A duration that is not `NaN`: left out, a number of seconds, or a valid
`Date`. -/
def Duration.isNumber : Duration → Bool
  | .nan => false
  | .invalidDate => false
  | _ => true

/-- A call that stores no `NaN` duration: a `set` whose duration is not `NaN`,
a `clean` whose duration is not an invalid `Date` (the number `NaN` is
replaced by the default there), or any other call. -/
def Call.numeric : Call → Bool
  | .set _ _ duration => duration.isNumber
  | .clean duration => duration != .invalidDate
  | _ => true

/-- The entry of a stored string, when it is the text of one. -/
def Raw.entry : Raw → Option Entry
  | .json data => some data
  | _ => none

/-- The items of a store that bear the prefix, each with what `JSON.parse`
returns for it; an item that `JSON.parse` rejects is left out. -/
def parsedItems (o : Options) (items : List (String × Raw)) : List (String × Parsed) :=
  items.filterMap (fun p =>
    if hasPrefix o p.1 then (parse p.2).map (fun parsed => (p.1, parsed)) else none)

/-- A store without items whose `setItem` never throws. -/
def emptyStorage : Storage := { items := [], rejects := fun _ => false, writes := 0 }

/-- A store without items whose `setItem` always throws. -/
def fullStorage : Storage := { items := [], rejects := fun _ => true, writes := 0 }

/-- A store without items whose `setItem` throws on its first `n` calls. -/
def failingStorage (n : Nat) : Storage :=
  { items := [], rejects := fun i => decide (i < n), writes := 0 }

/-- A cache holding one entry under `nk`, mirrored in a store that accepts
writes. -/
def singleton (nk : String) (data : Entry) : State :=
  { all := [(nk, data)], localStorage := { emptyStorage with items := [(nk, Raw.json data)] } }

/-- The cache after `set('a', 1)`, `set('b', 2)`, `set('c', 3)` at the times 1,
2, 3 on an empty cache with the default options; `ub` is the `u` of `cache:b`
and `w` the number of writes made to the store. -/
def threeWritten (ub : Int) (w : Nat) : State :=
  { all := [("cache:a", { v := .num 1, t := some 1, u := 0, d := some 86400000 }),
            ("cache:b", { v := .num 2, t := some 2, u := ub, d := some 86400000 }),
            ("cache:c", { v := .num 3, t := some 3, u := 0, d := some 86400000 })],
    localStorage :=
      { emptyStorage with
        items := [("cache:a", Raw.json { v := .num 1, t := some 1, u := 0, d := some 86400000 }),
          ("cache:b", Raw.json { v := .num 2, t := some 2, u := ub, d := some 86400000 }),
          ("cache:c", Raw.json { v := .num 3, t := some 3, u := 0, d := some 86400000 })],
        writes := w } }

/-- The invariant behind `wellFormed`: every entry of the mapping was created
at a positive time not after `now`, with a positive duration, and was last used
never or between its creation and `now`. -/
def entriesWellFormed (now : Int) (s : State) : Prop :=
  ∀ p ∈ s.all, ∃ t d, p.2.t = some t ∧ p.2.d = some d ∧ 0 < d ∧ 0 < t ∧ t ≤ now ∧
    (p.2.u = 0 ∨ (t ≤ p.2.u ∧ p.2.u ≤ now))

/-- A cache that holds an entry `cache:x` expired since the time 1001 and the
entry `cache:__lastClean` written at the time 1 by `clean(60)`; `u` is the `u`
of that entry and `w` the number of writes made to the store. -/
def cleanedOnce (u : Int) (w : Nat) : State :=
  { all := [("cache:x", { v := .num 1, t := some 1, u := 0, d := some 1000 }),
            ("cache:__lastClean", { v := .bool true, t := some 1, u := u, d := some 60000 })],
    localStorage :=
      { emptyStorage with
        items := [("cache:x", Raw.json { v := .num 1, t := some 1, u := 0, d := some 1000 }),
          ("cache:__lastClean",
            Raw.json { v := .bool true, t := some 1, u := u, d := some 60000 })],
        writes := w } }

/-! ## The object model -/

theorem lookup_assign_self {β : Type} (k : String) (b : β) (m : List (String × β)) :
    lookup k (assign k b m) = some b := by
  induction m with
  | nil => simp [assign, lookup]
  | cons p rest ih =>
    obtain ⟨k', b'⟩ := p
    by_cases hk : k' = k
    · simp [assign, lookup, hk]
    · simp [assign, lookup, hk, ih]

theorem lookup_assign_of_ne {β : Type} (k k' : String) (b : β) (m : List (String × β))
    (hne : k' ≠ k) : lookup k' (assign k b m) = lookup k' m := by
  have hne' : ¬ k = k' := fun h => hne h.symm
  induction m with
  | nil => simp [assign, lookup, hne']
  | cons p rest ih =>
    obtain ⟨k1, b1⟩ := p
    by_cases h1 : k1 = k
    · have h2 : ¬ k1 = k' := by rw [h1]; exact hne'
      simp [assign, lookup, h1, hne']
    · by_cases h2 : k1 = k'
      · subst h2
        simp [assign, lookup, hne]
      · simp [assign, lookup, h1, h2, ih]

theorem lookup_delete_self {β : Type} (k : String) (m : List (String × β)) :
    lookup k (delete k m) = none := by
  induction m with
  | nil => rfl
  | cons p rest ih =>
    obtain ⟨k', b'⟩ := p
    by_cases hk : k' = k
    · simp [delete, hk, ih]
    · simp [delete, hk, lookup, ih]

theorem lookup_delete_of_ne {β : Type} (k k' : String) (m : List (String × β))
    (hne : k' ≠ k) : lookup k' (delete k m) = lookup k' m := by
  have hne' : ¬ k = k' := fun h => hne h.symm
  induction m with
  | nil => rfl
  | cons p rest ih =>
    obtain ⟨k1, b1⟩ := p
    by_cases h1 : k1 = k
    · simp [delete, h1, lookup, hne', ih]
    · by_cases h2 : k1 = k'
      · subst h2
        simp [delete, lookup, hne]
      · simp [delete, h1, lookup, h2, ih]

theorem delete_of_lookup_none {β : Type} (k : String) (m : List (String × β))
    (h : lookup k m = none) : delete k m = m := by
  induction m with
  | nil => rfl
  | cons p rest ih =>
    obtain ⟨k', b'⟩ := p
    by_cases hk : k' = k
    · simp [lookup, hk] at h
    · simp only [lookup, hk, if_false] at h
      simp [delete, hk, ih h]

/-! ## Writes on a store that accepts them, and the two branches of `get` -/

theorem saveLoop_of_acceptsWrites (o : Options) (nk : String) (raw : Raw) (fuel : Nat)
    (s : State) (hacc : s.localStorage.acceptsWrites) :
    saveLoop o nk raw (fuel + 1) s =
      .ok () { s with localStorage :=
        { s.localStorage with items := assign nk raw s.localStorage.items,
                              writes := s.localStorage.writes + 1 } } := by
  have h := hacc s.localStorage.writes
  simp [saveLoop, Storage.setItem, h]

theorem save_of_acceptsWrites (o : Options) (fuel : Nat) (nk : String) (data : Entry)
    (s : State) (hacc : s.localStorage.acceptsWrites) :
    ∃ s1, save o (fuel + 1) nk data s = .ok () s1 ∧ s1.all = assign nk data s.all ∧
      s1.localStorage.acceptsWrites ∧
      (o.useLocalStorage = true →
        s1.localStorage.items = assign nk (Raw.json data) s.localStorage.items) := by
  unfold save
  by_cases hu : o.useLocalStorage = true
  · rw [if_pos hu, saveLoop_of_acceptsWrites o nk _ fuel
      { s with all := assign nk data s.all } hacc]
    exact ⟨_, rfl, rfl, hacc, fun _ => rfl⟩
  · rw [if_neg hu]
    exact ⟨_, rfl, rfl, hacc, fun h => absurd h hu⟩

theorem get_of_lookup_none (o : Options) (fuel : Nat) (now : Int) (key : String)
    (duration : Duration) (s : State) (h : lookup (normalizeKey o key) s.all = none) :
    get o fuel now key duration s = .ok none s := by
  simp [get, h]

theorem get_of_not_live (o : Options) (fuel : Nat) (now : Int) (key : String)
    (duration : Duration) (s : State) (data : Entry)
    (h : lookup (normalizeKey o key) s.all = some data)
    (hl : live now data (getDuration o now data duration) = false) :
    get o fuel now key duration s = .ok none (removeNormalized o (normalizeKey o key) s) := by
  simp [get, h, hl]

theorem get_of_live (o : Options) (fuel : Nat) (now : Int) (key : String)
    (duration : Duration) (s : State) (data : Entry)
    (hacc : s.localStorage.acceptsWrites)
    (h : lookup (normalizeKey o key) s.all = some data)
    (hl : live now data (getDuration o now data duration) = true) :
    ∃ s1, get o (fuel + 1) now key duration s = .ok (some data.v) s1 ∧
      s1.all = assign (normalizeKey o key) { data with u := now } s.all ∧
      s1.localStorage.acceptsWrites := by
  obtain ⟨s1, h1, h2, h3, _⟩ :=
    save_of_acceptsWrites o fuel (normalizeKey o key) { data with u := now } s hacc
  refine ⟨s1, ?_, h2, h3⟩
  simp [get, h, hl, tap, h1]

theorem removeNormalized_all (o : Options) (nk : String) (s : State) :
    (removeNormalized o nk s).all = deleteOwn nk s.all := by
  unfold removeNormalized
  split <;> rfl

theorem removeNormalized_items (o : Options) (nk : String) (s : State)
    (hu : o.useLocalStorage = true) :
    (removeNormalized o nk s).localStorage.items = delete nk s.localStorage.items := by
  simp [removeNormalized, hu, Storage.removeItem]

theorem removeNormalized_rejects (o : Options) (nk : String) (s : State) :
    (removeNormalized o nk s).localStorage.rejects = s.localStorage.rejects := by
  unfold removeNormalized
  split <;> rfl

theorem nonPositive_of_pos (d : Int) (hpos : 0 < d) : nonPositive (some d) = false := by
  simp [nonPositive, hpos]

theorem set_of_pos (o : Options) (fuel : Nat) (now : Int) (key : String) (val : Value)
    (duration : Duration) (s : State) (d : Int) (hacc : s.localStorage.acceptsWrites)
    (hd : setDuration o now duration = some d) (hpos : 0 < d) :
    ∃ s1, set o (fuel + 1) now key val duration s = .ok () s1 ∧
      s1.all = assign (normalizeKey o key)
        { v := val, t := some now, d := some d, u := 0 } s.all ∧
      s1.localStorage.acceptsWrites ∧
      (o.useLocalStorage = true →
        s1.localStorage.items = assign (normalizeKey o key)
          (Raw.json { v := val, t := some now, d := some d, u := 0 })
          s.localStorage.items) := by
  unfold set
  simp only [hd, nonPositive_of_pos d hpos, Bool.false_eq_true, if_false]
  exact save_of_acceptsWrites o fuel _ _ s hacc

theorem set_of_nonpos (o : Options) (fuel : Nat) (now : Int) (key : String) (val : Value)
    (duration : Duration) (s : State) (h : nonPositive (setDuration o now duration) = true) :
    set o fuel now key val duration s = .ok () (remove o key s) := by
  simp [set, h]

/-- The three ways in which the test `duration <= 0` of `set` succeeds. -/
theorem setDuration_nonpos_iff (o : Options) (now : Int) (duration : Duration) :
    nonPositive (setDuration o now duration) = true ↔
      (∃ n, duration = .seconds n ∧ n ≤ 0) ∨ (∃ ms, duration = .date ms ∧ ms ≤ now) ∨
      (duration = .omitted ∧ o.defaultDuration ≤ 0) := by
  cases duration with
  | omitted => simp [setDuration, nonPositive]; omega
  | seconds n => simp [setDuration, nonPositive]; omega
  | date ms => simp [setDuration, nonPositive]
  | nan => simp [setDuration, nonPositive]
  | invalidDate => simp [setDuration, nonPositive]

/-- After `set` with a positive resolved duration `d` at time `t0` on a store
that accepts writes, a `get` without override at time `t` hits exactly when
`t < t0 + d`. -/
theorem get_after_set (o : Options) (f1 f2 : Nat) (t0 t : Int) (key : String) (val : Value)
    (duration : Duration) (s : State) (d : Int) (hacc : s.localStorage.acceptsWrites)
    (hd : setDuration o t0 duration = some d) (hpos : 0 < d) :
    ∃ s1 s2, set o (f1 + 1) t0 key val duration s = .ok () s1 ∧
      get o (f2 + 1) t key .omitted s1 =
        .ok (if t < t0 + d then some val else none) s2 := by
  obtain ⟨s1, hset, hall, hacc1, _⟩ := set_of_pos o f1 t0 key val duration s d hacc hd hpos
  have hlook : lookup (normalizeKey o key) s1.all =
      some { v := val, t := some t0, d := some d, u := 0 } := by
    rw [hall]; exact lookup_assign_self _ _ _
  have hne : d ≠ 0 := ne_of_gt hpos
  by_cases hlt : t < t0 + d
  · have hl : live t { v := val, t := some t0, d := some d, u := 0 }
        (getDuration o t { v := val, t := some t0, d := some d, u := 0 } .omitted) = true := by
      simp [live, getDuration, storedOrDefault, hne, hlt]
    obtain ⟨s2, hget, _, _⟩ := get_of_live o f2 t key .omitted s1 _ hacc1 hlook hl
    exact ⟨s1, s2, hset, by rw [hget, if_pos hlt]⟩
  · have hl : live t { v := val, t := some t0, d := some d, u := 0 }
        (getDuration o t { v := val, t := some t0, d := some d, u := 0 } .omitted) = false := by
      simp [live, getDuration, storedOrDefault, hne, hlt]
    exact ⟨s1, _, hset, by rw [get_of_not_live o (f2 + 1) t key .omitted s1 _ hlook hl, if_neg hlt]⟩

/-- C1: after `set(k, v, d)` with `d > 0` seconds at time `t0` on a cache whose
backing store accepts writes, `get(k)` without override at any time `t` with
`t0 ≤ t < t0 + 1000 * d` returns `v`; the same holds for `set(k, v)` when `d` is
the default duration. -/
theorem set_then_get_returns_value (o : Options) (s : State) (k : String) (v : Value)
    (d t0 t : Int) (f1 f2 : Nat) (hacc : s.localStorage.acceptsWrites) (hd : 0 < d)
    (_h0 : t0 ≤ t) (h1 : t < t0 + 1000 * d) :
    (∃ s1 s2, set o (f1 + 1) t0 k v (.seconds d) s = .ok () s1 ∧
        get o (f2 + 1) t k .omitted s1 = .ok (some v) s2) ∧
    (o.defaultDuration = d → ∃ s1 s2, set o (f1 + 1) t0 k v .omitted s = .ok () s1 ∧
        get o (f2 + 1) t k .omitted s1 = .ok (some v) s2) := by
  have hpos : 0 < d * 1000 := by omega
  have hlt : t < t0 + d * 1000 := by omega
  constructor
  · obtain ⟨s1, s2, hset, hget⟩ :=
      get_after_set o f1 f2 t0 t k v (.seconds d) s (d * 1000) hacc rfl hpos
    rw [if_pos hlt] at hget
    exact ⟨s1, s2, hset, hget⟩
  · intro hdef
    obtain ⟨s1, s2, hset, hget⟩ :=
      get_after_set o f1 f2 t0 t k v .omitted s (d * 1000) hacc
        (by simp [setDuration, hdef]) hpos
    rw [if_pos hlt] at hget
    exact ⟨s1, s2, hset, hget⟩

/-! ## Eviction -/

theorem mem_of_mem_delete {β : Type} (k : String) (m : List (String × β)) (p : String × β)
    (h : p ∈ delete k m) : p ∈ m := by
  induction m with
  | nil => simp [delete] at h
  | cons q rest ih =>
    obtain ⟨k', b'⟩ := q
    by_cases hk : k' = k
    · simp only [delete, hk, if_true] at h
      exact List.mem_cons_of_mem _ (ih h)
    · simp only [delete, hk, if_false, List.mem_cons] at h
      rcases h with h | h
      · exact h ▸ List.mem_cons_self _ _
      · exact List.mem_cons_of_mem _ (ih h)

theorem delete_delete {β : Type} (k : String) (m : List (String × β)) :
    delete k (delete k m) = delete k m :=
  delete_of_lookup_none k _ (lookup_delete_self k m)

theorem deleteOwn_of_ne (k : String) (all : List (String × Entry)) (hk : k ≠ protoKey) :
    deleteOwn k all = delete k all := by
  simp [deleteOwn, hk]

theorem deleteOwn_protoKey (all : List (String × Entry)) : deleteOwn protoKey all = all := by
  simp [deleteOwn]

theorem undefinedKey_ne_protoKey : undefinedKey ≠ protoKey := by decide

theorem deleteOwn_undefinedKey (all : List (String × Entry)) :
    deleteOwn undefinedKey all = delete undefinedKey all :=
  deleteOwn_of_ne _ _ undefinedKey_ne_protoKey

theorem lookup_deleteOwn_self (k : String) (all : List (String × Entry)) (hk : k ≠ protoKey) :
    lookup k (deleteOwn k all) = none := by
  rw [deleteOwn_of_ne _ _ hk]; exact lookup_delete_self _ _

theorem lookup_deleteOwn_of_ne (k k' : String) (all : List (String × Entry)) (hne : k' ≠ k) :
    lookup k' (deleteOwn k all) = lookup k' all := by
  unfold deleteOwn
  split
  · rfl
  · exact lookup_delete_of_ne _ _ _ hne

theorem deleteOwn_of_lookup_none (k : String) (all : List (String × Entry))
    (h : lookup k all = none) : deleteOwn k all = all := by
  unfold deleteOwn
  split
  · rfl
  · exact delete_of_lookup_none _ _ h

theorem mem_of_mem_deleteOwn (k : String) (all : List (String × Entry)) (p : String × Entry)
    (h : p ∈ deleteOwn k all) : p ∈ all := by
  unfold deleteOwn at h
  split at h
  · exact h
  · exact mem_of_mem_delete _ _ _ h

theorem deleteOwn_deleteOwn (k : String) (all : List (String × Entry)) :
    deleteOwn k (deleteOwn k all) = deleteOwn k all := by
  unfold deleteOwn
  split
  · rfl
  · exact delete_delete _ _

theorem lookup_of_lookup_deleteOwn (k k1 : String) (all : List (String × Entry)) (e : Entry)
    (h : lookup k1 (deleteOwn k all) = some e) : lookup k1 all = some e := by
  by_cases hkk : k1 = k
  · by_cases hk : k = protoKey
    · rw [hk, deleteOwn_protoKey] at h; exact h
    · rw [hkk, lookup_deleteOwn_self _ _ hk] at h
      cases h
  · rw [lookup_deleteOwn_of_ne _ _ _ hkk] at h
    exact h

theorem lookup_deleteOwn_self_of_none (k : String) (all : List (String × Entry))
    (hp : lookup protoKey all = none) : lookup k (deleteOwn k all) = none := by
  by_cases hk : k = protoKey
  · rw [hk, deleteOwn_protoKey]; exact hp
  · exact lookup_deleteOwn_self _ _ hk

/-- A key under which the mapping holds an entry is not `__proto__`, in a
mapping that holds none under `__proto__`. -/
theorem ne_protoKey_of_lookup (k : String) (all : List (String × Entry)) (e : Entry)
    (hp : lookup protoKey all = none) (h : lookup k all = some e) : k ≠ protoKey := by
  intro hk
  rw [hk, hp] at h
  cases h

theorem foldl_lruStep_truthy (all : List (String × Entry)) :
    ∀ (todo : List (String × Entry)) (l : String), (∀ p ∈ todo, p.1 ≠ "") → l ≠ "" →
      falsyKey (todo.foldl (lruStep all) (some l)) = false := by
  intro todo
  induction todo with
  | nil => intro l _ hl; simpa [falsyKey] using hl
  | cons p rest ih =>
    intro l hk hl
    have hp : p.1 ≠ "" := hk p (List.mem_cons_self _ _)
    have hrest : ∀ q ∈ rest, q.1 ≠ "" := fun q hq => hk q (List.mem_cons_of_mem _ hq)
    simp only [List.foldl_cons, lruStep]
    split
    · exact ih _ hrest hp
    · exact ih _ hrest hl

/-- On a non-empty mapping without the empty key the scan of `clearLru` ends
with a truthy `lru`. -/
theorem lruScan_truthy (all : List (String × Entry)) (hne : all ≠ [])
    (hk : ∀ p ∈ all, p.1 ≠ "") : falsyKey (lruScan all) = false := by
  cases hall : all with
  | nil => exact absurd hall hne
  | cons p rest =>
    have hp : p.1 ≠ "" := hk p (hall ▸ List.mem_cons_self _ _)
    have hrest : ∀ q ∈ rest, q.1 ≠ "" := fun q hq => hk q (hall ▸ List.mem_cons_of_mem _ hq)
    simp only [lruScan, List.foldl_cons, lruStep]
    exact foldl_lruStep_truthy _ rest p.1 hrest hp

/-- What `clearLru` removes is the key `"undefined"`, whatever key it selected:
every other key keeps its entry in the mapping and in the store. -/
theorem clearLru_frame (o : Options) (s : State) (k : String) (hk : k ≠ undefinedKey) :
    lookup k (clearLru o s).2.all = lookup k s.all ∧
    lookup k (clearLru o s).2.localStorage.items = lookup k s.localStorage.items := by
  unfold clearLru
  by_cases hf : falsyKey (lruScan s.all) = true
  · simp [hf]
  · rw [if_neg hf]
    constructor
    · rw [removeNormalized_all]; exact lookup_deleteOwn_of_ne _ _ _ hk
    · by_cases hu : o.useLocalStorage = true
      · rw [removeNormalized_items _ _ _ hu]; exact lookup_delete_of_ne _ _ _ hk
      · simp [removeNormalized, hu]

/-- With a store that rejects every write, the loop of `save` never ends as
long as the mapping holds a key other than `"undefined"` and no empty key:
`clearLru` keeps reporting a key without removing it. -/
theorem saveLoop_never_returns (o : Options) (nk : String) (raw : Raw) :
    ∀ (fuel : Nat) (s : State), (∀ i, s.localStorage.rejects i = true) →
      delete undefinedKey s.all ≠ [] → (∀ p ∈ s.all, p.1 ≠ "") →
      saveLoop o nk raw fuel s = .timeout := by
  intro fuel
  induction fuel with
  | zero => intro s _ _ _; rfl
  | succ n ih =>
    intro s hrej hne hk
    have hall : s.all ≠ [] := by
      intro h; rw [h] at hne; exact hne rfl
    have ht := lruScan_truthy s.all hall hk
    have hr := hrej s.localStorage.writes
    cases hscan : lruScan s.all with
    | none => rw [hscan] at ht; simp [falsyKey] at ht
    | some l =>
      rw [hscan] at ht
      simp only [saveLoop, Storage.setItem, hr, if_true, clearLru, hscan, ht]
      apply ih
      · intro i
        rw [removeNormalized_rejects]; exact hrej i
      · rw [removeNormalized_all, deleteOwn_undefinedKey]
        simpa [delete_delete] using hne
      · intro p hp
        rw [removeNormalized_all] at hp
        exact hk p (mem_of_mem_deleteOwn _ _ _ hp)

theorem lookup_of_mem_of_nodup (m : List (String × Entry)) (k : String) (e : Entry)
    (hnd : (keys m).Nodup) (hmem : (k, e) ∈ m) : lookup k m = some e := by
  induction m with
  | nil => cases hmem
  | cons p rest ih =>
    obtain ⟨k', e'⟩ := p
    simp only [keys, List.map_cons, List.nodup_cons] at hnd
    rcases List.mem_cons.mp hmem with h | h
    · cases h; simp [lookup]
    · have hk : k' ≠ k := by
        intro hh
        apply hnd.1
        rw [hh]
        exact List.mem_map.mpr ⟨(k, e), h, rfl⟩
      simp only [lookup, hk, if_false]
      exact ih hnd.2 h

/-- The loop invariant of the scan of `clearLru`: `lru` is the first key, among
those visited, whose `u` is least. -/
theorem foldl_lruStep_least (all : List (String × Entry)) (hnd : (keys all).Nodup)
    (hk : ∀ p ∈ all, p.1 ≠ "") :
    ∀ (todo d1 d2 : List (String × Entry)) (k : String) (e : Entry),
      all = d1 ++ (k, e) :: d2 ++ todo → (∀ p ∈ d1, e.u < p.2.u) → (∀ p ∈ d2, e.u ≤ p.2.u) →
      ∃ k1 e1 c1 c2, todo.foldl (lruStep all) (some k) = some k1 ∧
        all = c1 ++ (k1, e1) :: c2 ∧ (∀ p ∈ c1, e1.u < p.2.u) ∧ (∀ p ∈ c2, e1.u ≤ p.2.u) := by
  intro todo
  induction todo with
  | nil =>
    intro d1 d2 k e hall h1 h2
    exact ⟨k, e, d1, d2, rfl, by simpa using hall, h1, h2⟩
  | cons p rest ih =>
    intro d1 d2 k e hall h1 h2
    have hmem : (k, e) ∈ all := by rw [hall]; simp
    have hlook : lookup k all = some e := lookup_of_mem_of_nodup all k e hnd hmem
    have hkne : k ≠ "" := hk (k, e) hmem
    have hfalsy : falsyKey (some k) = false := by simpa [falsyKey] using hkne
    simp only [List.foldl_cons, lruStep, hfalsy, usedBefore, hlook, Bool.false_or]
    by_cases hlt : p.2.u < e.u
    · simp only [hlt, decide_True, if_true]
      apply ih (d1 ++ (k, e) :: d2) [] p.1 p.2
      · rw [hall]; simp
      · intro q hq
        rcases List.mem_append.mp hq with hq | hq
        · exact lt_trans hlt (h1 q hq)
        · rcases List.mem_cons.mp hq with hq | hq
          · rw [hq]; exact hlt
          · exact lt_of_lt_of_le hlt (h2 q hq)
      · intro q hq; cases hq
    · simp only [hlt, decide_False]
      apply ih d1 (d2 ++ [p]) k e
      · rw [hall]; simp
      · exact h1
      · intro q hq
        rcases List.mem_append.mp hq with hq | hq
        · exact h2 q hq
        · rw [List.mem_singleton.mp hq]; exact not_lt.mp hlt

/-- The return value of `clearLru` on a mapping without the empty key: `false`
exactly when the mapping is empty, otherwise the first key, in enumeration
order, whose `u` is least. -/
theorem clearLru_result_of_no_empty_key (o : Options) (s : State)
    (hnd : (keys s.all).Nodup) (hk : ∀ p ∈ s.all, p.1 ≠ "") :
    ((clearLru o s).1 = none ↔ s.all = []) ∧
    ∀ k, (clearLru o s).1 = some k →
      ∃ e c1 c2, s.all = c1 ++ (k, e) :: c2 ∧ (∀ p ∈ c1, e.u < p.2.u) ∧
        (∀ p ∈ c2, e.u ≤ p.2.u) := by
  cases hall : s.all with
  | nil => simp [clearLru, hall, lruScan, falsyKey]
  | cons p rest =>
    have hne : s.all ≠ [] := by rw [hall]; simp
    have ht := lruScan_truthy s.all hne hk
    have hres : (clearLru o s).1 = lruScan s.all := by simp [clearLru, ht]
    obtain ⟨k1, e1, c1, c2, hfold, hsplit, h1, h2⟩ :=
      foldl_lruStep_least s.all hnd hk rest [] [] p.1 p.2 (by rw [hall]; simp)
        (fun q hq => by cases hq) (fun q hq => by cases hq)
    have hscan : lruScan s.all = some k1 := by
      rw [← hfold]
      simp only [lruScan]
      rw [hall]
      simp only [List.foldl_cons, lruStep]
    rw [hres, hscan, ← hall]
    refine ⟨by simp [hne], ?_⟩
    intro k hk1
    cases hk1
    exact ⟨e1, c1, c2, hsplit, h1, h2⟩

theorem removeNormalized_writes (o : Options) (nk : String) (s : State) :
    (removeNormalized o nk s).localStorage.writes = s.localStorage.writes := by
  unfold removeNormalized
  split <;> rfl

theorem removeNormalized_items_lookup (o : Options) (nk k : String) (s : State)
    (hk : k ≠ nk) :
    lookup k (removeNormalized o nk s).localStorage.items = lookup k s.localStorage.items := by
  by_cases hu : o.useLocalStorage = true
  · rw [removeNormalized_items _ _ _ hu]; exact lookup_delete_of_ne _ _ _ hk
  · simp [removeNormalized, hu]

/-- With a store that rejects `n` writes and accepts the next one, on a mapping
that holds a key other than `"undefined"` and no empty key, the loop of `save`
returns after `n` calls of `clearLru`, none of which has removed a key other
than `"undefined"`. -/
theorem saveLoop_after_rejections (o : Options) (nk : String) (raw : Raw) (fuel : Nat) :
    ∀ (n : Nat) (s : State),
      (∀ i, i < n → s.localStorage.rejects (s.localStorage.writes + i) = true) →
      s.localStorage.rejects (s.localStorage.writes + n) = false →
      delete undefinedKey s.all ≠ [] → (∀ p ∈ s.all, p.1 ≠ "") →
      ∃ s1, saveLoop o nk raw (fuel + n + 1) s = .ok () s1 ∧
        (∀ k, k ≠ undefinedKey → lookup k s1.all = lookup k s.all) ∧
        (∀ k, k ≠ undefinedKey →
          lookup k s1.localStorage.items = lookup k (assign nk raw s.localStorage.items)) := by
  intro n
  induction n with
  | zero =>
    intro s _ hacc _ _
    have h : s.localStorage.rejects s.localStorage.writes = false := by simpa using hacc
    refine ⟨{ s with localStorage :=
        { s.localStorage with items := assign nk raw s.localStorage.items,
                              writes := s.localStorage.writes + 1 } },
      ?_, fun k _ => rfl, fun k _ => rfl⟩
    simp [saveLoop, Storage.setItem, h]
  | succ n ih =>
    intro s hrej hacc hne hk
    have hr : s.localStorage.rejects s.localStorage.writes = true := by
      simpa using hrej 0 (Nat.succ_pos n)
    have hall : s.all ≠ [] := by
      intro h; rw [h] at hne; exact hne rfl
    have ht := lruScan_truthy s.all hall hk
    cases hscan : lruScan s.all with
    | none => rw [hscan] at ht; simp [falsyKey] at ht
    | some l =>
      rw [hscan] at ht
      have hstep : saveLoop o nk raw (fuel + (n + 1) + 1) s =
          saveLoop o nk raw (fuel + n + 1)
            (removeNormalized o undefinedKey
              { s with localStorage :=
                { s.localStorage with writes := s.localStorage.writes + 1 } }) := by
        have : fuel + (n + 1) + 1 = (fuel + n + 1) + 1 := by omega
        rw [this]
        simp [saveLoop, Storage.setItem, hr, clearLru, hscan, ht]
      obtain ⟨s1, hs1, hall1, hitems1⟩ := ih
        (removeNormalized o undefinedKey
          { s with localStorage :=
            { s.localStorage with writes := s.localStorage.writes + 1 } })
        (by
          intro i hi
          rw [removeNormalized_rejects, removeNormalized_writes]
          have := hrej (i + 1) (Nat.succ_lt_succ hi)
          simpa [Nat.add_assoc, Nat.add_comm 1 i] using this)
        (by
          rw [removeNormalized_rejects, removeNormalized_writes]
          simpa [Nat.add_assoc, Nat.add_comm 1 n] using hacc)
        (by
          rw [removeNormalized_all, deleteOwn_undefinedKey]
          simpa [delete_delete] using hne)
        (by
          intro p hp
          rw [removeNormalized_all] at hp
          exact hk p (mem_of_mem_deleteOwn _ _ _ hp))
      refine ⟨s1, by rw [hstep, hs1], ?_, ?_⟩
      · intro k hkne
        rw [hall1 k hkne, removeNormalized_all]
        exact lookup_deleteOwn_of_ne _ _ _ hkne
      · intro k hkne
        rw [hitems1 k hkne]
        by_cases hnk : k = nk
        · subst hnk
          rw [lookup_assign_self, lookup_assign_self]
        · rw [lookup_assign_of_ne _ _ _ _ hnk, lookup_assign_of_ne _ _ _ _ hnk]
          exact removeNormalized_items_lookup o undefinedKey k _ hkne

/-- C2 (as stated, refuted): an entry stored with duration `0` and created at
time `0` has elapsed at time `1` under the claim's effective duration, yet
`get` returns its value and keeps it. -/
theorem get_zero_stored_duration_hits :
    lookup (normalizeKey {} "k")
        (singleton "cache:k" { v := .num 7, t := some 0, u := 0, d := some 0 }).all =
      some { v := .num 7, t := some 0, u := 0, d := some 0 } ∧
    claimedDuration {} 1 { v := .num 7, t := some 0, u := 0, d := some 0 } .omitted = some 0 ∧
    (1 : Int) ≥ 0 + 0 ∧
    get {} 1 1 "k" .omitted
        (singleton "cache:k" { v := .num 7, t := some 0, u := 0, d := some 0 }) =
      .ok (some (.num 7))
        { all := [("cache:k", { v := .num 7, t := some 0, u := 1, d := some 0 })],
          localStorage :=
            { emptyStorage with
              items := [("cache:k", Raw.json { v := .num 7, t := some 0, u := 1, d := some 0 })],
              writes := 1 } } := by
  refine ⟨rfl, rfl, by decide, rfl⟩

/-- The duration that `get` resolves is the one the amended claim C2 words. -/
theorem getDuration_eq_amendedDuration (o : Options) (now : Int) (data : Entry)
    (duration : Duration) :
    getDuration o now data duration = amendedDuration o now data duration := by
  cases duration with
  | omitted =>
    simp only [getDuration, amendedDuration, storedOrDefault]
    cases data.d with
    | none => rfl
    | some d => by_cases hd : d = 0 <;> simp [hd]
  | seconds n => rfl
  | date ms => rfl
  | nan => rfl
  | invalidDate => rfl

/-- C2 (amended): in a cache in which nothing has been assigned to
`this.all['__proto__']`, when the entry under the normalized key was created
at `t` and `now ≥ t + duration`, the duration being the override if given,
else the entry's stored duration when it is not zero, else
`defaultDuration * 1000`, then `get` returns absent and afterwards the
normalized key is neither in the in-memory mapping nor in the backing store
the cache uses. -/
theorem get_expired_returns_absent (o : Options) (fuel : Nat) (now : Int) (key : String)
    (duration : Duration) (s : State) (data : Entry) (t dur : Int) (_hplain : s.plain)
    (h : lookup (normalizeKey o key) s.all = some data) (ht : data.t = some t)
    (hdur : amendedDuration o now data duration = some dur) (hexp : now ≥ t + dur) :
    ∃ s1, get o fuel now key duration s = .ok none s1 ∧
      lookup (normalizeKey o key) s1.all = none ∧
      (o.useLocalStorage = true → lookup (normalizeKey o key) s1.localStorage.items = none) := by
  have hl : live now data (getDuration o now data duration) = false := by
    rw [getDuration_eq_amendedDuration, hdur]
    simp [live, ht]; omega
  refine ⟨_, get_of_not_live o fuel now key duration s data h hl, ?_, ?_⟩
  · rw [removeNormalized_all]
    exact lookup_deleteOwn_self _ _ (ne_protoKey_of_lookup _ _ _ _hplain h)
  · intro hu
    rw [removeNormalized_items _ _ _ hu]; exact lookup_delete_self _ _

theorem get_expired_returns_absent_witness :
    ∃ s1, get {} 0 10005 "a" .omitted
        (singleton "cache:a" { v := .num 7, t := some 5, u := 0, d := some 10000 }) =
          .ok none s1 ∧
      lookup (normalizeKey {} "a") s1.all = none ∧
      (({} : Options).useLocalStorage = true →
        lookup (normalizeKey {} "a") s1.localStorage.items = none) :=
  get_expired_returns_absent {} 0 10005 "a" .omitted
    (singleton "cache:a" { v := .num 7, t := some 5, u := 0, d := some 10000 })
    { v := .num 7, t := some 5, u := 0, d := some 10000 } 5 10000 rfl rfl rfl rfl
    (by decide)

theorem set_then_get_returns_value_witness :
    (∃ s1 s2, set { defaultDuration := 60 } 1 1000 "k" (.obj [("a", .num 1)]) (.seconds 60)
          { all := [], localStorage := emptyStorage } = .ok () s1 ∧
        get { defaultDuration := 60 } 1 2000 "k" .omitted s1 =
          .ok (some (.obj [("a", .num 1)])) s2) ∧
    (∃ s1 s2, set { defaultDuration := 60 } 1 1000 "k" (.obj [("a", .num 1)]) .omitted
          { all := [], localStorage := emptyStorage } = .ok () s1 ∧
        get { defaultDuration := 60 } 1 2000 "k" .omitted s1 =
          .ok (some (.obj [("a", .num 1)])) s2) :=
  ⟨(set_then_get_returns_value { defaultDuration := 60 }
      { all := [], localStorage := emptyStorage } "k" (.obj [("a", .num 1)]) 60 1000 2000 0 0
      (fun _ => rfl) (by decide) (by decide) (by decide)).1,
   (set_then_get_returns_value { defaultDuration := 60 }
      { all := [], localStorage := emptyStorage } "k" (.obj [("a", .num 1)]) 60 1000 2000 0 0
      (fun _ => rfl) (by decide) (by decide) (by decide)).2 rfl⟩

/-- In a cache in which nothing has been assigned to `this.all['__proto__']`,
`set(k, v, d)` whose resolved duration is not positive (a number of seconds
`≤ 0`, or an absolute time not after now) returns after removing the key: the
normalized key is then neither in the in-memory mapping nor in the backing
store the cache uses, and every later `get(k)` returns absent. -/
theorem set_nonpositive_duration_deletes (o : Options) (fuel : Nat) (now : Int)
    (k : String) (v : Value) (duration : Duration) (s : State) (_hplain : s.plain)
    (hd : nonPositive (setDuration o now duration) = true) :
    ∃ s1, set o fuel now k v duration s = .ok () s1 ∧
      lookup (normalizeKey o k) s1.all = none ∧
      (o.useLocalStorage = true → lookup (normalizeKey o k) s1.localStorage.items = none) ∧
      ∀ (fuel1 : Nat) (now1 : Int) (duration1 : Duration),
        get o fuel1 now1 k duration1 s1 = .ok none s1 := by
  have hall : lookup (normalizeKey o k) (remove o k s).all = none := by
    unfold remove
    rw [removeNormalized_all]; exact lookup_deleteOwn_self_of_none _ _ _hplain
  refine ⟨remove o k s, set_of_nonpos o fuel now k v duration s hd, hall, ?_, ?_⟩
  · intro hu
    unfold remove
    rw [removeNormalized_items _ _ _ hu]; exact lookup_delete_self _ _
  · intro fuel1 now1 duration1
    exact get_of_lookup_none o fuel1 now1 k duration1 _ hall

theorem set_nonpositive_duration_deletes_witness :
    ∃ s1, set {} 0 50 "a" (.num 2) (.seconds 0)
        (singleton "cache:a" { v := .num 7, t := some 5, u := 0, d := some 10000 }) =
          .ok () s1 ∧
      lookup (normalizeKey {} "a") s1.all = none ∧
      (({} : Options).useLocalStorage = true →
        lookup (normalizeKey {} "a") s1.localStorage.items = none) ∧
      ∀ (fuel1 : Nat) (now1 : Int) (duration1 : Duration),
        get {} fuel1 now1 "a" duration1 s1 = .ok none s1 :=
  set_nonpositive_duration_deletes {} 0 50 "a" (.num 2) (.seconds 0)
    (singleton "cache:a" { v := .num 7, t := some 5, u := 0, d := some 10000 }) rfl rfl

/-- C8 (the code at the failing input): in a cache with the prefix `''`,
`set('__proto__', 1, 10)` at the time 1 makes the entry the prototype of
`this.all`; `set('__proto__', 2, 0)` at the time 2 returns `this` after a
`delete` that removes nothing, so that the entry is still there, and
`get('__proto__')` at the time 3 returns `1` and writes the entry back to the
store. -/
theorem set_zero_duration_keeps_proto_entry :
    call { pfx := "" } 1 1 (.set "__proto__" (.num 1) (.seconds 10))
        { all := [], localStorage := emptyStorage } =
      some (Reply.self,
        { all := [("__proto__", { v := .num 1, t := some 1, u := 0, d := some 10000 })],
          localStorage :=
            { emptyStorage with
              items := [("__proto__",
                Raw.json { v := .num 1, t := some 1, u := 0, d := some 10000 })],
              writes := 1 } }) ∧
    nonPositive (setDuration { pfx := "" } 2 (.seconds 0)) = true ∧
    call { pfx := "" } 1 2 (.set "__proto__" (.num 2) (.seconds 0))
        { all := [("__proto__", { v := .num 1, t := some 1, u := 0, d := some 10000 })],
          localStorage :=
            { emptyStorage with
              items := [("__proto__",
                Raw.json { v := .num 1, t := some 1, u := 0, d := some 10000 })],
              writes := 1 } } =
      some (Reply.self,
        { all := [("__proto__", { v := .num 1, t := some 1, u := 0, d := some 10000 })],
          localStorage := { emptyStorage with writes := 1 } }) ∧
    call { pfx := "" } 1 3 (.get "__proto__" .omitted)
        { all := [("__proto__", { v := .num 1, t := some 1, u := 0, d := some 10000 })],
          localStorage := { emptyStorage with writes := 1 } } =
      some (Reply.value (some (.num 1)),
        { all := [("__proto__", { v := .num 1, t := some 1, u := 3, d := some 10000 })],
          localStorage :=
            { emptyStorage with
              items := [("__proto__",
                Raw.json { v := .num 1, t := some 1, u := 3, d := some 10000 })],
              writes := 2 } }) :=
  ⟨rfl, rfl, rfl, rfl⟩

/-- Whenever `get` returns for an entry created at `t`, it returns the value
exactly when `now < t + duration` for the duration resolved at the read. -/
theorem get_result_iff_live (o : Options) (fuel : Nat) (now t x : Int) (k : String)
    (duration : Duration) (s s1 : State) (data : Entry) (r : Option Value)
    (h : lookup (normalizeKey o k) s.all = some data) (ht : data.t = some t)
    (hx : getDuration o now data duration = some x)
    (hget : get o fuel now k duration s = .ok r s1) :
    r = some data.v ↔ now < t + x := by
  by_cases hlt : now < t + x
  · have hl : live now data (getDuration o now data duration) = true := by
      simp [live, ht, hx, hlt]
    simp only [get, h, hl, if_true] at hget
    cases htap : tap o fuel now (normalizeKey o k) s with
    | ok a s2 =>
      rw [htap] at hget
      simp only [Outcome.ok.injEq] at hget
      simp [hlt, hget.1.symm]
    | thrown s2 => rw [htap] at hget; cases hget
    | timeout => rw [htap] at hget; cases hget
  · have hl : live now data (getDuration o now data duration) = false := by
      simp [live, ht, hx, hlt]
    rw [get_of_not_live o fuel now k duration s data h hl] at hget
    simp only [Outcome.ok.injEq] at hget
    simp [hlt, hget.1.symm]

/-- C9: for an entry present under `k` with creation time `t` and any stored
duration, every `get(k, n)` with a numeric override of `n` seconds that
returns, returns the value exactly when `now < t + 1000 * n`, and with an
absolute-time override `D` exactly when `now < t + (D - now)`; on a store that
accepts writes these calls do return; and on any cache whose store accepts
writes, `set(k, v, 100)` at a time `t1` followed by `get(k, 0)` at any
`now ≥ t1` returns absent. -/
theorem get_override_decides_liveness (o : Options) (fuel : Nat) (now t : Int)
    (k : String) (s : State) (data : Entry)
    (h : lookup (normalizeKey o k) s.all = some data) (ht : data.t = some t) :
    (∀ (n : Int) (f : Nat) (r : Option Value) (s1 : State),
      get o f now k (.seconds n) s = .ok r s1 → (r = some data.v ↔ now < t + 1000 * n)) ∧
    (∀ (D : Int) (f : Nat) (r : Option Value) (s1 : State),
      get o f now k (.date D) s = .ok r s1 → (r = some data.v ↔ now < t + (D - now))) ∧
    (s.localStorage.acceptsWrites →
      (∀ n : Int, ∃ s1, get o (fuel + 1) now k (.seconds n) s =
        .ok (if now < t + 1000 * n then some data.v else none) s1) ∧
      (∀ D : Int, ∃ s1, get o (fuel + 1) now k (.date D) s =
        .ok (if now < t + (D - now) then some data.v else none) s1)) ∧
    (∀ (s0 : State) (v : Value) (fuel1 : Nat) (t1 : Int),
      s0.localStorage.acceptsWrites → t1 ≤ now →
        ∃ s1 s2, set o (fuel1 + 1) t1 k v (.seconds 100) s0 = .ok () s1 ∧
          get o fuel now k (.seconds 0) s1 = .ok none s2) := by
  refine ⟨?_, ?_, ?_, ?_⟩
  · intro n f r s1 hget
    have := get_result_iff_live o f now t (n * 1000) k (.seconds n) s s1 data r h ht rfl hget
    rw [this]
    constructor <;> intro hh <;> linarith
  · intro D f r s1 hget
    exact get_result_iff_live o f now t (D - now) k (.date D) s s1 data r h ht rfl hget
  · intro hacc
    have key : ∀ (duration : Duration) (x : Int), getDuration o now data duration = some x →
        ∃ s1, get o (fuel + 1) now k duration s =
          .ok (if now < t + x then some data.v else none) s1 := by
      intro duration x hx
      by_cases hlt : now < t + x
      · have hl : live now data (getDuration o now data duration) = true := by
          simp [live, ht, hx, hlt]
        obtain ⟨s1, hget, _, _⟩ := get_of_live o fuel now k duration s data hacc h hl
        exact ⟨s1, by rw [hget, if_pos hlt]⟩
      · have hl : live now data (getDuration o now data duration) = false := by
          simp [live, ht, hx, hlt]
        exact ⟨_, by rw [get_of_not_live o (fuel + 1) now k duration s data h hl, if_neg hlt]⟩
    exact ⟨fun n => key (.seconds n) (1000 * n) (by simp [getDuration]; ring),
      fun D => key (.date D) (D - now) rfl⟩
  · intro s0 v fuel1 t1 hacc hle
    obtain ⟨s1, hset, hall, _, _⟩ :=
      set_of_pos o fuel1 t1 k v (.seconds 100) s0 (100 * 1000) hacc rfl (by decide)
    have hlook : lookup (normalizeKey o k) s1.all =
        some { v := v, t := some t1, d := some (100 * 1000), u := 0 } := by
      rw [hall]; exact lookup_assign_self _ _ _
    refine ⟨s1, _, hset, get_of_not_live o fuel now k (.seconds 0) s1 _ hlook ?_⟩
    simp [live, getDuration]; omega

theorem get_override_decides_liveness_witness :
    ((∀ n : Int, ∃ s1, get {} 1 50 "a" (.seconds n)
        (singleton "cache:a" { v := .num 7, t := some 5, u := 0, d := some 10000 }) =
        .ok (if (50 : Int) < 5 + 1000 * n then
          some ({ v := .num 7, t := some 5, u := 0, d := some 10000 } : Entry).v else none) s1) ∧
     (∀ D : Int, ∃ s1, get {} 1 50 "a" (.date D)
        (singleton "cache:a" { v := .num 7, t := some 5, u := 0, d := some 10000 }) =
        .ok (if (50 : Int) < 5 + (D - 50) then
          some ({ v := .num 7, t := some 5, u := 0, d := some 10000 } : Entry).v else none) s1)) ∧
    (∃ s1 s2, set {} 1 5 "a" (.num 7) (.seconds 100)
          { all := [], localStorage := emptyStorage } = .ok () s1 ∧
        get {} 0 50 "a" (.seconds 0) s1 = .ok none s2) :=
  ⟨(get_override_decides_liveness {} 0 50 5 "a"
      (singleton "cache:a" { v := .num 7, t := some 5, u := 0, d := some 10000 })
      { v := .num 7, t := some 5, u := 0, d := some 10000 } rfl rfl).2.2.1 (fun _ => rfl),
   (get_override_decides_liveness {} 0 50 5 "a"
      (singleton "cache:a" { v := .num 7, t := some 5, u := 0, d := some 10000 })
      { v := .num 7, t := some 5, u := 0, d := some 10000 } rfl rfl).2.2.2
      { all := [], localStorage := emptyStorage } (.num 7) 0 5 (fun _ => rfl) (by decide)⟩

/-- C10: on a store that accepts writes, `set(k, v, D)` at time `t0 < D` with
`D` an absolute time stores the duration `D - t0`, and `get(k)` without
override returns `v` at every `t` with `t0 ≤ t < D` and absent at every
`t ≥ D`. -/
theorem set_absolute_expiry (o : Options) (fuel : Nat) (t0 D : Int) (k : String)
    (v : Value) (s : State) (hacc : s.localStorage.acceptsWrites) (hD : t0 < D) :
    ∃ s1, set o (fuel + 1) t0 k v (.date D) s = .ok () s1 ∧
      (∃ data, lookup (normalizeKey o k) s1.all = some data ∧ data.d = some (D - t0)) ∧
      (∀ (t : Int) (fuel1 : Nat), t0 ≤ t → t < D →
        ∃ s2, get o (fuel1 + 1) t k .omitted s1 = .ok (some v) s2) ∧
      (∀ (t : Int) (fuel1 : Nat), D ≤ t →
        ∃ s2, get o fuel1 t k .omitted s1 = .ok none s2) := by
  have hne : D - t0 ≠ 0 := by omega
  obtain ⟨s1, hset, hall, hacc1, _⟩ :=
    set_of_pos o fuel t0 k v (.date D) s (D - t0) hacc rfl (by omega)
  have hlook : lookup (normalizeKey o k) s1.all =
      some { v := v, t := some t0, d := some (D - t0), u := 0 } := by
    rw [hall]; exact lookup_assign_self _ _ _
  refine ⟨s1, hset, ⟨_, hlook, rfl⟩, ?_, ?_⟩
  · intro t fuel1 _ hlt
    have hl : live t { v := v, t := some t0, d := some (D - t0), u := 0 }
        (getDuration o t { v := v, t := some t0, d := some (D - t0), u := 0 } .omitted)
          = true := by
      simp [live, getDuration, storedOrDefault, hne, hlt]
    obtain ⟨s2, hget, _, _⟩ := get_of_live o fuel1 t k .omitted s1 _ hacc1 hlook hl
    exact ⟨s2, hget⟩
  · intro t fuel1 hge
    have hl : live t { v := v, t := some t0, d := some (D - t0), u := 0 }
        (getDuration o t { v := v, t := some t0, d := some (D - t0), u := 0 } .omitted)
          = false := by
      simp [live, getDuration, storedOrDefault, hne, hge]
    exact ⟨_, get_of_not_live o fuel1 t k .omitted s1 _ hlook hl⟩

theorem set_absolute_expiry_witness :
    ∃ s1, set {} 1 1000 "a" (.str "x") (.date 5000)
        { all := [], localStorage := emptyStorage } = .ok () s1 ∧
      (∃ data, lookup (normalizeKey {} "a") s1.all = some data ∧
        data.d = some ((5000 : Int) - 1000)) ∧
      (∀ (t : Int) (fuel1 : Nat), 1000 ≤ t → t < 5000 →
        ∃ s2, get {} (fuel1 + 1) t "a" .omitted s1 = .ok (some (.str "x")) s2) ∧
      (∀ (t : Int) (fuel1 : Nat), 5000 ≤ t →
        ∃ s2, get {} fuel1 t "a" .omitted s1 = .ok none s2) :=
  set_absolute_expiry {} 0 1000 5000 "a" (.str "x")
    { all := [], localStorage := emptyStorage } (fun _ => rfl) (by decide)

/-- C3 (the code at the failing input): in a cache with the prefix `''` whose
store rejects one write, `set('undefined', 1, 10)` returns normally, but the
eviction made before the retry has removed the entry being written: on return
it is in the backing store and not in the in-memory mapping. -/
theorem set_evicts_entry_being_written (fuel : Nat) :
    set { pfx := "" } (fuel + 2) 5 "undefined" (.num 1) (.seconds 10)
        { all := [], localStorage := failingStorage 1 } =
      .ok ()
        { all := [],
          localStorage :=
            { failingStorage 1 with
              items := [("undefined",
                Raw.json { v := .num 1, t := some 5, u := 0, d := some 10000 })],
              writes := 2 } } := by
  rfl

/-- C4 (the code at the failing input): on an empty cache whose store rejects
every write, `set('a', 1, 10)` does not return within any number of write
attempts: it neither succeeds nor propagates the failure. -/
theorem set_on_rejecting_store_never_returns (fuel : Nat) :
    set {} fuel 5 "a" (.num 1) (.seconds 10) { all := [], localStorage := fullStorage } =
      .timeout := by
  have h : nonPositive (setDuration {} 5 (.seconds 10)) = false := by decide
  simp only [set, h, Bool.false_eq_true, if_false, save]
  apply saveLoop_never_returns
  · intro i; rfl
  · intro hnil
    exact absurd (congrArg List.length hnil) (by decide)
  · intro p hp
    simp only [assign, List.mem_singleton] at hp
    rw [hp]
    decide

/-- C5 (the code at the failing input): on a cache holding one entry under
`cache:a`, `clearLru()` returns `cache:a` and leaves the mapping and the store
as they were, the entry included. -/
theorem clearLru_keeps_selected_entry (data : Entry) :
    clearLru {} (singleton "cache:a" data) = (some "cache:a", singleton "cache:a" data) ∧
    lookup "cache:a" (clearLru {} (singleton "cache:a" data)).2.all = some data ∧
    lookup "cache:a" (clearLru {} (singleton "cache:a" data)).2.localStorage.items =
      some (Raw.json data) := by
  refine ⟨rfl, rfl, rfl⟩

/-- C6 (the code at the failing input): in a cache with the prefix `''`, after
`set('', 1)` the mapping holds one entry and `clearLru()` returns `false`; and
on the mapping `{'': {u: 0}, 'a': {u: 5}}` it returns `'a'`, whose `u` is not
the least. -/
theorem clearLru_empty_key_is_falsy (ls : Storage) :
    set { pfx := "" } 1 5 "" (.num 1) .omitted { all := [], localStorage := emptyStorage } =
      .ok ()
        { all := [("", { v := .num 1, t := some 5, u := 0, d := some 86400000 })],
          localStorage :=
            { emptyStorage with
              items := [("", Raw.json { v := .num 1, t := some 5, u := 0, d := some 86400000 })],
              writes := 1 } } ∧
    (clearLru { pfx := "" }
        { all := [("", { v := .num 1, t := some 5, u := 0, d := some 86400000 })],
          localStorage :=
            { emptyStorage with
              items := [("", Raw.json { v := .num 1, t := some 5, u := 0, d := some 86400000 })],
              writes := 1 } }).1 = none ∧
    (clearLru { pfx := "" }
        { all := [("", { v := .num 1, t := some 5, u := 0, d := some 86400000 }),
                  ("a", { v := .num 2, t := some 6, u := 5, d := some 86400000 })],
          localStorage := ls }).1 = some "a" := by
  refine ⟨rfl, rfl, rfl⟩

/-- C7 (the code at the failing input): after `set('a')`, `set('b')`,
`set('c')` and a hit of `get('b')` on an empty cache, `clearLru()` returns
`cache:a` and leaves all three entries in place, so the second and the third
eviction select `cache:a` again instead of `cache:c` and `cache:b`. -/
theorem clearLru_selects_same_entry_again :
    set {} 1 1 "a" (.num 1) .omitted { all := [], localStorage := emptyStorage } =
      .ok ()
        { all := [("cache:a", { v := .num 1, t := some 1, u := 0, d := some 86400000 })],
          localStorage :=
            { emptyStorage with
              items := [("cache:a",
                Raw.json { v := .num 1, t := some 1, u := 0, d := some 86400000 })],
              writes := 1 } } ∧
    set {} 1 2 "b" (.num 2) .omitted
        { all := [("cache:a", { v := .num 1, t := some 1, u := 0, d := some 86400000 })],
          localStorage :=
            { emptyStorage with
              items := [("cache:a",
                Raw.json { v := .num 1, t := some 1, u := 0, d := some 86400000 })],
              writes := 1 } } =
      .ok ()
        { all := [("cache:a", { v := .num 1, t := some 1, u := 0, d := some 86400000 }),
                  ("cache:b", { v := .num 2, t := some 2, u := 0, d := some 86400000 })],
          localStorage :=
            { emptyStorage with
              items := [("cache:a",
                  Raw.json { v := .num 1, t := some 1, u := 0, d := some 86400000 }),
                ("cache:b",
                  Raw.json { v := .num 2, t := some 2, u := 0, d := some 86400000 })],
              writes := 2 } } ∧
    set {} 1 3 "c" (.num 3) .omitted
        { all := [("cache:a", { v := .num 1, t := some 1, u := 0, d := some 86400000 }),
                  ("cache:b", { v := .num 2, t := some 2, u := 0, d := some 86400000 })],
          localStorage :=
            { emptyStorage with
              items := [("cache:a",
                  Raw.json { v := .num 1, t := some 1, u := 0, d := some 86400000 }),
                ("cache:b",
                  Raw.json { v := .num 2, t := some 2, u := 0, d := some 86400000 })],
              writes := 2 } } =
      .ok () (threeWritten 0 3) ∧
    get {} 1 4 "b" .omitted (threeWritten 0 3) = .ok (some (.num 2)) (threeWritten 4 4) ∧
    clearLru {} (threeWritten 4 4) = (some "cache:a", threeWritten 4 4) ∧
    clearLru {} (clearLru {} (threeWritten 4 4)).2 = (some "cache:a", threeWritten 4 4) ∧
    clearLru {} (clearLru {} (clearLru {} (threeWritten 4 4)).2).2 =
      (some "cache:a", threeWritten 4 4) := by
  refine ⟨rfl, rfl, rfl, rfl, rfl, rfl, rfl⟩

/-! ## `remove`, `clear` and the frame of `get` -/

theorem removeNormalized_purges (o : Options) (nk : String) (s : State) :
    (removeNormalized o nk s).purges = s.purges := by
  unfold removeNormalized
  split <;> rfl

theorem removeNormalized_localStorage_of_not (o : Options) (nk : String) (s : State)
    (hu : ¬ o.useLocalStorage = true) :
    (removeNormalized o nk s).localStorage = s.localStorage := by
  simp [removeNormalized, hu]

theorem removeNormalized_idem (o : Options) (nk : String) (s : State) :
    removeNormalized o nk (removeNormalized o nk s) = removeNormalized o nk s := by
  by_cases hu : o.useLocalStorage = true
  · simp [removeNormalized, hu, Storage.removeItem, delete_delete, deleteOwn_deleteOwn]
  · simp [removeNormalized, hu, deleteOwn_deleteOwn]

theorem not_mem_delete {β : Type} (k : String) (m : List (String × β)) (p : String × β)
    (h : p ∈ delete k m) : p.1 ≠ k := by
  induction m with
  | nil => simp [delete] at h
  | cons q rest ih =>
    obtain ⟨k', b'⟩ := q
    by_cases hk : k' = k
    · simp only [delete, hk, if_true] at h
      exact ih h
    · simp only [delete, hk, if_false, List.mem_cons] at h
      rcases h with h | h
      · rw [h]; exact hk
      · exact ih h

theorem lookup_eq_none_of_not_mem {β : Type} (k : String) (m : List (String × β))
    (h : k ∉ keys m) : lookup k m = none := by
  induction m with
  | nil => rfl
  | cons q rest ih =>
    obtain ⟨k', b'⟩ := q
    simp only [keys, List.map_cons, List.mem_cons, not_or] at h
    have hk : ¬ k' = k := fun hh => h.1 hh.symm
    simp only [lookup, hk, if_false]
    exact ih h.2

theorem foldl_delete_of_keys_subset {β : Type} :
    ∀ (ks : List String) (m : List (String × β)), (∀ p ∈ m, p.1 ∈ ks) →
      ks.foldl (fun acc k => delete k acc) m = [] := by
  intro ks
  induction ks with
  | nil =>
    intro m h
    cases m with
    | nil => rfl
    | cons p rest => exact absurd (h p (List.mem_cons_self _ _)) (List.not_mem_nil _)
  | cons k ks ih =>
    intro m h
    simp only [List.foldl_cons]
    apply ih
    intro p hp
    have hm := h p (mem_of_mem_delete k m p hp)
    rcases List.mem_cons.mp hm with hk | hk
    · exact absurd hk (not_mem_delete k m p hp)
    · exact hk

theorem not_mem_keys_of_lookup_none {β : Type} (k : String) (m : List (String × β))
    (h : lookup k m = none) : k ∉ keys m := by
  induction m with
  | nil => simp [keys]
  | cons q rest ih =>
    obtain ⟨k', b'⟩ := q
    by_cases hk : k' = k
    · simp [lookup, hk] at h
    · simp only [lookup, hk, if_false] at h
      simp only [keys, List.map_cons, List.mem_cons, not_or]
      exact ⟨fun hh => hk hh.symm, ih h⟩

theorem ne_protoKey_of_mem (all : List (String × Entry)) (hp : lookup protoKey all = none)
    (p : String × Entry) (h : p ∈ all) : p.1 ≠ protoKey := by
  intro hk
  exact not_mem_keys_of_lookup_none _ _ hp (hk ▸ List.mem_map.mpr ⟨p, h, rfl⟩)

/-- In a mapping that holds nothing under `__proto__`, the own keys are the
keys of the list. -/
theorem ownKeys_of_lookup_none (all : List (String × Entry))
    (hp : lookup protoKey all = none) : ownKeys all = keys all := by
  unfold ownKeys
  rw [List.filter_eq_self]
  intro k hk
  have hne : k ≠ protoKey := fun h => not_mem_keys_of_lookup_none _ _ hp (h ▸ hk)
  simpa using hne

theorem mem_ownKeys (all : List (String × Entry)) (k : String) (hk : k ∈ ownKeys all) :
    k ∈ keys all ∧ k ≠ protoKey := by
  unfold ownKeys at hk
  rw [List.mem_filter] at hk
  exact ⟨hk.1, by simpa using hk.2⟩

theorem foldl_deleteOwn_of_ne :
    ∀ (ks : List String) (all : List (String × Entry)), (∀ k ∈ ks, k ≠ protoKey) →
      ks.foldl (fun acc k => deleteOwn k acc) all = ks.foldl (fun acc k => delete k acc) all := by
  intro ks
  induction ks with
  | nil => intro all _; rfl
  | cons k ks ih =>
    intro all h
    simp only [List.foldl_cons]
    rw [deleteOwn_of_ne _ _ (h k (List.mem_cons_self _ _))]
    exact ih _ (fun k1 hk1 => h k1 (List.mem_cons_of_mem _ hk1))

theorem foldl_removeNormalized_all (o : Options) :
    ∀ (ks : List String) (s : State),
      (ks.foldl (fun acc k => removeNormalized o k acc) s).all =
        ks.foldl (fun acc k => deleteOwn k acc) s.all := by
  intro ks
  induction ks with
  | nil => intro s; rfl
  | cons k ks ih =>
    intro s
    simp only [List.foldl_cons]
    rw [ih, removeNormalized_all]

theorem foldl_removeNormalized_items (o : Options) (hu : o.useLocalStorage = true)
    (k1 : String) :
    ∀ (ks : List String) (s : State),
      lookup k1 (ks.foldl (fun acc k => removeNormalized o k acc) s).localStorage.items =
        if k1 ∈ ks then none else lookup k1 s.localStorage.items := by
  intro ks
  induction ks with
  | nil => intro s; simp
  | cons k ks ih =>
    intro s
    simp only [List.foldl_cons]
    rw [ih, removeNormalized_items _ _ _ hu]
    by_cases h1 : k1 ∈ ks
    · simp [h1]
    · by_cases h2 : k1 = k
      · subst h2
        simp [h1, lookup_delete_self]
      · simp [h1, h2, lookup_delete_of_ne _ _ _ h2]

theorem foldl_removeNormalized_localStorage_of_not (o : Options)
    (hu : ¬ o.useLocalStorage = true) :
    ∀ (ks : List String) (s : State),
      (ks.foldl (fun acc k => removeNormalized o k acc) s).localStorage = s.localStorage := by
  intro ks
  induction ks with
  | nil => intro s; rfl
  | cons k ks ih =>
    intro s
    simp only [List.foldl_cons]
    rw [ih, removeNormalized_localStorage_of_not _ _ _ hu]

/-- C15: `remove(k)` never fails and returns `this`; it is idempotent; when the
normalized key is absent from the mapping the mapping is unchanged, when it is
absent from the store the store is unchanged; and no key other than the
normalized key changes, in the mapping or in the store. -/
theorem remove_idempotent (o : Options) (fuel : Nat) (now : Int) (k : String) (s : State) :
    call o fuel now (.remove k) s = some (Reply.self, remove o k s) ∧
    remove o k (remove o k s) = remove o k s ∧
    (lookup (normalizeKey o k) s.all = none → (remove o k s).all = s.all) ∧
    (lookup (normalizeKey o k) s.localStorage.items = none →
      (remove o k s).localStorage = s.localStorage) ∧
    (lookup (normalizeKey o k) s.all = none →
      lookup (normalizeKey o k) s.localStorage.items = none → remove o k s = s) ∧
    (∀ k1, k1 ≠ normalizeKey o k →
      lookup k1 (remove o k s).all = lookup k1 s.all ∧
      lookup k1 (remove o k s).localStorage.items = lookup k1 s.localStorage.items) := by
  have hall : lookup (normalizeKey o k) s.all = none → (remove o k s).all = s.all := by
    intro h
    unfold remove
    rw [removeNormalized_all]; exact deleteOwn_of_lookup_none _ _ h
  have hls : lookup (normalizeKey o k) s.localStorage.items = none →
      (remove o k s).localStorage = s.localStorage := by
    intro h
    unfold remove
    by_cases hu : o.useLocalStorage = true
    · simp [removeNormalized, hu, Storage.removeItem, delete_of_lookup_none _ _ h]
    · exact removeNormalized_localStorage_of_not _ _ _ hu
  refine ⟨rfl, removeNormalized_idem _ _ _, hall, hls, ?_, ?_⟩
  · intro h1 h2
    have e1 := hall h1
    have e2 := hls h2
    have e3 : (remove o k s).purges = s.purges := removeNormalized_purges _ _ _
    cases hs : remove o k s with
    | mk a l p =>
      rw [hs] at e1 e2 e3
      cases s
      simp only at e1 e2 e3
      rw [e1, e2, e3]
  · intro k1 hk1
    unfold remove
    exact ⟨by rw [removeNormalized_all]; exact lookup_deleteOwn_of_ne _ _ _ hk1,
      removeNormalized_items_lookup _ _ _ _ hk1⟩

/-- In a cache in which nothing has been assigned to `this.all['__proto__']`:
after `clear()` the mapping is empty, no key of the mapping is left in the
store the cache uses, every key of the store that was not in the mapping keeps
its item, and `clear` returns `this`. -/
theorem clear_removes_every_entry (o : Options) (fuel : Nat) (now : Int) (s : State)
    (_hplain : s.plain) :
    call o fuel now .clear s = some (Reply.self, clear o s) ∧
    (clear o s).all = [] ∧
    (o.useLocalStorage = true →
      ∀ k, k ∈ keys s.all → lookup k (clear o s).localStorage.items = none) ∧
    (∀ k, k ∉ keys s.all →
      lookup k (clear o s).localStorage.items = lookup k s.localStorage.items) := by
  have hown : ownKeys s.all = keys s.all := ownKeys_of_lookup_none _ _hplain
  have hne : ∀ k ∈ keys s.all, k ≠ protoKey := by
    intro k hk
    rw [← hown] at hk
    exact (mem_ownKeys _ _ hk).2
  refine ⟨rfl, ?_, ?_, ?_⟩
  · unfold clear
    rw [hown, foldl_removeNormalized_all, foldl_deleteOwn_of_ne _ _ hne]
    apply foldl_delete_of_keys_subset
    intro p hp
    exact List.mem_map.mpr ⟨p, hp, rfl⟩
  · intro hu k hk
    unfold clear
    rw [hown, foldl_removeNormalized_items o hu, if_pos hk]
  · intro k hk
    unfold clear
    by_cases hu : o.useLocalStorage = true
    · rw [hown, foldl_removeNormalized_items o hu, if_neg hk]
    · rw [foldl_removeNormalized_localStorage_of_not o hu]

/-- C16 (the code at the failing input): in a cache with the prefix `''`,
`set('__proto__', 1, 10)` at the time 1 makes the entry the prototype of
`this.all`, which `Object.keys(this.all)` does not list; `clear()` at the time
4 returns `this` and removes nothing, from the mapping or from the store, and
`get('__proto__')` at the time 5 returns `1`. -/
theorem clear_skips_proto_entry :
    call { pfx := "" } 1 1 (.set "__proto__" (.num 1) (.seconds 10))
        { all := [], localStorage := emptyStorage } =
      some (Reply.self,
        { all := [("__proto__", { v := .num 1, t := some 1, u := 0, d := some 10000 })],
          localStorage :=
            { emptyStorage with
              items := [("__proto__",
                Raw.json { v := .num 1, t := some 1, u := 0, d := some 10000 })],
              writes := 1 } }) ∧
    call { pfx := "" } 1 4 .clear
        { all := [("__proto__", { v := .num 1, t := some 1, u := 0, d := some 10000 })],
          localStorage :=
            { emptyStorage with
              items := [("__proto__",
                Raw.json { v := .num 1, t := some 1, u := 0, d := some 10000 })],
              writes := 1 } } =
      some (Reply.self,
        { all := [("__proto__", { v := .num 1, t := some 1, u := 0, d := some 10000 })],
          localStorage :=
            { emptyStorage with
              items := [("__proto__",
                Raw.json { v := .num 1, t := some 1, u := 0, d := some 10000 })],
              writes := 1 } }) ∧
    call { pfx := "" } 1 5 (.get "__proto__" .omitted)
        { all := [("__proto__", { v := .num 1, t := some 1, u := 0, d := some 10000 })],
          localStorage :=
            { emptyStorage with
              items := [("__proto__",
                Raw.json { v := .num 1, t := some 1, u := 0, d := some 10000 })],
              writes := 1 } } =
      some (Reply.value (some (.num 1)),
        { all := [("__proto__", { v := .num 1, t := some 1, u := 5, d := some 10000 })],
          localStorage :=
            { emptyStorage with
              items := [("__proto__",
                Raw.json { v := .num 1, t := some 1, u := 5, d := some 10000 })],
              writes := 2 } }) :=
  ⟨rfl, rfl, rfl⟩

/-- On a store that accepts writes, a `save` that returns has put the entry
into the mapping and, when the cache uses the store, its text into the store,
and nothing else has changed. -/
theorem save_ok_of_acceptsWrites (o : Options) (fuel : Nat) (nk : String) (data : Entry)
    (s s1 : State) (hacc : s.localStorage.acceptsWrites)
    (h : save o fuel nk data s = .ok () s1) :
    s1.all = assign nk data s.all ∧
    s1.localStorage.items =
      (if o.useLocalStorage = true then assign nk (Raw.json data) s.localStorage.items
       else s.localStorage.items) ∧
    s1.localStorage.rejects = s.localStorage.rejects ∧ s1.purges = s.purges := by
  unfold save at h
  by_cases hu : o.useLocalStorage = true
  · rw [if_pos hu] at h
    cases fuel with
    | zero => simp [saveLoop] at h
    | succ f =>
      rw [saveLoop_of_acceptsWrites o nk _ f { s with all := assign nk data s.all } hacc] at h
      simp only [Outcome.ok.injEq, true_and] at h
      subst h
      simp [hu]
  · rw [if_neg hu] at h
    simp only [Outcome.ok.injEq, true_and] at h
    subst h
    simp [hu]

/-- C17: on a store that accepts writes, a `get(k)` that finds no entry leaves
the whole state unchanged; a `get(k)` that returns a value has set the `u` of
the entry of `k` to `now`, in the mapping and in the store the cache uses, and
has left its `v`, `t` and `d` and every other key unchanged; a live entry is
returned; and a `get(k)` that returns absent changes no entry that remains. -/
theorem get_touches_only_on_hit (o : Options) (fuel : Nat) (now : Int) (k : String)
    (duration : Duration) (s : State) (hacc : s.localStorage.acceptsWrites) :
    (lookup (normalizeKey o k) s.all = none → get o fuel now k duration s = .ok none s) ∧
    (∀ (v : Value) (s1 : State), get o fuel now k duration s = .ok (some v) s1 →
      ∃ data, lookup (normalizeKey o k) s.all = some data ∧ v = data.v ∧
        lookup (normalizeKey o k) s1.all = some { data with u := now } ∧
        (o.useLocalStorage = true → lookup (normalizeKey o k) s1.localStorage.items =
          some (Raw.json { data with u := now })) ∧
        (∀ k1, k1 ≠ normalizeKey o k →
          lookup k1 s1.all = lookup k1 s.all ∧
          lookup k1 s1.localStorage.items = lookup k1 s.localStorage.items)) ∧
    (∀ data, lookup (normalizeKey o k) s.all = some data →
      live now data (getDuration o now data duration) = true →
      ∃ s1, get o (fuel + 1) now k duration s = .ok (some data.v) s1) ∧
    (∀ (s1 : State), get o fuel now k duration s = .ok none s1 →
      ∀ k1 e, lookup k1 s1.all = some e → lookup k1 s.all = some e) := by
  refine ⟨fun h => get_of_lookup_none o fuel now k duration s h, ?_, ?_, ?_⟩
  · intro v s1 hget
    cases hlook : lookup (normalizeKey o k) s.all with
    | none =>
      rw [get_of_lookup_none o fuel now k duration s hlook] at hget
      cases hget
    | some data =>
      by_cases hl : live now data (getDuration o now data duration) = true
      · simp only [get, hlook, hl, if_true, tap] at hget
        cases hsave : save o fuel (normalizeKey o k) { data with u := now } s with
        | timeout => rw [hsave] at hget; cases hget
        | thrown s2 => rw [hsave] at hget; cases hget
        | ok a s2 =>
          rw [hsave] at hget
          simp only [Outcome.ok.injEq, Option.some.injEq] at hget
          obtain ⟨hv, hs⟩ := hget
          subst hs
          obtain ⟨hall, hitems, _, _⟩ :=
            save_ok_of_acceptsWrites o fuel _ _ s s2 hacc hsave
          refine ⟨data, rfl, hv.symm, ?_, ?_, ?_⟩
          · rw [hall]; exact lookup_assign_self _ _ _
          · intro hu
            rw [hitems, if_pos hu]; exact lookup_assign_self _ _ _
          · intro k1 hk1
            refine ⟨by rw [hall]; exact lookup_assign_of_ne _ _ _ _ hk1, ?_⟩
            rw [hitems]
            split
            · exact lookup_assign_of_ne _ _ _ _ hk1
            · rfl
      · have hl2 : live now data (getDuration o now data duration) = false := by
          simpa using hl
        rw [get_of_not_live o fuel now k duration s data hlook hl2] at hget
        cases hget
  · intro data hlook hl
    obtain ⟨s1, h1, _, _⟩ := get_of_live o fuel now k duration s data hacc hlook hl
    exact ⟨s1, h1⟩
  · intro s1 hget k1 e hk1
    cases hlook : lookup (normalizeKey o k) s.all with
    | none =>
      rw [get_of_lookup_none o fuel now k duration s hlook] at hget
      simp only [Outcome.ok.injEq, true_and] at hget
      rw [← hget] at hk1
      exact hk1
    | some data =>
      by_cases hl : live now data (getDuration o now data duration) = true
      · simp only [get, hlook, hl, if_true] at hget
        cases htap : tap o fuel now (normalizeKey o k) s with
        | timeout => rw [htap] at hget; cases hget
        | thrown s2 => rw [htap] at hget; cases hget
        | ok a s2 => rw [htap] at hget; simp at hget
      · have hl2 : live now data (getDuration o now data duration) = false := by
          simpa using hl
        rw [get_of_not_live o fuel now k duration s data hlook hl2] at hget
        simp only [Outcome.ok.injEq, true_and] at hget
        rw [← hget, removeNormalized_all] at hk1
        exact lookup_of_lookup_deleteOwn _ _ _ _ hk1

theorem get_touches_only_on_hit_witness :
    (lookup (normalizeKey {} "b")
        (singleton "cache:a" { v := .num 7, t := some 5, u := 0, d := some 10000 }).all = none →
      get {} 1 50 "b" .omitted
        (singleton "cache:a" { v := .num 7, t := some 5, u := 0, d := some 10000 }) =
        .ok none (singleton "cache:a" { v := .num 7, t := some 5, u := 0, d := some 10000 })) ∧
    (∃ s1, get {} 1 50 "a" .omitted
        (singleton "cache:a" { v := .num 7, t := some 5, u := 0, d := some 10000 }) =
        .ok (some (.num 7)) s1) :=
  ⟨(get_touches_only_on_hit {} 1 50 "b" .omitted
      (singleton "cache:a" { v := .num 7, t := some 5, u := 0, d := some 10000 })
      (fun _ => rfl)).1,
   (get_touches_only_on_hit {} 0 50 "a" .omitted
      (singleton "cache:a" { v := .num 7, t := some 5, u := 0, d := some 10000 })
      (fun _ => rfl)).2.2.1 { v := .num 7, t := some 5, u := 0, d := some 10000 } rfl rfl⟩

/-! ## The constructor -/

theorem assign_of_lookup_none {β : Type} (k : String) (b : β) (m : List (String × β))
    (h : lookup k m = none) : assign k b m = m ++ [(k, b)] := by
  induction m with
  | nil => rfl
  | cons q rest ih =>
    obtain ⟨k', b'⟩ := q
    by_cases hk : k' = k
    · simp [lookup, hk] at h
    · simp only [lookup, hk, if_false] at h
      simp [assign, hk, ih h]

theorem keys_append {β : Type} (m1 m2 : List (String × β)) :
    keys (m1 ++ m2) = keys m1 ++ keys m2 := by
  simp [keys]

theorem parsedItems_cons_of_prefixed (o : Options) (k : String) (raw : Raw) (parsed : Parsed)
    (rest : List (String × Raw)) (hpre : hasPrefix o k = true)
    (hparse : parse raw = some parsed) :
    parsedItems o ((k, raw) :: rest) = (k, parsed) :: parsedItems o rest := by
  simp [parsedItems, hpre, hparse]

theorem parsedItems_cons_of_unprefixed (o : Options) (k : String) (raw : Raw)
    (rest : List (String × Raw)) (hpre : ¬ hasPrefix o k = true) :
    parsedItems o ((k, raw) :: rest) = parsedItems o rest := by
  simp [parsedItems, hpre]

/-- The `reduce` of the constructor throws as soon as one item bearing the
prefix is rejected by `JSON.parse`. -/
theorem foldlM_loadStep_none (o : Options) :
    ∀ (items : List (String × Raw)) (acc : List (String × Parsed)),
      (∃ p ∈ items, hasPrefix o p.1 = true ∧ parse p.2 = none) →
      items.foldlM (loadStep o) acc = none := by
  intro items
  induction items with
  | nil => intro acc h; obtain ⟨p, hp, _⟩ := h; cases hp
  | cons q rest ih =>
    intro acc h
    obtain ⟨p, hp, hpre, ht⟩ := h
    rw [List.foldlM_cons]
    rcases List.mem_cons.mp hp with hq | hq
    · subst hq
      simp [loadStep, hpre, ht]
    · cases hstep : loadStep o acc q with
      | none => rfl
      | some acc1 => exact ih acc1 ⟨p, hq, hpre, ht⟩

/-- When `JSON.parse` accepts every item bearing the prefix, the `reduce` of
the constructor appends these items, parsed, in the order of the store. -/
theorem foldlM_loadStep_some (o : Options) :
    ∀ (items : List (String × Raw)) (acc : List (String × Parsed)),
      (keys items).Nodup → (∀ k ∈ keys items, k ∉ keys acc) →
      (∀ p ∈ items, hasPrefix o p.1 = true → parse p.2 ≠ none) →
      items.foldlM (loadStep o) acc = some (acc ++ parsedItems o items) := by
  intro items
  induction items with
  | nil => intro acc _ _ _; simp [parsedItems]
  | cons q rest ih =>
    intro acc hnd hdis hgood
    obtain ⟨k, raw⟩ := q
    simp only [keys, List.map_cons, List.nodup_cons] at hnd
    have hrest : ∀ p ∈ rest, hasPrefix o p.1 = true → parse p.2 ≠ none :=
      fun p hp => hgood p (List.mem_cons_of_mem _ hp)
    rw [List.foldlM_cons]
    by_cases hpre : hasPrefix o k = true
    · cases hparse : parse raw with
      | none => exact absurd hparse (hgood (k, raw) (List.mem_cons_self _ _) hpre)
      | some parsed =>
        have hk : lookup k acc = none :=
          lookup_eq_none_of_not_mem k acc (hdis k (by simp [keys]))
        have hstep : loadStep o acc (k, raw) = some (acc ++ [(k, parsed)]) := by
          simp [loadStep, hpre, hparse, assign_of_lookup_none k parsed acc hk]
        rw [hstep]
        refine (ih (acc ++ [(k, parsed)]) hnd.2 ?_ hrest).trans ?_
        · intro k1 hk1
          rw [keys_append]
          simp only [keys, List.map_cons, List.map_nil, List.mem_append, List.mem_singleton,
            not_or]
          refine ⟨hdis k1 (by simp only [keys, List.map_cons]; exact List.mem_cons_of_mem _ hk1), ?_⟩
          intro hh
          exact hnd.1 (hh ▸ hk1)
        · rw [parsedItems_cons_of_prefixed o k raw parsed rest hpre hparse]
          simp
    · have hstep : loadStep o acc (k, raw) = some acc := by
        simp [loadStep, hpre]
      rw [hstep]
      refine (ih acc hnd.2
        (fun k1 hk1 => hdis k1 (by simp only [keys, List.map_cons]; exact List.mem_cons_of_mem _ hk1))
        hrest).trans ?_
      rw [parsedItems_cons_of_unprefixed o k raw rest hpre]

/-- What the loaded object holds under a key: for a key bearing the prefix,
what `JSON.parse` returns for its item, and nothing for any other key. -/
theorem lookup_parsedItems (o : Options) (k : String) :
    ∀ items : List (String × Raw),
      (∀ p ∈ items, hasPrefix o p.1 = true → parse p.2 ≠ none) →
      lookup k (parsedItems o items) =
        if hasPrefix o k = true then (lookup k items).bind parse else none := by
  intro items
  induction items with
  | nil => intro _; simp [parsedItems, lookup]
  | cons q rest ih =>
    intro hgood
    obtain ⟨k', raw⟩ := q
    have hrest : ∀ p ∈ rest, hasPrefix o p.1 = true → parse p.2 ≠ none :=
      fun p hp => hgood p (List.mem_cons_of_mem _ hp)
    have ih1 := ih hrest
    by_cases hpre : hasPrefix o k' = true
    · cases hparse : parse raw with
      | none => exact absurd hparse (hgood (k', raw) (List.mem_cons_self _ _) hpre)
      | some parsed =>
        rw [parsedItems_cons_of_prefixed o k' raw parsed rest hpre hparse]
        by_cases hk : k' = k
        · subst hk
          simp [hpre, hparse, lookup]
        · simp [lookup, hk, ih1]
    · rw [parsedItems_cons_of_unprefixed o k' raw rest hpre, ih1]
      by_cases hk : k' = k
      · subst hk
        simp [hpre]
      · simp [lookup, hk]

/-- When the loaded object holds entries only, these are the items of the store
that bear the prefix, in the order of the store. -/
theorem entries_parsedItems (o : Options) :
    ∀ (items : List (String × Raw)) (all : List (String × Entry)),
      (∀ p ∈ items, hasPrefix o p.1 = true → parse p.2 ≠ none) →
      entries (parsedItems o items) = some all →
      serialized all = items.filter (fun p => hasPrefix o p.1) := by
  intro items
  induction items with
  | nil =>
    intro all _ h
    simp only [parsedItems, List.filterMap_nil, entries, Option.some.injEq] at h
    rw [← h]; rfl
  | cons q rest ih =>
    intro all hgood h
    obtain ⟨k, raw⟩ := q
    have hrest : ∀ p ∈ rest, hasPrefix o p.1 = true → parse p.2 ≠ none :=
      fun p hp => hgood p (List.mem_cons_of_mem _ hp)
    by_cases hpre : hasPrefix o k = true
    · cases raw with
      | text t => exact absurd rfl (hgood (k, Raw.text t) (List.mem_cons_self _ _) hpre)
      | other v =>
        rw [parsedItems_cons_of_prefixed o k (.other v) (.other v) rest hpre rfl] at h
        simp [entries] at h
      | json e =>
        rw [parsedItems_cons_of_prefixed o k (.json e) (.entry e) rest hpre rfl] at h
        simp only [entries] at h
        cases hrec : entries (parsedItems o rest) with
        | none => rw [hrec] at h; cases h
        | some all1 =>
          have hser := ih all1 hrest hrec
          rw [hrec] at h
          simp only [Option.map_some', Option.some.injEq] at h
          rw [← h]
          simp only [serialized, List.map_cons] at hser ⊢
          rw [hser, List.filter_cons, if_pos hpre]
    · rw [parsedItems_cons_of_unprefixed o k raw rest hpre] at h
      have hser := ih all hrest h
      rw [hser, List.filter_cons, if_neg hpre]

theorem entries_parsedItems_of_json (o : Options) :
    ∀ (items : List (String × Raw)),
      (∀ p ∈ items, hasPrefix o p.1 = true → ∃ e, p.2 = Raw.json e) →
      ∃ all, entries (parsedItems o items) = some all := by
  intro items
  induction items with
  | nil => intro _; exact ⟨[], rfl⟩
  | cons q rest ih =>
    intro hgood
    obtain ⟨k, raw⟩ := q
    obtain ⟨all1, hall1⟩ := ih (fun p hp => hgood p (List.mem_cons_of_mem _ hp))
    by_cases hpre : hasPrefix o k = true
    · obtain ⟨e, he⟩ := hgood (k, raw) (List.mem_cons_self _ _) hpre
      simp only at he
      subst he
      refine ⟨(k, e) :: all1, ?_⟩
      rw [parsedItems_cons_of_prefixed o k (.json e) (.entry e) rest hpre rfl]
      simp [entries, hall1]
    · exact ⟨all1, by rw [parsedItems_cons_of_unprefixed o k raw rest hpre]; exact hall1⟩

theorem parse_ne_none_of_json (o : Options) (items : List (String × Raw))
    (h : ∀ p ∈ items, hasPrefix o p.1 = true → ∃ e, p.2 = Raw.json e) :
    ∀ p ∈ items, hasPrefix o p.1 = true → parse p.2 ≠ none := by
  intro p hp hpre
  obtain ⟨e, he⟩ := h p hp hpre
  rw [he]
  simp [parse]

theorem lookup_serialized (k : String) (all : List (String × Entry)) :
    lookup k (serialized all) = (lookup k all).map Raw.json := by
  induction all with
  | nil => rfl
  | cons q rest ih =>
    obtain ⟨k', e⟩ := q
    simp only [serialized] at ih
    by_cases hk : k' = k
    · simp [serialized, lookup, hk]
    · simp [serialized, lookup, hk, ih]

theorem lookup_filter_key {β : Type} (P : String → Bool) (k : String)
    (m : List (String × β)) :
    lookup k (m.filter (fun p => P p.1)) = if P k = true then lookup k m else none := by
  induction m with
  | nil => simp [lookup]
  | cons q rest ih =>
    obtain ⟨k', b⟩ := q
    by_cases hP : P k' = true
    · by_cases hk : k' = k
      · subst hk
        simp [List.filter_cons, hP, lookup]
      · simp [List.filter_cons, hP, lookup, hk, ih]
    · by_cases hk : k' = k
      · subst hk
        simp [List.filter_cons, hP, ih]
      · simp [List.filter_cons, hP, lookup, hk, ih]

/-- The constructor on a store whose prefixed items are all texts of entries:
it returns a cache over that store whose mapping holds these entries, in the
order of the store. -/
theorem construct_of_json (o : Options) (ls : Storage) (hu : o.useLocalStorage = true)
    (hnd : (keys ls.items).Nodup)
    (h : ∀ p ∈ ls.items, hasPrefix o p.1 = true → ∃ e, p.2 = Raw.json e) :
    ∃ s, construct o ls = some s ∧ s.localStorage = ls ∧
      serialized s.all = ls.items.filter (fun p => hasPrefix o p.1) := by
  have hgood := parse_ne_none_of_json o ls.items h
  have hload : load o ls = some (parsedItems o ls.items) := by
    simp only [load, hu, if_true]
    rw [foldlM_loadStep_some o ls.items [] hnd (fun k _ hk => by simp [keys] at hk) hgood]
    simp
  obtain ⟨all, hall⟩ := entries_parsedItems_of_json o ls.items h
  refine ⟨{ all := all, localStorage := ls }, ?_, rfl,
    entries_parsedItems o ls.items all hgood hall⟩
  simp [construct, hload, hall]

/-- C18 (as stated, refuted): with a value under `cache:a` that `JSON.parse`
rejects, the constructor throws, although `cache:b` holds a sound entry. -/
theorem construct_throws_on_corrupt_item :
    load {}
      { emptyStorage with
        items := [("cache:a", Raw.text "oops"),
                  ("cache:b", Raw.json { v := .num 2, t := some 2, u := 0, d := some 1000 })] } =
      none := by
  rfl

/-- C18 (amended): for a cache that uses the store, on a store in which no key
bearing the prefix is `__proto__`: the constructor throws when some key bearing
the prefix holds a value that `JSON.parse` rejects; when `JSON.parse` accepts
the value of every such key, the constructor returns, and the mapping it has
built holds under every key bearing the prefix what `JSON.parse` returns for
its value, and nothing under any other key; and when every key bearing the
prefix holds the text of an entry, the cache it returns holds exactly these
entries. -/
theorem construct_loads_or_throws (o : Options) (ls : Storage)
    (hu : o.useLocalStorage = true) (hnd : (keys ls.items).Nodup)
    (_hproto : ∀ p ∈ ls.items, hasPrefix o p.1 = true → p.1 ≠ protoKey) :
    ((∃ p ∈ ls.items, hasPrefix o p.1 = true ∧ parse p.2 = none) → load o ls = none) ∧
    ((∀ p ∈ ls.items, hasPrefix o p.1 = true → parse p.2 ≠ none) →
      ∃ loaded, load o ls = some loaded ∧
        ∀ k, lookup k loaded =
          if hasPrefix o k = true then (lookup k ls.items).bind parse else none) ∧
    ((∀ p ∈ ls.items, hasPrefix o p.1 = true → ∃ e, p.2 = Raw.json e) →
      ∃ s, construct o ls = some s ∧ s.localStorage = ls ∧
        ∀ k, lookup k s.all =
          if hasPrefix o k = true then (lookup k ls.items).bind Raw.entry else none) := by
  refine ⟨?_, ?_, ?_⟩
  · intro h
    simp [load, hu, foldlM_loadStep_none o ls.items [] h]
  · intro h
    refine ⟨parsedItems o ls.items, ?_, fun k => lookup_parsedItems o k ls.items h⟩
    simp only [load, hu, if_true]
    rw [foldlM_loadStep_some o ls.items [] hnd (fun k _ hk => by simp [keys] at hk) h]
    simp
  · intro h
    obtain ⟨s, hc, hls, hser⟩ := construct_of_json o ls hu hnd h
    refine ⟨s, hc, hls, ?_⟩
    intro k
    have h1 := lookup_serialized k s.all
    rw [hser, lookup_filter_key (fun k => hasPrefix o k) k ls.items] at h1
    by_cases hpre : hasPrefix o k = true
    · simp only [hpre, if_true] at h1 ⊢
      rw [h1]
      cases lookup k s.all <;> rfl
    · simp only [hpre, Bool.false_eq_true, if_false] at h1 ⊢
      cases hl : lookup k s.all with
      | none => rfl
      | some e => rw [hl] at h1; cases h1

theorem construct_loads_or_throws_witness :
    ∃ loaded, load {}
        { emptyStorage with
          items := [("other", Raw.text "x"), ("cache:a", Raw.other .null),
                    ("cache:b", Raw.json { v := .num 2, t := some 2, u := 0, d := some 1000 })] } =
          some loaded ∧
      ∀ k, lookup k loaded =
        if hasPrefix {} k = true then
          (lookup k [("other", Raw.text "x"), ("cache:a", Raw.other .null),
            ("cache:b", Raw.json { v := .num 2, t := some 2, u := 0, d := some 1000 })]).bind parse
        else none :=
  (construct_loads_or_throws {}
      { emptyStorage with
        items := [("other", Raw.text "x"), ("cache:a", Raw.other .null),
                  ("cache:b", Raw.json { v := .num 2, t := some 2, u := 0, d := some 1000 })] }
      rfl (by decide)
      (by
        intro p hp _
        simp only [List.mem_cons, List.mem_singleton, List.not_mem_nil, or_false] at hp
        rcases hp with hp | hp | hp <;> subst hp <;> decide)).2.1
    (by
      intro p hp hpre
      simp only [List.mem_cons, List.mem_singleton, List.not_mem_nil, or_false] at hp
      rcases hp with hp | hp | hp
      · subst hp; exact absurd hpre (by decide)
      · subst hp; simp [parse]
      · subst hp; simp [parse])


/-! ## `purge` -/

theorem lookup_append_of_not_mem {β : Type} (k : String) (m1 m2 : List (String × β))
    (h : k ∉ keys m1) : lookup k (m1 ++ m2) = lookup k m2 := by
  induction m1 with
  | nil => rfl
  | cons q rest ih =>
    obtain ⟨k', b'⟩ := q
    simp only [keys, List.map_cons, List.mem_cons, not_or] at h
    have hk : ¬ k' = k := fun hh => h.1 hh.symm
    simp only [List.cons_append, lookup, hk, if_false]
    exact ih h.2

theorem delete_of_not_mem {β : Type} (k : String) (m : List (String × β))
    (h : k ∉ keys m) : delete k m = m :=
  delete_of_lookup_none k m (lookup_eq_none_of_not_mem k m h)

theorem delete_append {β : Type} (k : String) (m1 m2 : List (String × β)) :
    delete k (m1 ++ m2) = delete k m1 ++ delete k m2 := by
  induction m1 with
  | nil => rfl
  | cons q rest ih =>
    obtain ⟨k', b'⟩ := q
    by_cases hk : k' = k
    · simp [delete, hk, ih]
    · simp [delete, hk, ih]

theorem dated_iff (e : Entry) :
    dated e = true ↔ ∃ t d, e.t = some t ∧ e.d = some d ∧ t ≠ 0 ∧ d ≠ 0 := by
  unfold dated
  cases ht : e.t with
  | none => simp
  | some t =>
    cases hd : e.d with
    | none => simp
    | some d => simp

/-- The loop of `purge` on a mapping whose entries still to visit all have a
non-zero `t` and a non-zero `d`: it runs to the end, drops the expired ones
among them and keeps the others in place. -/
theorem purgeLoop_of_dated (o : Options) (now : Int) :
    ∀ (rest pre : List (String × Entry)) (s : State), s.all = pre ++ rest →
      (keys (pre ++ rest)).Nodup → (∀ p ∈ rest, dated p.2 = true) →
      (∀ p ∈ rest, p.1 ≠ protoKey) →
      (purgeLoop o now (keys rest) s).1 = true ∧
      (purgeLoop o now (keys rest) s).2.all =
        pre ++ rest.filter (fun p => !expired now p.2) ∧
      (∀ k, lookup k (purgeLoop o now (keys rest) s).2.localStorage.items =
        if o.useLocalStorage = true ∧ k ∈ keys (rest.filter (fun p => expired now p.2))
        then none else lookup k s.localStorage.items) ∧
      (purgeLoop o now (keys rest) s).2.purges = s.purges := by
  intro rest
  induction rest with
  | nil =>
    intro pre s hall _ _ _
    simp [keys, purgeLoop, hall]
  | cons q rest ih =>
    intro pre s hall hnd hdated hproto
    obtain ⟨k, e⟩ := q
    have hkp : k ≠ protoKey := hproto (k, e) (List.mem_cons_self _ _)
    have hproto1 : ∀ p ∈ rest, p.1 ≠ protoKey :=
      fun p hp => hproto p (List.mem_cons_of_mem _ hp)
    have hnd' : (keys pre ++ k :: keys rest).Nodup := by
      simpa [keys] using hnd
    have hkpre : k ∉ keys pre := by
      intro hmem
      exact (List.nodup_append.mp hnd').2.2 hmem (List.mem_cons_self _ _)
    have hkrest : k ∉ keys rest := (List.nodup_cons.mp (List.nodup_append.mp hnd').2.1).1
    have hlook : lookup k s.all = some e := by
      rw [hall, lookup_append_of_not_mem k pre _ hkpre]
      simp [lookup]
    obtain ⟨t, d, ht, hd, ht0, hd0⟩ := (dated_iff e).mp (hdated (k, e) (List.mem_cons_self _ _))
    have hrest : ∀ p ∈ rest, dated p.2 = true :=
      fun p hp => hdated p (List.mem_cons_of_mem _ hp)
    by_cases hle : t + d ≤ now
    · have hexp : expired now e = true := by simp [expired, ht, hd, hle]
      have hstep : purgeLoop o now (keys ((k, e) :: rest)) s =
          purgeLoop o now (keys rest) (removeNormalized o k s) := by
        simp [keys, purgeLoop, hlook, ht, hd, ht0, hd0, hle]
      have hall1 : (removeNormalized o k s).all = pre ++ rest := by
        rw [removeNormalized_all, deleteOwn_of_ne _ _ hkp, hall, delete_append,
          delete_of_not_mem k pre hkpre]
        simp [delete, delete_of_not_mem k rest hkrest]
      have hnd1 : (keys (pre ++ rest)).Nodup := by
        rw [keys_append]
        have := List.nodup_append.mp hnd'
        refine List.nodup_append.mpr ⟨this.1, (List.nodup_cons.mp this.2.1).2, ?_⟩
        intro a ha hb
        exact this.2.2 ha (List.mem_cons_of_mem _ hb)
      obtain ⟨h1, h2, h3, h4⟩ := ih pre (removeNormalized o k s) hall1 hnd1 hrest hproto1
      rw [hstep]
      refine ⟨h1, ?_, ?_, ?_⟩
      · rw [h2]; simp [List.filter_cons, hexp]
      · intro k1
        rw [h3 k1]
        by_cases hu : o.useLocalStorage = true
        · rw [removeNormalized_items _ _ _ hu]
          by_cases hk1 : k1 = k
          · subst hk1
            simp [hu, List.filter_cons, hexp, keys, lookup_delete_self]
          · have hmem : k1 ∈ keys (List.filter (fun p => expired now p.2) ((k, e) :: rest)) ↔
                k1 ∈ keys (List.filter (fun p => expired now p.2) rest) := by
              rw [List.filter_cons, if_pos hexp]
              simp [keys, hk1]
            rw [lookup_delete_of_ne _ _ _ hk1]
            simp only [hmem]
        · simp [hu, removeNormalized_localStorage_of_not _ _ _ hu]
      · rw [h4, removeNormalized_purges]
    · have hexp : expired now e = false := by simp [expired, ht, hd, hle]
      have hstep : purgeLoop o now (keys ((k, e) :: rest)) s =
          purgeLoop o now (keys rest) s := by
        simp [keys, purgeLoop, hlook, ht, hd, ht0, hd0, hle]
      have hall1 : s.all = (pre ++ [(k, e)]) ++ rest := by rw [hall]; simp
      have hnd1 : (keys ((pre ++ [(k, e)]) ++ rest)).Nodup := by
        simpa using hnd
      obtain ⟨h1, h2, h3, h4⟩ := ih (pre ++ [(k, e)]) s hall1 hnd1 hrest hproto1
      rw [hstep]
      refine ⟨h1, ?_, ?_, h4⟩
      · rw [h2]; simp [List.filter_cons, hexp]
      · intro k1
        rw [h3 k1]
        simp [List.filter_cons, hexp]

/-- C12 (as stated, refuted): the only entry has a `createdAt` of 5 and a
`duration` of 0, so `createdAt + duration <= now` at `now = 10`, yet `purge()`
returns `undefined` and removes nothing. -/
theorem purge_keeps_zero_duration_entry :
    expired 10 { v := .num 7, t := some 5, u := 0, d := some 0 } = true ∧
    purge {} 10 (singleton "cache:a" { v := .num 7, t := some 5, u := 0, d := some 0 }) =
      (false,
        { singleton "cache:a" { v := .num 7, t := some 5, u := 0, d := some 0 } with
          purges := 1 }) := by
  refine ⟨by decide, rfl⟩

/-- C12 (amended): in a cache in which nothing has been assigned to
`this.all['__proto__']`, on a mapping in which every entry has a `createdAt`
and a `duration` that are not zero, `purge()` returns `this`, removes from the
mapping and from the store the cache uses exactly the entries with
`createdAt + duration <= now`, and leaves every other entry and every other
item of the store unchanged. -/
theorem purge_removes_exactly_expired (o : Options) (fuel : Nat) (now : Int) (s : State)
    (_hplain : s.plain) (hnd : (keys s.all).Nodup)
    (hdated : ∀ p ∈ s.all, dated p.2 = true) :
    call o fuel now .purge s = some (Reply.self, (purge o now s).2) ∧
    (purge o now s).2.all = s.all.filter (fun p => !expired now p.2) ∧
    (∀ k, lookup k (purge o now s).2.localStorage.items =
      if o.useLocalStorage = true ∧ k ∈ keys (s.all.filter (fun p => expired now p.2))
      then none else lookup k s.localStorage.items) := by
  obtain ⟨h1, h2, h3, _⟩ := purgeLoop_of_dated o now s.all []
    { s with purges := s.purges + 1 } rfl hnd hdated (ne_protoKey_of_mem _ _hplain)
  have hp : purge o now s = purgeLoop o now (keys s.all) { s with purges := s.purges + 1 } := rfl
  refine ⟨?_, ?_, ?_⟩
  · simp only [call]
    rw [hp]
    cases hres : purgeLoop o now (keys s.all) { s with purges := s.purges + 1 } with
    | mk b s1 =>
      rw [hres] at h1
      simp only at h1
      subst h1
      rfl
  · rw [hp, h2]; rfl
  · intro k
    rw [hp, h3 k]

theorem purge_removes_exactly_expired_witness :
    call {} 0 86400002 .purge (threeWritten 4 4) =
      some (Reply.self, (purge {} 86400002 (threeWritten 4 4)).2) ∧
    (purge {} 86400002 (threeWritten 4 4)).2.all =
      (threeWritten 4 4).all.filter (fun p => !expired 86400002 p.2) ∧
    (∀ k, lookup k (purge {} 86400002 (threeWritten 4 4)).2.localStorage.items =
      if ({} : Options).useLocalStorage = true ∧
        k ∈ keys ((threeWritten 4 4).all.filter (fun p => expired 86400002 p.2))
      then none else lookup k (threeWritten 4 4).localStorage.items) :=
  purge_removes_exactly_expired {} 0 86400002 (threeWritten 4 4) rfl (by decide)
    (by
      intro p hp
      simp only [threeWritten, List.mem_cons, List.mem_singleton, List.not_mem_nil,
        or_false] at hp
      rcases hp with hp | hp | hp <;> subst hp <;> rfl)

/-- C13 (the code at the failing input): with an entry without `t` and `d`
under `cache:a` followed by an expired entry under `cache:b`, `purge()` at
`now = 5000` returns `undefined` and leaves `cache:b` in place: the scan stops
at the malformed entry. -/
theorem purge_stops_at_malformed_entry :
    call {} 0 5000 .purge
      { all := [("cache:a", { v := .num 1, t := none, u := 0, d := none }),
                ("cache:b", { v := .num 2, t := some 1, u := 0, d := some 1000 })],
        localStorage :=
          { emptyStorage with
            items := [("cache:a", Raw.json { v := .num 1, t := none, u := 0, d := none }),
              ("cache:b", Raw.json { v := .num 2, t := some 1, u := 0, d := some 1000 })] } } =
      some (Reply.undefined,
        { all := [("cache:a", { v := .num 1, t := none, u := 0, d := none }),
                  ("cache:b", { v := .num 2, t := some 1, u := 0, d := some 1000 })],
          localStorage :=
            { emptyStorage with
              items := [("cache:a", Raw.json { v := .num 1, t := none, u := 0, d := none }),
                ("cache:b", Raw.json { v := .num 2, t := some 1, u := 0, d := some 1000 })] },
          purges := 1 }) ∧
    expired 5000 { v := .num 2, t := some 1, u := 0, d := some 1000 } = true := by
  refine ⟨rfl, by decide⟩

/-! ## `clean` -/

theorem purgeLoop_rejects_purges (o : Options) (now : Int) :
    ∀ (ks : List String) (s : State),
      (purgeLoop o now ks s).2.localStorage.rejects = s.localStorage.rejects ∧
      (purgeLoop o now ks s).2.purges = s.purges := by
  intro ks
  induction ks with
  | nil => intro s; exact ⟨rfl, rfl⟩
  | cons k ks ih =>
    intro s
    simp only [purgeLoop]
    split
    · exact ih s
    · split
      · split
        · exact ⟨rfl, rfl⟩
        · split
          · obtain ⟨h1, h2⟩ := ih (removeNormalized o k s)
            exact ⟨by rw [h1, removeNormalized_rejects], by rw [h2, removeNormalized_purges]⟩
          · exact ih s
      · exact ⟨rfl, rfl⟩

theorem purge_rejects_purges (o : Options) (now : Int) (s : State) :
    (purge o now s).2.localStorage.rejects = s.localStorage.rejects ∧
    (purge o now s).2.purges = s.purges + 1 := by
  obtain ⟨h1, h2⟩ := purgeLoop_rejects_purges o now (keys s.all) { s with purges := s.purges + 1 }
  exact ⟨h1, h2⟩

/-- On a store that accepts writes `get` returns, without running `purge`. -/
theorem get_returns_of_acceptsWrites (o : Options) (fuel : Nat) (now : Int) (key : String)
    (duration : Duration) (s : State) (hacc : s.localStorage.acceptsWrites) :
    ∃ r s1, get o (fuel + 1) now key duration s = .ok r s1 ∧ s1.purges = s.purges ∧
      s1.localStorage.acceptsWrites := by
  cases hlook : lookup (normalizeKey o key) s.all with
  | none => exact ⟨none, s, get_of_lookup_none o _ now key duration s hlook, rfl, hacc⟩
  | some data =>
    by_cases hl : live now data (getDuration o now data duration) = true
    · obtain ⟨s1, h1, _, _, _⟩ :=
        save_of_acceptsWrites o fuel (normalizeKey o key) { data with u := now } s hacc
      obtain ⟨_, _, h4, h5⟩ := save_ok_of_acceptsWrites o (fuel + 1) _ _ s s1 hacc h1
      refine ⟨some data.v, s1, ?_, h5, ?_⟩
      · simp [get, hlook, hl, tap, h1]
      · intro i; rw [h4]; exact hacc i
    · have hl2 : live now data (getDuration o now data duration) = false := by simpa using hl
      refine ⟨none, _, get_of_not_live o _ now key duration s data hlook hl2,
        removeNormalized_purges _ _ _, ?_⟩
      intro i; rw [removeNormalized_rejects]; exact hacc i

/-- On a store that accepts writes `set` returns, without running `purge`. -/
theorem set_returns_of_acceptsWrites (o : Options) (fuel : Nat) (now : Int) (key : String)
    (val : Value) (duration : Duration) (s : State) (hacc : s.localStorage.acceptsWrites) :
    ∃ s1, set o (fuel + 1) now key val duration s = .ok () s1 ∧ s1.purges = s.purges ∧
      s1.localStorage.acceptsWrites ∧
      (∀ d, setDuration o now duration = some d → 0 < d →
        lookup (normalizeKey o key) s1.all =
          some { v := val, t := some now, d := some d, u := 0 }) := by
  by_cases hnp : nonPositive (setDuration o now duration) = true
  · refine ⟨remove o key s, set_of_nonpos o _ now key val duration s hnp,
      removeNormalized_purges _ _ _, ?_, ?_⟩
    · intro i
      unfold remove
      rw [removeNormalized_rejects]; exact hacc i
    · intro d hd hpos
      rw [hd, nonPositive_of_pos d hpos] at hnp
      cases hnp
  · obtain ⟨s1, h1, h2, h3, _⟩ := save_of_acceptsWrites o fuel (normalizeKey o key)
      { v := val, t := some now, d := setDuration o now duration, u := 0 } s hacc
    obtain ⟨_, _, _, h5⟩ := save_ok_of_acceptsWrites o (fuel + 1) _ _ s s1 hacc h1
    refine ⟨s1, by simp [set, hnp, h1], h5, h3, ?_⟩
    intro d hd _
    rw [h2, hd]
    exact lookup_assign_self _ _ _

/-- The three ways `clean` ends on a store that accepts writes: it returns
`undefined` without running `purge`; or `purge` ran once and returned
`undefined`, so that `clean` throws; or `purge` ran once and the entry
`__lastClean` has been written. -/
theorem clean_cases (o : Options) (fuel : Nat) (now : Int) (duration : Duration) (s : State)
    (hacc : s.localStorage.acceptsWrites) :
    (∃ s1, clean o (fuel + 1) now duration s = .ok false s1 ∧ s1.purges = s.purges ∧
      s1.localStorage.acceptsWrites) ∨
    (∃ s1, clean o (fuel + 1) now duration s = .thrown s1 ∧ s1.purges = s.purges + 1) ∨
    (∃ s1, clean o (fuel + 1) now duration s = .ok true s1 ∧ s1.purges = s.purges + 1 ∧
      s1.localStorage.acceptsWrites ∧
      (∀ d, setDuration o now (cleanDuration o duration) = some d → 0 < d →
        lookup (normalizeKey o "__lastClean") s1.all =
          some { v := .bool true, t := some now, d := some d, u := 0 })) := by
  obtain ⟨r, s1, hget, hp1, hacc1⟩ :=
    get_returns_of_acceptsWrites o fuel now "__lastClean" (cleanDuration o duration) s hacc
  by_cases htr : truthyResult r = true
  · left
    refine ⟨s1, ?_, hp1, hacc1⟩
    simp only [clean, hget, htr, if_true]
  · right
    obtain ⟨hr2, hp2⟩ := purge_rejects_purges o now s1
    cases hpurge : purge o now s1 with
    | mk flag s2 =>
      rw [hpurge] at hr2 hp2
      simp only at hr2 hp2
      cases flag with
      | false =>
        left
        refine ⟨s2, ?_, by rw [hp2, hp1]⟩
        simp only [clean, hget, htr, hpurge]
        rfl
      | true =>
        right
        have hacc2 : s2.localStorage.acceptsWrites := by
          intro i; rw [hr2]; exact hacc1 i
        obtain ⟨s3, hset, hp3, hacc3, hlook⟩ :=
          set_returns_of_acceptsWrites o fuel now "__lastClean" (.bool true)
            (cleanDuration o duration) s2 hacc2
        refine ⟨s3, ?_, by rw [hp3, hp2, hp1], hacc3, hlook⟩
        simp only [clean, hget, htr, hpurge, hset]
        rfl

theorem get_of_live_frame (o : Options) (fuel : Nat) (now : Int) (key : String)
    (duration : Duration) (s : State) (data : Entry)
    (hacc : s.localStorage.acceptsWrites)
    (h : lookup (normalizeKey o key) s.all = some data)
    (hl : live now data (getDuration o now data duration) = true) :
    ∃ s1, get o (fuel + 1) now key duration s = .ok (some data.v) s1 ∧
      s1.all = assign (normalizeKey o key) { data with u := now } s.all ∧
      s1.purges = s.purges ∧ s1.localStorage.acceptsWrites ∧
      (∀ k1, k1 ≠ normalizeKey o key →
        lookup k1 s1.localStorage.items = lookup k1 s.localStorage.items) := by
  obtain ⟨s1, h1, _, _, _⟩ :=
    save_of_acceptsWrites o fuel (normalizeKey o key) { data with u := now } s hacc
  obtain ⟨h2, h3, h4, h5⟩ := save_ok_of_acceptsWrites o (fuel + 1) _ _ s s1 hacc h1
  refine ⟨s1, ?_, h2, h5, ?_, ?_⟩
  · simp [get, h, hl, tap, h1]
  · intro i; rw [h4]; exact hacc i
  · intro k1 hk1
    rw [h3]
    split
    · exact lookup_assign_of_ne _ _ _ _ hk1
    · rfl

/-- C14 (as stated, refuted): `clean(60)` at 59000 finds `__lastClean`, written
at the time 1, still live and returns; `clean(60)` at 61000, within 60 seconds
of the first call, finds it expired, runs `purge`, which removes `cache:x`, and
writes `__lastClean` anew: the second call is not a no-op on the entries. -/
theorem clean_second_call_purges :
    (59000 : Int) ≤ 61000 ∧ (61000 : Int) < 59000 + 1000 * 60 ∧
    clean {} 1 59000 (.seconds 60) (cleanedOnce 0 2) = .ok false (cleanedOnce 59000 3) ∧
    clean {} 1 61000 (.seconds 60) (cleanedOnce 59000 3) =
      .ok true
        { all := [("cache:__lastClean",
            { v := .bool true, t := some 61000, u := 0, d := some 60000 })],
          localStorage :=
            { emptyStorage with
              items := [("cache:__lastClean",
                Raw.json { v := .bool true, t := some 61000, u := 0, d := some 60000 })],
              writes := 4 },
          purges := 1 } := by
  refine ⟨by decide, by decide, rfl, rfl⟩

/-- C14 (amended): on a store that accepts writes, when `clean(d)` at `t1`
returns normally and `clean(d)` is called again at `t2` with
`t1 ≤ t2 < t1 + 1000 * d` and nothing in between, the second call returns or
throws and `purge` has run at most once over the two calls; when the first
call ran `purge`, the second returns `undefined` without running it, and
changes nothing but the `u` of the entry `__lastClean`, set to `t2` in the
mapping and written through to the store. -/
theorem clean_throttles_purge (o : Options) (fuel : Nat) (d t1 t2 : Int) (s : State)
    (hacc : s.localStorage.acceptsWrites) (hd : 0 < d) (_h12 : t1 ≤ t2)
    (h2 : t2 < t1 + 1000 * d) :
    ∀ (rep1 : Reply) (s1 : State),
      call o (fuel + 1) t1 (.clean (.seconds d)) s = some (rep1, s1) → rep1 ≠ Reply.threw →
      (∃ rep2 s2, call o (fuel + 1) t2 (.clean (.seconds d)) s1 = some (rep2, s2) ∧
        s2.purges ≤ s.purges + 1) ∧
      (s1.purges = s.purges + 1 →
        ∃ data s2, lookup (normalizeKey o "__lastClean") s1.all = some data ∧
          call o (fuel + 1) t2 (.clean (.seconds d)) s1 = some (Reply.undefined, s2) ∧
          s2.purges = s1.purges ∧
          s2.all = assign (normalizeKey o "__lastClean") { data with u := t2 } s1.all ∧
          (∀ k1, k1 ≠ normalizeKey o "__lastClean" →
            lookup k1 s2.localStorage.items = lookup k1 s1.localStorage.items)) := by
  intro rep1 s1 hcall hrep
  have hdur : cleanDuration o (.seconds d) = .seconds d := by
    simp [cleanDuration, ne_of_gt hd]
  have bound : ∀ (s1 : State), s1.localStorage.acceptsWrites →
      ∃ rep2 s2, call o (fuel + 1) t2 (.clean (.seconds d)) s1 = some (rep2, s2) ∧
        s2.purges ≤ s1.purges + 1 := by
    intro s1 hacc1
    rcases clean_cases o fuel t2 (.seconds d) s1 hacc1 with
      ⟨s2, h, hp, _⟩ | ⟨s2, h, hp⟩ | ⟨s2, h, hp, _, _⟩
    · exact ⟨Reply.undefined, s2, by simp [call, h, Outcome.reply], by omega⟩
    · exact ⟨Reply.threw, s2, by simp [call, h, Outcome.reply], by omega⟩
    · exact ⟨Reply.self, s2, by simp [call, h, Outcome.reply], by omega⟩
  rcases clean_cases o fuel t1 (.seconds d) s hacc with
    ⟨s1', h, hp, hacc1⟩ | ⟨s1', h, hp⟩ | ⟨s1', h, hp, hacc1, hlook⟩
  · simp only [call, h, Outcome.reply, Option.some.injEq, Prod.mk.injEq] at hcall
    obtain ⟨_, hs⟩ := hcall
    subst hs
    obtain ⟨rep2, s2, hc2, hb⟩ := bound s1' hacc1
    exact ⟨⟨rep2, s2, hc2, by omega⟩, fun hh => by omega⟩
  · simp only [call, h, Outcome.reply, Option.some.injEq, Prod.mk.injEq] at hcall
    exact absurd hcall.1.symm hrep
  · simp only [call, h, Outcome.reply, Option.some.injEq, Prod.mk.injEq] at hcall
    obtain ⟨_, hs⟩ := hcall
    subst hs
    rw [hdur] at hlook
    have hlook1 := hlook (d * 1000) rfl (by omega)
    have hl : ∀ e : Entry, e.t = some t1 →
        live t2 e (getDuration o t2 e (.seconds d)) = true := by
      intro e he
      simp [live, getDuration, he]; omega
    obtain ⟨s2, hget, hall2, hp2, _, hitems⟩ :=
      get_of_live_frame o fuel t2 "__lastClean" (.seconds d) s1' _ hacc1 hlook1 (hl _ rfl)
    have hclean : clean o (fuel + 1) t2 (.seconds d) s1' = .ok false s2 := by
      simp [clean, hdur, hget, truthyResult, Value.truthy]
    have hc2 : call o (fuel + 1) t2 (.clean (.seconds d)) s1' = some (Reply.undefined, s2) := by
      simp [call, hclean, Outcome.reply]
    exact ⟨⟨_, s2, hc2, by omega⟩, fun _ => ⟨_, s2, hlook1, hc2, hp2, hall2, hitems⟩⟩

theorem clean_throttles_purge_witness :
    (∃ rep2 s2, call {} 1 2000 (.clean (.seconds 60))
          { all := [("cache:__lastClean",
              { v := .bool true, t := some 1000, u := 0, d := some 60000 })],
            localStorage :=
              { emptyStorage with
                items := [("cache:__lastClean",
                  Raw.json { v := .bool true, t := some 1000, u := 0, d := some 60000 })],
                writes := 1 },
            purges := 1 } = some (rep2, s2) ∧
        s2.purges ≤ ({ all := [], localStorage := emptyStorage } : State).purges + 1) :=
  ((clean_throttles_purge {} 0 60 1000 2000 { all := [], localStorage := emptyStorage }
    (fun _ => rfl) (by decide) (by decide) (by decide)) Reply.self
    { all := [("cache:__lastClean",
        { v := .bool true, t := some 1000, u := 0, d := some 60000 })],
      localStorage :=
        { emptyStorage with
          items := [("cache:__lastClean",
            Raw.json { v := .bool true, t := some 1000, u := 0, d := some 60000 })],
          writes := 1 },
      purges := 1 } rfl (by intro h; cases h)).1

/-! ## Memory-only operation against operation on a store that accepts writes -/

theorem sim_removeNormalized (om : Options) (hm : om.useLocalStorage = false) (nk : String) (sm sl : State)
    (hall : sm.all = sl.all) (hacc : sl.localStorage.acceptsWrites) :
    (removeNormalized om nk sm).all =
        (removeNormalized { om with useLocalStorage := true } nk sl).all ∧
      (removeNormalized { om with useLocalStorage := true } nk sl).localStorage.acceptsWrites ∧
      (removeNormalized om nk sm).localStorage = sm.localStorage := by
  refine ⟨by rw [removeNormalized_all, removeNormalized_all, hall], ?_, ?_⟩
  · intro i; rw [removeNormalized_rejects]; exact hacc i
  · exact removeNormalized_localStorage_of_not om nk sm (by simp [hm])

theorem sim_save (om : Options) (hm : om.useLocalStorage = false) (f f1 : Nat) (nk : String) (data : Entry) (sm sl : State)
    (hall : sm.all = sl.all) (hacc : sl.localStorage.acceptsWrites) :
    ∃ sm1 sl1, save om f nk data sm = .ok () sm1 ∧
      save { om with useLocalStorage := true } (f1 + 1) nk data sl = .ok () sl1 ∧
      sm1.all = sl1.all ∧ sl1.localStorage.acceptsWrites ∧
      sm1.localStorage = sm.localStorage := by
  obtain ⟨sl1, h1, h2, h3, _⟩ :=
    save_of_acceptsWrites { om with useLocalStorage := true } f1 nk data sl hacc
  refine ⟨{ sm with all := assign nk data sm.all }, sl1, ?_, h1, ?_, h3, rfl⟩
  · simp [save, hm]
  · rw [h2, hall]

theorem sim_get (om : Options) (hm : om.useLocalStorage = false) (f f1 : Nat) (now : Int) (key : String) (duration : Duration)
    (sm sl : State) (hall : sm.all = sl.all) (hacc : sl.localStorage.acceptsWrites) :
    ∃ r sm1 sl1, get om f now key duration sm = .ok r sm1 ∧
      get { om with useLocalStorage := true } (f1 + 1) now key duration sl = .ok r sl1 ∧
      sm1.all = sl1.all ∧ sl1.localStorage.acceptsWrites ∧
      sm1.localStorage = sm.localStorage := by
  have hnk : normalizeKey { om with useLocalStorage := true } key = normalizeKey om key := rfl
  cases hlook : lookup (normalizeKey om key) sm.all with
  | none =>
    refine ⟨none, sm, sl, get_of_lookup_none om f now key duration sm hlook,
      get_of_lookup_none _ _ now key duration sl (by rw [hnk, ← hall]; exact hlook),
      hall, hacc, rfl⟩
  | some data =>
    have hlook2 : lookup (normalizeKey { om with useLocalStorage := true } key) sl.all =
        some data := by rw [hnk, ← hall]; exact hlook
    have hdur : getDuration { om with useLocalStorage := true } now data duration =
        getDuration om now data duration := by
      cases duration <;> rfl
    by_cases hl : live now data (getDuration om now data duration) = true
    · obtain ⟨sm1, sl1, h1, h2, h3, h4, h5⟩ :=
        sim_save om hm f f1 (normalizeKey om key) { data with u := now } sm sl hall hacc
      refine ⟨some data.v, sm1, sl1, ?_, ?_, h3, h4, h5⟩
      · simp [get, hlook, hl, tap, h1]
      · simp only [get, hlook2, hdur, hl, if_true, tap]
        rw [hnk, h2]
    · have hl2 : live now data (getDuration om now data duration) = false := by simpa using hl
      obtain ⟨h3, h4, h5⟩ := sim_removeNormalized om hm (normalizeKey om key) sm sl hall hacc
      refine ⟨none, _, _, get_of_not_live om f now key duration sm data hlook hl2,
        get_of_not_live _ _ now key duration sl data hlook2 (by rw [hdur]; exact hl2),
        h3, h4, h5⟩

theorem sim_set (om : Options) (hm : om.useLocalStorage = false) (f f1 : Nat) (now : Int) (key : String) (val : Value) (duration : Duration)
    (sm sl : State) (hall : sm.all = sl.all) (hacc : sl.localStorage.acceptsWrites) :
    ∃ sm1 sl1, set om f now key val duration sm = .ok () sm1 ∧
      set { om with useLocalStorage := true } (f1 + 1) now key val duration sl = .ok () sl1 ∧
      sm1.all = sl1.all ∧ sl1.localStorage.acceptsWrites ∧
      sm1.localStorage = sm.localStorage := by
  have hdur : setDuration { om with useLocalStorage := true } now duration =
      setDuration om now duration := by
    cases duration <;> rfl
  by_cases hle : nonPositive (setDuration om now duration) = true
  · obtain ⟨h3, h4, h5⟩ := sim_removeNormalized om hm (normalizeKey om key) sm sl hall hacc
    exact ⟨_, _, set_of_nonpos om f now key val duration sm hle,
      set_of_nonpos _ _ now key val duration sl (by rw [hdur]; exact hle), h3, h4, h5⟩
  · obtain ⟨sm1, sl1, h1, h2, h3, h4, h5⟩ :=
      sim_save om hm f f1 (normalizeKey om key)
        { v := val, t := some now, d := setDuration om now duration, u := 0 }
        sm sl hall hacc
    refine ⟨sm1, sl1, ?_, ?_, h3, h4, h5⟩
    · simp only [set, hle, if_false]; exact h1
    · simp only [set, hdur, hle, if_false]; exact h2

theorem sim_purgeLoop (om : Options) (hm : om.useLocalStorage = false) (now : Int) :
    ∀ (ks : List String) (sm sl : State), sm.all = sl.all →
      sl.localStorage.acceptsWrites →
      (purgeLoop om now ks sm).1 =
        (purgeLoop { om with useLocalStorage := true } now ks sl).1 ∧
      (purgeLoop om now ks sm).2.all =
        (purgeLoop { om with useLocalStorage := true } now ks sl).2.all ∧
      (purgeLoop { om with useLocalStorage := true } now ks sl).2.localStorage.acceptsWrites ∧
      (purgeLoop om now ks sm).2.localStorage = sm.localStorage := by
  intro ks
  induction ks with
  | nil => intro sm sl hall hacc; exact ⟨rfl, hall, hacc, rfl⟩
  | cons k ks ih =>
    intro sm sl hall hacc
    simp only [purgeLoop]
    rw [← hall]
    cases hlook : lookup k sm.all with
    | none => exact ih sm sl hall hacc
    | some data =>
      simp only []
      cases ht : data.t with
      | none => exact ⟨rfl, hall, hacc, rfl⟩
      | some t =>
        cases hd : data.d with
        | none => exact ⟨rfl, hall, hacc, rfl⟩
        | some d =>
          simp only []
          by_cases h0 : t = 0 ∨ d = 0
          · rw [if_pos h0, if_pos h0]; exact ⟨rfl, hall, hacc, rfl⟩
          · rw [if_neg h0, if_neg h0]
            by_cases hge : now ≥ t + d
            · rw [if_pos hge, if_pos hge]
              obtain ⟨h3, h4, h5⟩ := sim_removeNormalized om hm k sm sl hall hacc
              obtain ⟨i1, i2, i3, i4⟩ := ih _ _ h3 h4
              exact ⟨i1, i2, i3, by rw [i4, h5]⟩
            · rw [if_neg hge, if_neg hge]
              exact ih sm sl hall hacc

theorem sim_clear (om : Options) (hm : om.useLocalStorage = false) :
    ∀ (ks : List String) (sm sl : State), sm.all = sl.all →
      sl.localStorage.acceptsWrites →
      (ks.foldl (fun acc k => removeNormalized om k acc) sm).all =
        (ks.foldl (fun acc k =>
          removeNormalized { om with useLocalStorage := true } k acc) sl).all ∧
      (ks.foldl (fun acc k =>
          removeNormalized { om with useLocalStorage := true } k acc)
            sl).localStorage.acceptsWrites ∧
      (ks.foldl (fun acc k => removeNormalized om k acc) sm).localStorage =
        sm.localStorage := by
  intro ks
  induction ks with
  | nil => intro sm sl hall hacc; exact ⟨hall, hacc, rfl⟩
  | cons k ks ih =>
    intro sm sl hall hacc
    simp only [List.foldl_cons]
    obtain ⟨h3, h4, h5⟩ := sim_removeNormalized om hm k sm sl hall hacc
    obtain ⟨i1, i2, i3⟩ := ih _ _ h3 h4
    exact ⟨i1, i2, by rw [i3, h5]⟩

theorem sim_purge (om : Options) (hm : om.useLocalStorage = false) (now : Int)
    (sm sl : State) (hall : sm.all = sl.all) (hacc : sl.localStorage.acceptsWrites) :
    ∃ b sm1 sl1, purge om now sm = (b, sm1) ∧
      purge { om with useLocalStorage := true } now sl = (b, sl1) ∧
      sm1.all = sl1.all ∧ sl1.localStorage.acceptsWrites ∧
      sm1.localStorage = sm.localStorage := by
  obtain ⟨h1, h2, h3, h4⟩ := sim_purgeLoop om hm now (keys sm.all)
    { sm with purges := sm.purges + 1 } { sl with purges := sl.purges + 1 } hall hacc
  have hk : keys sl.all = keys sm.all := by rw [hall]
  refine ⟨(purge om now sm).1, (purge om now sm).2,
    (purge { om with useLocalStorage := true } now sl).2, rfl, ?_, ?_, ?_, ?_⟩
  · have e : (purge { om with useLocalStorage := true } now sl).1 = (purge om now sm).1 := by
      simp only [purge]
      rw [hk]
      exact h1.symm
    rw [← e]
  · simp only [purge]
    rw [hk]
    exact h2
  · simp only [purge]
    rw [hk]
    exact h3
  · exact h4

theorem sim_clean (om : Options) (hm : om.useLocalStorage = false) (f f1 : Nat) (now : Int)
    (duration : Duration) (sm sl : State) (hall : sm.all = sl.all)
    (hacc : sl.localStorage.acceptsWrites) :
    ∃ rep sm1 sl1,
      (clean om f now duration sm).reply
          (fun b => if b then Reply.self else Reply.undefined) = some (rep, sm1) ∧
      (clean { om with useLocalStorage := true } (f1 + 1) now duration sl).reply
          (fun b => if b then Reply.self else Reply.undefined) = some (rep, sl1) ∧
      sm1.all = sl1.all ∧ sl1.localStorage.acceptsWrites ∧
      sm1.localStorage = sm.localStorage := by
  have hdur : cleanDuration { om with useLocalStorage := true } duration =
      cleanDuration om duration := by
    cases duration <;> rfl
  obtain ⟨r, sm1, sl1, g1, g2, g3, g4, g5⟩ :=
    sim_get om hm f f1 now "__lastClean" (cleanDuration om duration) sm sl hall hacc
  by_cases htr : truthyResult r = true
  · refine ⟨Reply.undefined, sm1, sl1, ?_, ?_, g3, g4, g5⟩
    · simp [clean, g1, htr, Outcome.reply]
    · simp [clean, hdur, g2, htr, Outcome.reply]
  · obtain ⟨b, sm2, sl2, p1, p2, p3, p4, p5⟩ := sim_purge om hm now sm1 sl1 g3 g4
    cases b with
    | false =>
      refine ⟨Reply.threw, sm2, sl2, ?_, ?_, p3, p4, by rw [p5, g5]⟩
      · simp [clean, g1, htr, p1, Outcome.reply]
      · simp [clean, hdur, g2, htr, p2, Outcome.reply]
    | true =>
      obtain ⟨sm3, sl3, s1, s2, s3, s4, s5⟩ :=
        sim_set om hm f f1 now "__lastClean" (.bool true) (cleanDuration om duration)
          sm2 sl2 p3 p4
      refine ⟨Reply.self, sm3, sl3, ?_, ?_, s3, s4, by rw [s5, p5, g5]⟩
      · simp [clean, g1, htr, p1, s1, Outcome.reply]
      · simp [clean, hdur, g2, htr, p2, s2, Outcome.reply]

theorem sim_call (om : Options) (hm : om.useLocalStorage = false) (f f1 : Nat) (now : Int)
    (c : Call) (sm sl : State) (hall : sm.all = sl.all)
    (hacc : sl.localStorage.acceptsWrites) :
    ∃ rep sm1 sl1, call om f now c sm = some (rep, sm1) ∧
      call { om with useLocalStorage := true } (f1 + 1) now c sl = some (rep, sl1) ∧
      sm1.all = sl1.all ∧ sl1.localStorage.acceptsWrites ∧
      sm1.localStorage = sm.localStorage := by
  cases c with
  | get key duration =>
    obtain ⟨r, sm1, sl1, g1, g2, g3, g4, g5⟩ :=
      sim_get om hm f f1 now key duration sm sl hall hacc
    exact ⟨Reply.value r, sm1, sl1, by simp [call, g1, Outcome.reply],
      by simp [call, g2, Outcome.reply], g3, g4, g5⟩
  | set key val duration =>
    obtain ⟨sm1, sl1, g1, g2, g3, g4, g5⟩ :=
      sim_set om hm f f1 now key val duration sm sl hall hacc
    exact ⟨Reply.self, sm1, sl1, by simp [call, g1, Outcome.reply],
      by simp [call, g2, Outcome.reply], g3, g4, g5⟩
  | remove key =>
    obtain ⟨h3, h4, h5⟩ := sim_removeNormalized om hm (normalizeKey om key) sm sl hall hacc
    exact ⟨Reply.self, _, _, rfl, rfl, h3, h4, h5⟩
  | clear =>
    obtain ⟨h3, h4, h5⟩ := sim_clear om hm (ownKeys sm.all) sm sl hall hacc
    refine ⟨Reply.self, _, _, rfl, rfl, ?_, ?_, h5⟩
    · have hk : ownKeys sl.all = ownKeys sm.all := by rw [hall]
      simp only [clear]; rw [hk]; exact h3
    · have hk : ownKeys sl.all = ownKeys sm.all := by rw [hall]
      simp only [clear]; rw [hk]; exact h4
  | purge =>
    obtain ⟨b, sm1, sl1, p1, p2, p3, p4, p5⟩ := sim_purge om hm now sm sl hall hacc
    cases b with
    | false =>
      exact ⟨Reply.undefined, sm1, sl1, by simp [call, p1], by simp [call, p2], p3, p4, p5⟩
    | true =>
      exact ⟨Reply.self, sm1, sl1, by simp [call, p1], by simp [call, p2], p3, p4, p5⟩
  | clean duration =>
    exact sim_clean om hm f f1 now duration sm sl hall hacc

theorem sim_run (om : Options) (hm : om.useLocalStorage = false) (f f1 : Nat) :
    ∀ (calls : List (Int × Call)) (sm sl : State), sm.all = sl.all →
      sl.localStorage.acceptsWrites →
      ∃ reps sm1 sl1, run om f calls sm = some (reps, sm1) ∧
        run { om with useLocalStorage := true } (f1 + 1) calls sl = some (reps, sl1) ∧
        sm1.all = sl1.all ∧ sm1.localStorage = sm.localStorage := by
  intro calls
  induction calls with
  | nil => intro sm sl hall _; exact ⟨[], sm, sl, rfl, rfl, hall, rfl⟩
  | cons c calls ih =>
    intro sm sl hall hacc
    obtain ⟨now, c⟩ := c
    obtain ⟨rep, sm1, sl1, c1, c2, c3, c4, c5⟩ := sim_call om hm f f1 now c sm sl hall hacc
    obtain ⟨reps, sm2, sl2, r1, r2, r3, r4⟩ := ih sm1 sl1 c3 c4
    refine ⟨rep :: reps, sm2, sl2, ?_, ?_, r3, by rw [r4, c5]⟩
    · simp [run, c1, r1]
    · simp [run, c2, r2]

/-- C19: with `useLocalStorage = false` every sequence of `get`, `set`,
`remove`, `clear`, `purge` and `clean` calls runs to its end, leaves
`localStorage` as it was, gives replies and a mapping that do not depend on
`localStorage`, and these are the replies and the mapping that the same calls,
at the same clock readings, give with `useLocalStorage = true` on a store that
accepts every write. -/
theorem memory_only_matches_store (om : Options) (hm : om.useLocalStorage = false)
    (f f1 : Nat) (calls : List (Int × Call)) (sm sl : State) (hall : sm.all = sl.all)
    (hacc : sl.localStorage.acceptsWrites) :
    ∃ reps sm1 sl1, run om f calls sm = some (reps, sm1) ∧
      run { om with useLocalStorage := true } (f1 + 1) calls sl = some (reps, sl1) ∧
      sm1.all = sl1.all ∧ sm1.localStorage = sm.localStorage ∧
      (∀ (ls : Storage) (f2 : Nat), ∃ sm2,
        run om f2 calls { sm with localStorage := ls } = some (reps, sm2) ∧
        sm2.all = sm1.all ∧ sm2.localStorage = ls) := by
  obtain ⟨reps, sm1, sl1, r1, r2, r3, r4⟩ := sim_run om hm f f1 calls sm sl hall hacc
  refine ⟨reps, sm1, sl1, r1, r2, r3, r4, ?_⟩
  intro ls f2
  obtain ⟨reps2, sm2, sl2, q1, q2, q3, q4⟩ :=
    sim_run om hm f2 f1 calls { sm with localStorage := ls } sl hall hacc
  rw [r2] at q2
  simp only [Option.some.injEq, Prod.mk.injEq] at q2
  obtain ⟨e1, e2⟩ := q2
  subst e1
  subst e2
  exact ⟨sm2, q1, by rw [q3, r3], q4⟩

theorem memory_only_matches_store_witness :
    ∃ reps sm1 sl1,
      run { useLocalStorage := false } 0
        [(1, .set "a" (.num 1) (.seconds 10)), (2, .get "a" .omitted), (3, .clean .omitted),
         (20000, .get "a" .omitted), (20001, .purge), (20002, .remove "a"), (20003, .clear)]
        { all := [], localStorage := fullStorage } = some (reps, sm1) ∧
      run { ({ useLocalStorage := false } : Options) with useLocalStorage := true } 1
        [(1, .set "a" (.num 1) (.seconds 10)), (2, .get "a" .omitted), (3, .clean .omitted),
         (20000, .get "a" .omitted), (20001, .purge), (20002, .remove "a"), (20003, .clear)]
        { all := [], localStorage := emptyStorage } = some (reps, sl1) ∧
      sm1.all = sl1.all ∧
      sm1.localStorage = ({ all := [], localStorage := fullStorage } : State).localStorage ∧
      (∀ (ls : Storage) (f2 : Nat), ∃ sm2,
        run { useLocalStorage := false } f2
          [(1, .set "a" (.num 1) (.seconds 10)), (2, .get "a" .omitted), (3, .clean .omitted),
           (20000, .get "a" .omitted), (20001, .purge), (20002, .remove "a"), (20003, .clear)]
          { ({ all := [], localStorage := fullStorage } : State) with localStorage := ls } =
            some (reps, sm2) ∧
        sm2.all = sm1.all ∧ sm2.localStorage = ls) :=
  memory_only_matches_store { useLocalStorage := false } rfl 0 0
    [(1, .set "a" (.num 1) (.seconds 10)), (2, .get "a" .omitted), (3, .clean .omitted),
     (20000, .get "a" .omitted), (20001, .purge), (20002, .remove "a"), (20003, .clear)]
    { all := [], localStorage := fullStorage } { all := [], localStorage := emptyStorage }
    rfl (fun _ => rfl)

/-! ## Well-formedness of the entries written through the public operations -/

theorem mem_assign {β : Type} (k : String) (b : β) (m : List (String × β)) (p : String × β)
    (h : p ∈ assign k b m) : p = (k, b) ∨ p ∈ m := by
  induction m with
  | nil => left; simpa [assign] using h
  | cons q rest ih =>
    obtain ⟨k', b'⟩ := q
    by_cases hk : k' = k
    · simp only [assign, hk, if_true, List.mem_cons] at h
      rcases h with h | h
      · exact Or.inl h
      · exact Or.inr (List.mem_cons_of_mem _ h)
    · simp only [assign, hk, if_false, List.mem_cons] at h
      rcases h with h | h
      · exact Or.inr (h ▸ List.mem_cons_self _ _)
      · rcases ih h with h1 | h1
        · exact Or.inl h1
        · exact Or.inr (List.mem_cons_of_mem _ h1)

theorem mem_of_lookup {β : Type} (k : String) (b : β) (m : List (String × β))
    (h : lookup k m = some b) : (k, b) ∈ m := by
  induction m with
  | nil => simp [lookup] at h
  | cons q rest ih =>
    obtain ⟨k', b'⟩ := q
    by_cases hk : k' = k
    · simp only [lookup, hk, if_true, Option.some.injEq] at h
      rw [hk, h]; exact List.mem_cons_self _ _
    · simp only [lookup, hk, if_false] at h
      exact List.mem_cons_of_mem _ (ih h)

theorem entriesWellFormed_mono (now now1 : Int) (s : State) (hle : now ≤ now1)
    (h : entriesWellFormed now s) : entriesWellFormed now1 s := by
  intro p hp
  obtain ⟨t, d, ht, hd, h1, h2, h3, h4⟩ := h p hp
  refine ⟨t, d, ht, hd, h1, h2, le_trans h3 hle, ?_⟩
  rcases h4 with h4 | h4
  · exact Or.inl h4
  · exact Or.inr ⟨h4.1, le_trans h4.2 hle⟩

theorem entriesWellFormed_of_all_eq (now : Int) (s s1 : State) (hall : s1.all = s.all)
    (h : entriesWellFormed now s) : entriesWellFormed now s1 := by
  intro p hp
  rw [hall] at hp
  exact h p hp

theorem entriesWellFormed_removeNormalized (o : Options) (now : Int) (nk : String)
    (s : State) (h : entriesWellFormed now s) :
    entriesWellFormed now (removeNormalized o nk s) := by
  intro p hp
  rw [removeNormalized_all] at hp
  exact h p (mem_of_mem_deleteOwn _ _ _ hp)

theorem entriesWellFormed_clearLru (o : Options) (now : Int) (s : State)
    (h : entriesWellFormed now s) : entriesWellFormed now (clearLru o s).2 := by
  unfold clearLru
  by_cases hf : falsyKey (lruScan s.all) = true
  · simp only [hf, if_true]; exact h
  · simp only [hf]
    exact entriesWellFormed_removeNormalized o now _ s h

theorem entriesWellFormed_saveLoop (o : Options) (now : Int) (nk : String) (raw : Raw) :
    ∀ (fuel : Nat) (s : State), entriesWellFormed now s →
      ∀ (rep : Reply) (s1 : State),
        (saveLoop o nk raw fuel s).reply (fun _ => Reply.self) = some (rep, s1) →
        entriesWellFormed now s1 := by
  intro fuel
  induction fuel with
  | zero => intro s _ rep s1 h; simp [saveLoop, Outcome.reply] at h
  | succ n ih =>
    intro s hs rep s1 h
    simp only [saveLoop, Storage.setItem] at h
    by_cases hr : s.localStorage.rejects s.localStorage.writes = true
    · simp only [hr, if_true] at h
      have hcl := entriesWellFormed_clearLru o now
        { s with localStorage := { s.localStorage with writes := s.localStorage.writes + 1 } }
        (entriesWellFormed_of_all_eq now s _ rfl hs)
      cases hc : clearLru o
        { s with localStorage := { s.localStorage with writes := s.localStorage.writes + 1 } } with
      | mk lru s2 =>
        rw [hc] at hcl h
        cases lru with
        | none =>
          simp only [Outcome.reply, Option.some.injEq, Prod.mk.injEq] at h
          rw [← h.2]; exact hcl
        | some l => exact ih s2 hcl rep s1 h
    · have hr1 : s.localStorage.rejects s.localStorage.writes = false := by simpa using hr
      simp only [hr1, Bool.false_eq_true, if_false, Outcome.reply, Option.some.injEq,
        Prod.mk.injEq] at h
      rw [← h.2]
      exact entriesWellFormed_of_all_eq now s _ rfl hs

theorem entriesWellFormed_save (o : Options) (fuel : Nat) (now : Int) (nk : String)
    (data : Entry) (s : State) (hs : entriesWellFormed now s)
    (hdata : ∃ t d, data.t = some t ∧ data.d = some d ∧ 0 < d ∧ 0 < t ∧ t ≤ now ∧
      (data.u = 0 ∨ (t ≤ data.u ∧ data.u ≤ now)))
    (rep : Reply) (s1 : State)
    (h : (save o fuel nk data s).reply (fun _ => Reply.self) = some (rep, s1)) :
    entriesWellFormed now s1 := by
  have hs1 : entriesWellFormed now { s with all := assign nk data s.all } := by
    intro p hp
    rcases mem_assign nk data s.all p hp with hp | hp
    · rw [hp]; exact hdata
    · exact hs p hp
  unfold save at h
  by_cases hu : o.useLocalStorage = true
  · rw [if_pos hu] at h
    exact entriesWellFormed_saveLoop o now nk _ fuel _ hs1 rep s1 h
  · rw [if_neg hu] at h
    simp only [Outcome.reply, Option.some.injEq, Prod.mk.injEq] at h
    rw [← h.2]; exact hs1

theorem entriesWellFormed_get (o : Options) (fuel : Nat) (now : Int) (key : String)
    (duration : Duration) (s : State) (hs : entriesWellFormed now s)
    (rep : Reply) (s1 : State)
    (h : (get o fuel now key duration s).reply Reply.value = some (rep, s1)) :
    entriesWellFormed now s1 := by
  unfold get at h
  cases hlook : lookup (normalizeKey o key) s.all with
  | none =>
    simp only [hlook, Outcome.reply, Option.some.injEq, Prod.mk.injEq] at h
    rw [← h.2]; exact hs
  | some data =>
    simp only [hlook] at h
    by_cases hl : live now data (getDuration o now data duration) = true
    · simp only [hl, if_true, tap, hlook] at h
      obtain ⟨t, d, ht, hd, h1, h2, h3, _⟩ := hs _ (mem_of_lookup _ _ _ hlook)
      simp only at ht hd
      have hdata : ∃ t d, ({ data with u := now } : Entry).t = some t ∧
          ({ data with u := now } : Entry).d = some d ∧ 0 < d ∧ 0 < t ∧ t ≤ now ∧
          (({ data with u := now } : Entry).u = 0 ∨
            (t ≤ ({ data with u := now } : Entry).u ∧
              ({ data with u := now } : Entry).u ≤ now)) :=
        ⟨t, d, ht, hd, h1, h2, h3, Or.inr ⟨h3, le_refl _⟩⟩
      cases hsave : save o fuel (normalizeKey o key) { data with u := now } s with
      | timeout => rw [hsave] at h; simp [Outcome.reply] at h
      | thrown s2 =>
        rw [hsave] at h
        simp only [Outcome.reply, Option.some.injEq, Prod.mk.injEq] at h
        rw [← h.2]
        exact entriesWellFormed_save o fuel now (normalizeKey o key) { data with u := now }
          s hs hdata Reply.threw s2 (by rw [hsave]; rfl)
      | ok a s2 =>
        rw [hsave] at h
        simp only [Outcome.reply, Option.some.injEq, Prod.mk.injEq] at h
        rw [← h.2]
        exact entriesWellFormed_save o fuel now (normalizeKey o key) { data with u := now }
          s hs hdata Reply.self s2 (by rw [hsave]; rfl)
    · simp only [hl, Bool.false_eq_true, if_false, Outcome.reply, Option.some.injEq,
        Prod.mk.injEq] at h
      rw [← h.2]
      exact entriesWellFormed_removeNormalized o now _ s hs

theorem setDuration_of_isNumber (o : Options) (now : Int) (duration : Duration)
    (hnum : duration.isNumber = true) : ∃ d, setDuration o now duration = some d := by
  cases duration with
  | omitted => exact ⟨_, rfl⟩
  | seconds n => exact ⟨_, rfl⟩
  | date ms => exact ⟨_, rfl⟩
  | nan => cases hnum
  | invalidDate => cases hnum

theorem entriesWellFormed_set (o : Options) (fuel : Nat) (now : Int) (key : String)
    (val : Value) (duration : Duration) (s : State) (hs : entriesWellFormed now s)
    (hnow : 0 < now) (hnum : duration.isNumber = true) (rep : Reply) (s1 : State)
    (h : (set o fuel now key val duration s).reply (fun _ => Reply.self) = some (rep, s1)) :
    entriesWellFormed now s1 := by
  obtain ⟨d, hd⟩ := setDuration_of_isNumber o now duration hnum
  unfold set at h
  rw [hd] at h
  by_cases hle : d ≤ 0
  · simp only [nonPositive, hle, decide_True, if_true, Outcome.reply, Option.some.injEq,
      Prod.mk.injEq] at h
    rw [← h.2]
    exact entriesWellFormed_removeNormalized o now _ s hs
  · simp only [nonPositive, hle, decide_False, Bool.false_eq_true, if_false] at h
    exact entriesWellFormed_save o fuel now _ _ s hs
      ⟨now, d, rfl, rfl, not_le.mp hle, hnow, le_refl _, Or.inl rfl⟩
      rep s1 h

theorem entriesWellFormed_purgeLoop (o : Options) (now : Int) :
    ∀ (ks : List String) (s : State), entriesWellFormed now s →
      (purgeLoop o now ks s).1 = true ∧ entriesWellFormed now (purgeLoop o now ks s).2 := by
  intro ks
  induction ks with
  | nil => intro s hs; exact ⟨rfl, hs⟩
  | cons k ks ih =>
    intro s hs
    simp only [purgeLoop]
    cases hlook : lookup k s.all with
    | none => exact ih s hs
    | some data =>
      obtain ⟨t, d, ht, hd, h1, h2, _, _⟩ := hs _ (mem_of_lookup _ _ _ hlook)
      simp only at ht hd
      simp only [ht, hd]
      have h0 : ¬ (t = 0 ∨ d = 0) := by omega
      rw [if_neg h0]
      split
      · exact ih _ (entriesWellFormed_removeNormalized o now k s hs)
      · exact ih s hs

theorem entriesWellFormed_purge (o : Options) (now : Int) (s : State)
    (hs : entriesWellFormed now s) :
    (purge o now s).1 = true ∧ entriesWellFormed now (purge o now s).2 :=
  entriesWellFormed_purgeLoop o now (keys s.all) { s with purges := s.purges + 1 }
    (entriesWellFormed_of_all_eq now s _ rfl hs)

theorem entriesWellFormed_foldl_removeNormalized (o : Options) (now : Int) :
    ∀ (ks : List String) (s : State), entriesWellFormed now s →
      entriesWellFormed now (ks.foldl (fun acc k => removeNormalized o k acc) s) := by
  intro ks
  induction ks with
  | nil => intro s hs; exact hs
  | cons k ks ih =>
    intro s hs
    exact ih _ (entriesWellFormed_removeNormalized o now k s hs)

theorem cleanDuration_isNumber (o : Options) (duration : Duration)
    (hnum : (duration != Duration.invalidDate) = true) :
    (cleanDuration o duration).isNumber = true := by
  cases duration with
  | omitted => rfl
  | seconds n =>
    simp only [cleanDuration]
    split <;> rfl
  | date ms => rfl
  | nan => rfl
  | invalidDate => simp at hnum

theorem entriesWellFormed_clean (o : Options) (fuel : Nat) (now : Int) (duration : Duration)
    (s : State) (hs : entriesWellFormed now s) (hnow : 0 < now)
    (hnum : (duration != Duration.invalidDate) = true) (rep : Reply) (s1 : State)
    (h : (clean o fuel now duration s).reply
      (fun b => if b then Reply.self else Reply.undefined) = some (rep, s1)) :
    entriesWellFormed now s1 := by
  have hnum1 := cleanDuration_isNumber o duration hnum
  unfold clean at h
  cases hget : get o fuel now "__lastClean" (cleanDuration o duration) s with
  | timeout => simp [hget, Outcome.reply] at h
  | thrown s2 =>
    simp only [hget, Outcome.reply, Option.some.injEq, Prod.mk.injEq] at h
    rw [← h.2]
    exact entriesWellFormed_get o fuel now "__lastClean" _ s hs Reply.threw s2
      (by rw [hget]; rfl)
  | ok r s2 =>
    have hs2 : entriesWellFormed now s2 :=
      entriesWellFormed_get o fuel now "__lastClean" _ s hs (Reply.value r) s2
        (by rw [hget]; rfl)
    simp only [hget] at h
    by_cases htr : truthyResult r = true
    · simp only [htr, if_true, Outcome.reply, Option.some.injEq, Prod.mk.injEq] at h
      rw [← h.2]; exact hs2
    · simp only [htr] at h
      obtain ⟨hflag, hs3⟩ := entriesWellFormed_purge o now s2 hs2
      cases hp : purge o now s2 with
      | mk flag s3 =>
        rw [hp] at hflag hs3 h
        simp only at hflag hs3
        subst hflag
        simp only [Bool.false_eq_true, if_false] at h
        cases hset : set o fuel now "__lastClean" (.bool true)
            (cleanDuration o duration) s3 with
        | timeout => rw [hset] at h; simp [Outcome.reply] at h
        | thrown s4 =>
          rw [hset] at h
          simp only [Outcome.reply, Option.some.injEq, Prod.mk.injEq] at h
          rw [← h.2]
          exact entriesWellFormed_set o fuel now "__lastClean" (.bool true) _ s3 hs3 hnow
            hnum1 Reply.threw s4 (by rw [hset]; rfl)
        | ok a s4 =>
          rw [hset] at h
          simp only [Outcome.reply, Option.some.injEq, Prod.mk.injEq] at h
          rw [← h.2]
          exact entriesWellFormed_set o fuel now "__lastClean" (.bool true) _ s3 hs3 hnow
            hnum1 Reply.self s4 (by rw [hset]; rfl)

/-- One public call made at a positive time that stores no `NaN` duration
keeps the entries well-formed, whatever the store does, and a call of `purge`
returns `this`. -/
theorem entriesWellFormed_call (o : Options) (fuel : Nat) (now : Int) (c : Call) (s : State)
    (hs : entriesWellFormed now s) (hnow : 0 < now) (hnum : c.numeric = true) (rep : Reply)
    (s1 : State) (h : call o fuel now c s = some (rep, s1)) :
    entriesWellFormed now s1 ∧ (c = Call.purge → rep = Reply.self) := by
  cases c with
  | get key duration =>
    exact ⟨entriesWellFormed_get o fuel now key duration s hs rep s1 h, fun hc => by cases hc⟩
  | set key val duration =>
    exact ⟨entriesWellFormed_set o fuel now key val duration s hs hnow hnum rep s1 h,
      fun hc => by cases hc⟩
  | remove key =>
    simp only [call, Option.some.injEq, Prod.mk.injEq] at h
    rw [← h.2]
    exact ⟨entriesWellFormed_removeNormalized o now _ s hs, fun hc => by cases hc⟩
  | clear =>
    simp only [call, Option.some.injEq, Prod.mk.injEq] at h
    rw [← h.2]
    exact ⟨entriesWellFormed_foldl_removeNormalized o now _ s hs, fun hc => by cases hc⟩
  | purge =>
    obtain ⟨hflag, hs3⟩ := entriesWellFormed_purge o now s hs
    simp only [call] at h
    cases hp : purge o now s with
    | mk flag s3 =>
      rw [hp] at hflag hs3 h
      simp only at hflag hs3
      subst hflag
      simp only [Option.some.injEq, Prod.mk.injEq] at h
      rw [← h.2]
      exact ⟨hs3, fun _ => h.1.symm⟩
  | clean duration =>
    exact ⟨entriesWellFormed_clean o fuel now duration s hs hnow hnum rep s1 h,
      fun hc => by cases hc⟩

theorem entriesWellFormed_run (o : Options) (fuel : Nat) :
    ∀ (calls : List (Int × Call)) (s : State) (now0 : Int), entriesWellFormed now0 s →
      (∀ c ∈ calls, now0 ≤ c.1 ∧ 0 < c.1) → (calls.map Prod.fst).Pairwise (· ≤ ·) →
      (∀ c ∈ calls, c.2.numeric = true) →
      ∀ (reps : List Reply) (s1 : State), run o fuel calls s = some (reps, s1) →
        (∀ now, now0 ≤ now → (∀ c ∈ calls, c.1 ≤ now) → entriesWellFormed now s1) ∧
        (∀ p ∈ calls.zip reps, p.1.2 = Call.purge → p.2 = Reply.self) := by
  intro calls
  induction calls with
  | nil =>
    intro s now0 hs _ _ _ reps s1 h
    simp only [run, Option.some.injEq, Prod.mk.injEq] at h
    rw [← h.2]
    exact ⟨fun now hle _ => entriesWellFormed_mono now0 now s hle hs, by simp⟩
  | cons c calls ih =>
    intro s now0 hs hge hpw hnum reps s1 h
    obtain ⟨now1, c⟩ := c
    have hc := hge (now1, c) (List.mem_cons_self _ _)
    simp only [List.map_cons, List.pairwise_cons] at hpw
    simp only [run] at h
    cases hcall : call o fuel now1 c s with
    | none => simp [hcall] at h
    | some res =>
      obtain ⟨rep, s2⟩ := res
      simp only [hcall] at h
      cases hrun : run o fuel calls s2 with
      | none => simp [hrun] at h
      | some res2 =>
        obtain ⟨reps2, s3⟩ := res2
        simp only [hrun, Option.some.injEq, Prod.mk.injEq] at h
        obtain ⟨hreps, hs3⟩ := h
        subst hreps
        subst hs3
        obtain ⟨hs2, hpurge⟩ := entriesWellFormed_call o fuel now1 c s
          (entriesWellFormed_mono now0 now1 s hc.1 hs) hc.2
          (hnum (now1, c) (List.mem_cons_self _ _)) rep s2 hcall
        obtain ⟨i1, i2⟩ := ih s2 now1 hs2
          (fun c1 hc1 => ⟨hpw.1 c1.1 (List.mem_map.mpr ⟨c1, hc1, rfl⟩),
            (hge c1 (List.mem_cons_of_mem _ hc1)).2⟩)
          hpw.2 (fun c1 hc1 => hnum c1 (List.mem_cons_of_mem _ hc1)) reps2 s3 hrun
        refine ⟨?_, ?_⟩
        · intro now _ hall
          exact i1 now (hall (now1, c) (List.mem_cons_self _ _))
            (fun c1 hc1 => hall c1 (List.mem_cons_of_mem _ hc1))
        · intro p hp hpc
          simp only [List.zip_cons_cons, List.mem_cons] at hp
          rcases hp with hp | hp
          · subst hp
            exact hpurge hpc
          · exact i2 p hp hpc

theorem wellFormed_of_entriesWellFormed (now : Int) (s : State)
    (h : entriesWellFormed now s) : ∀ p ∈ s.all, wellFormed now p.2 = true := by
  intro p hp
  obtain ⟨t, d, ht, hd, h1, h2, _, h4⟩ := h p hp
  simp [wellFormed, ht, hd, h1, h2, h4]

/-! ## Caches in which nothing has been assigned to `__proto__` -/

theorem plain_of_eq (s s1 : State) (hall : s1.all = s.all) (h : s.plain) : s1.plain := by
  unfold State.plain at *
  rw [hall]
  exact h

theorem plain_removeNormalized (o : Options) (nk : String) (s : State) (h : s.plain) :
    (removeNormalized o nk s).plain := by
  unfold State.plain at *
  rw [removeNormalized_all]
  by_cases hk : protoKey = nk
  · rw [← hk, deleteOwn_protoKey]; exact h
  · rw [lookup_deleteOwn_of_ne _ _ _ hk]; exact h

theorem plain_clearLru (o : Options) (s : State) (h : s.plain) : (clearLru o s).2.plain := by
  unfold clearLru
  by_cases hf : falsyKey (lruScan s.all) = true
  · simp only [hf, if_true]; exact h
  · simp only [hf]
    exact plain_removeNormalized o _ s h

theorem plain_saveLoop (o : Options) (nk : String) (raw : Raw) :
    ∀ (fuel : Nat) (s : State), s.plain →
      ∀ (rep : Reply) (s1 : State),
        (saveLoop o nk raw fuel s).reply (fun _ => Reply.self) = some (rep, s1) → s1.plain := by
  intro fuel
  induction fuel with
  | zero => intro s _ rep s1 h; simp [saveLoop, Outcome.reply] at h
  | succ n ih =>
    intro s hs rep s1 h
    simp only [saveLoop, Storage.setItem] at h
    by_cases hr : s.localStorage.rejects s.localStorage.writes = true
    · simp only [hr, if_true] at h
      have hcl := plain_clearLru o
        { s with localStorage := { s.localStorage with writes := s.localStorage.writes + 1 } }
        (plain_of_eq s _ rfl hs)
      cases hc : clearLru o
        { s with localStorage := { s.localStorage with writes := s.localStorage.writes + 1 } } with
      | mk lru s2 =>
        rw [hc] at hcl h
        cases lru with
        | none =>
          simp only [Outcome.reply, Option.some.injEq, Prod.mk.injEq] at h
          rw [← h.2]; exact hcl
        | some l => exact ih s2 hcl rep s1 h
    · have hr1 : s.localStorage.rejects s.localStorage.writes = false := by simpa using hr
      simp only [hr1, Bool.false_eq_true, if_false, Outcome.reply, Option.some.injEq,
        Prod.mk.injEq] at h
      rw [← h.2]
      exact plain_of_eq s _ rfl hs

theorem plain_save (o : Options) (fuel : Nat) (nk : String) (data : Entry) (s : State)
    (hs : s.plain) (hk : nk ≠ protoKey) (rep : Reply) (s1 : State)
    (h : (save o fuel nk data s).reply (fun _ => Reply.self) = some (rep, s1)) :
    s1.plain := by
  have hs1 : State.plain { s with all := assign nk data s.all } := by
    unfold State.plain at *
    simp only
    rw [lookup_assign_of_ne _ _ _ _ (Ne.symm hk)]
    exact hs
  unfold save at h
  by_cases hu : o.useLocalStorage = true
  · rw [if_pos hu] at h
    exact plain_saveLoop o nk _ fuel _ hs1 rep s1 h
  · rw [if_neg hu] at h
    simp only [Outcome.reply, Option.some.injEq, Prod.mk.injEq] at h
    rw [← h.2]; exact hs1

theorem plain_get (o : Options) (fuel : Nat) (now : Int) (key : String)
    (duration : Duration) (s : State) (hs : s.plain)
    (rep : Reply) (s1 : State)
    (h : (get o fuel now key duration s).reply Reply.value = some (rep, s1)) :
    s1.plain := by
  unfold get at h
  cases hlook : lookup (normalizeKey o key) s.all with
  | none =>
    simp only [hlook, Outcome.reply, Option.some.injEq, Prod.mk.injEq] at h
    rw [← h.2]; exact hs
  | some data =>
    have hk : normalizeKey o key ≠ protoKey := ne_protoKey_of_lookup _ _ _ hs hlook
    simp only [hlook] at h
    by_cases hl : live now data (getDuration o now data duration) = true
    · simp only [hl, if_true, tap, hlook] at h
      cases hsave : save o fuel (normalizeKey o key) { data with u := now } s with
      | timeout => rw [hsave] at h; simp [Outcome.reply] at h
      | thrown s2 =>
        rw [hsave] at h
        simp only [Outcome.reply, Option.some.injEq, Prod.mk.injEq] at h
        rw [← h.2]
        exact plain_save o fuel (normalizeKey o key) { data with u := now } s hs hk
          Reply.threw s2 (by rw [hsave]; rfl)
      | ok a s2 =>
        rw [hsave] at h
        simp only [Outcome.reply, Option.some.injEq, Prod.mk.injEq] at h
        rw [← h.2]
        exact plain_save o fuel (normalizeKey o key) { data with u := now } s hs hk
          Reply.self s2 (by rw [hsave]; rfl)
    · simp only [hl, Bool.false_eq_true, if_false, Outcome.reply, Option.some.injEq,
        Prod.mk.injEq] at h
      rw [← h.2]
      exact plain_removeNormalized o _ s hs

theorem plain_set (o : Options) (fuel : Nat) (now : Int) (key : String)
    (val : Value) (duration : Duration) (s : State) (hs : s.plain)
    (hk : normalizeKey o key ≠ protoKey) (rep : Reply) (s1 : State)
    (h : (set o fuel now key val duration s).reply (fun _ => Reply.self) = some (rep, s1)) :
    s1.plain := by
  unfold set at h
  by_cases hle : nonPositive (setDuration o now duration) = true
  · simp only [hle, if_true, Outcome.reply, Option.some.injEq, Prod.mk.injEq] at h
    rw [← h.2]
    exact plain_removeNormalized o _ s hs
  · simp only [hle, if_false] at h
    exact plain_save o fuel _ _ s hs hk rep s1 h

theorem plain_purgeLoop (o : Options) (now : Int) :
    ∀ (ks : List String) (s : State), s.plain → (purgeLoop o now ks s).2.plain := by
  intro ks
  induction ks with
  | nil => intro s hs; exact hs
  | cons k ks ih =>
    intro s hs
    simp only [purgeLoop]
    split
    · exact ih s hs
    · split
      · split
        · exact hs
        · split
          · exact ih _ (plain_removeNormalized o k s hs)
          · exact ih s hs
      · exact hs

theorem plain_purge (o : Options) (now : Int) (s : State) (hs : s.plain) :
    (purge o now s).2.plain :=
  plain_purgeLoop o now (keys s.all) { s with purges := s.purges + 1 }
    (plain_of_eq s _ rfl hs)

theorem plain_clear (o : Options) :
    ∀ (ks : List String) (s : State), s.plain →
      (ks.foldl (fun acc k => removeNormalized o k acc) s).plain := by
  intro ks
  induction ks with
  | nil => intro s hs; exact hs
  | cons k ks ih =>
    intro s hs
    exact ih _ (plain_removeNormalized o k s hs)

theorem plain_clean (o : Options) (fuel : Nat) (now : Int) (duration : Duration)
    (s : State) (hs : s.plain) (hk : normalizeKey o "__lastClean" ≠ protoKey) (rep : Reply)
    (s1 : State)
    (h : (clean o fuel now duration s).reply
      (fun b => if b then Reply.self else Reply.undefined) = some (rep, s1)) :
    s1.plain := by
  unfold clean at h
  cases hget : get o fuel now "__lastClean" (cleanDuration o duration) s with
  | timeout => simp [hget, Outcome.reply] at h
  | thrown s2 =>
    simp only [hget, Outcome.reply, Option.some.injEq, Prod.mk.injEq] at h
    rw [← h.2]
    exact plain_get o fuel now "__lastClean" _ s hs Reply.threw s2 (by rw [hget]; rfl)
  | ok r s2 =>
    have hs2 : s2.plain :=
      plain_get o fuel now "__lastClean" _ s hs (Reply.value r) s2 (by rw [hget]; rfl)
    simp only [hget] at h
    by_cases htr : truthyResult r = true
    · simp only [htr, if_true, Outcome.reply, Option.some.injEq, Prod.mk.injEq] at h
      rw [← h.2]; exact hs2
    · simp only [htr] at h
      have hs3 := plain_purge o now s2 hs2
      cases hp : purge o now s2 with
      | mk flag s3 =>
        rw [hp] at hs3 h
        simp only at hs3
        cases flag with
        | false =>
          simp only [Bool.false_eq_true, if_false, Outcome.reply, Option.some.injEq,
            Prod.mk.injEq] at h
          rw [← h.2]; exact hs3
        | true =>
          simp only [Bool.false_eq_true, if_false] at h
          cases hset : set o fuel now "__lastClean" (.bool true)
              (cleanDuration o duration) s3 with
          | timeout => rw [hset] at h; simp [Outcome.reply] at h
          | thrown s4 =>
            rw [hset] at h
            simp only [Outcome.reply, Option.some.injEq, Prod.mk.injEq] at h
            rw [← h.2]
            exact plain_set o fuel now "__lastClean" (.bool true) _ s3 hs3 hk
              Reply.threw s4 (by rw [hset]; rfl)
          | ok a s4 =>
            rw [hset] at h
            simp only [Outcome.reply, Option.some.injEq, Prod.mk.injEq] at h
            rw [← h.2]
            exact plain_set o fuel now "__lastClean" (.bool true) _ s3 hs3 hk
              Reply.self s4 (by rw [hset]; rfl)

theorem ne_protoKey_of_ordinary (o : Options) (c : Call) (key : String)
    (hc : c.ordinary o = true) (hkey : c.key = some key) : normalizeKey o key ≠ protoKey := by
  simp only [Call.ordinary, hkey, bne_iff_ne, ne_eq] at hc
  exact hc

/-- A call whose key does not normalize to `__proto__` assigns nothing to
`this.all['__proto__']`. -/
theorem plain_call (o : Options) (fuel : Nat) (now : Int) (c : Call) (s : State)
    (hs : s.plain) (hc : c.ordinary o = true) (rep : Reply) (s1 : State)
    (h : call o fuel now c s = some (rep, s1)) : s1.plain := by
  cases c with
  | get key duration =>
    exact plain_get o fuel now key duration s hs rep s1 h
  | set key val duration =>
    exact plain_set o fuel now key val duration s hs
      (ne_protoKey_of_ordinary o _ key hc rfl) rep s1 h
  | remove key =>
    simp only [call, Option.some.injEq, Prod.mk.injEq] at h
    rw [← h.2]
    exact plain_removeNormalized o _ s hs
  | clear =>
    simp only [call, Option.some.injEq, Prod.mk.injEq] at h
    rw [← h.2]
    exact plain_clear o _ s hs
  | purge =>
    have hs3 := plain_purge o now s hs
    simp only [call] at h
    cases hp : purge o now s with
    | mk flag s3 =>
      rw [hp] at hs3 h
      cases flag <;>
      · simp only [Option.some.injEq, Prod.mk.injEq] at h
        rw [← h.2]
        exact hs3
  | clean duration =>
    exact plain_clean o fuel now duration s hs
      (ne_protoKey_of_ordinary o _ "__lastClean" hc rfl) rep s1 h

/-- A sequence of calls none of whose keys normalizes to `__proto__` assigns
nothing to `this.all['__proto__']`. -/
theorem plain_run (o : Options) (fuel : Nat) :
    ∀ (calls : List (Int × Call)) (s : State), s.plain →
      (∀ c ∈ calls, c.2.ordinary o = true) →
      ∀ (reps : List Reply) (s1 : State), run o fuel calls s = some (reps, s1) → s1.plain := by
  intro calls
  induction calls with
  | nil =>
    intro s hs _ reps s1 h
    simp only [run, Option.some.injEq, Prod.mk.injEq] at h
    rw [← h.2]; exact hs
  | cons c calls ih =>
    intro s hs hord reps s1 h
    obtain ⟨now1, c⟩ := c
    simp only [run] at h
    cases hcall : call o fuel now1 c s with
    | none => simp [hcall] at h
    | some res =>
      obtain ⟨rep, s2⟩ := res
      simp only [hcall] at h
      cases hrun : run o fuel calls s2 with
      | none => simp [hrun] at h
      | some res2 =>
        obtain ⟨reps2, s3⟩ := res2
        simp only [hrun, Option.some.injEq, Prod.mk.injEq] at h
        rw [← h.2]
        exact ih s2 (plain_call o fuel now1 c s hs (hord (now1, c) (List.mem_cons_self _ _))
          rep s2 hcall) (fun c1 hc1 => hord c1 (List.mem_cons_of_mem _ hc1)) reps2 s3 hrun

/-- C20 (the code at the failing input): on an empty cache with the default
options, `set('a', 1, NaN)` at the time 1 returns `this` and leaves an entry
whose `d` is `NaN` in the mapping, so that `d > 0` fails for it, and `purge()`
at the time 2 takes its branch for malformed entries and returns
`undefined`. -/
theorem set_nan_duration_leaves_malformed_entry :
    run {} 1 [(1, .set "a" (.num 1) .nan), (2, .purge)]
        { all := [], localStorage := emptyStorage } =
      some ([Reply.self, Reply.undefined],
        { all := [("cache:a", { v := .num 1, t := some 1, u := 0, d := none })],
          localStorage :=
            { emptyStorage with
              items := [("cache:a", Raw.json { v := .num 1, t := some 1, u := 0, d := none })],
              writes := 1 },
          purges := 1 }) ∧
    wellFormed 2 { v := .num 1, t := some 1, u := 0, d := none } = false := by
  refine ⟨rfl, rfl⟩

/-- Starting from an empty cache in which nothing has been assigned to
`this.all['__proto__']`, with clock readings that are positive and do not
decrease, after every sequence of `get`, `set`, `remove`, `clear`, `purge` and
`clean` calls that comes to its end, in which no key normalizes to `__proto__`
and no duration stored is `NaN`, whatever the store does: still nothing has
been assigned to `this.all['__proto__']`; every entry `e` of the mapping has
`d > 0`, `t > 0` and `u = 0` or `t ≤ u ≤ now`; every `purge` of the sequence
has returned `this`, and so does a `purge` made afterwards. -/
theorem numeric_calls_keep_entries_well_formed (o : Options) (fuel : Nat)
    (calls : List (Int × Call))
    (s : State) (now : Int) (reps : List Reply) (s1 : State) (hempty : s.all = [])
    (hpos : ∀ c ∈ calls, 0 < c.1) (hmono : (calls.map Prod.fst).Pairwise (· ≤ ·))
    (hnow : ∀ c ∈ calls, c.1 ≤ now) (hkeys : ∀ c ∈ calls, c.2.ordinary o = true)
    (hnum : ∀ c ∈ calls, c.2.numeric = true)
    (hrun : run o fuel calls s = some (reps, s1)) :
    s1.plain ∧
    (∀ p ∈ s1.all, wellFormed now p.2 = true) ∧
    (∀ p ∈ calls.zip reps, p.1.2 = Call.purge → p.2 = Reply.self) ∧
    (∀ now1, now ≤ now1 → (purge o now1 s1).1 = true) := by
  have hinit : ∀ now0, entriesWellFormed now0 s := by
    intro now0 p hp
    rw [hempty] at hp
    cases hp
  have main : entriesWellFormed now s1 ∧
      (∀ p ∈ calls.zip reps, p.1.2 = Call.purge → p.2 = Reply.self) := by
    cases calls with
    | nil =>
      simp only [run, Option.some.injEq, Prod.mk.injEq] at hrun
      rw [← hrun.2]
      exact ⟨hinit now, by simp⟩
    | cons c rest =>
      have hpw := hmono
      simp only [List.map_cons, List.pairwise_cons] at hpw
      obtain ⟨i1, i2⟩ := entriesWellFormed_run o fuel (c :: rest) s c.1 (hinit c.1)
        (by
          intro c1 hc1
          refine ⟨?_, hpos c1 hc1⟩
          rcases List.mem_cons.mp hc1 with h | h
          · rw [h]
          · exact hpw.1 c1.1 (List.mem_map.mpr ⟨c1, h, rfl⟩))
        hmono hnum reps s1 hrun
      exact ⟨i1 now (hnow c (List.mem_cons_self _ _)) hnow, i2⟩
  have hs : s.plain := by unfold State.plain; rw [hempty]; rfl
  refine ⟨plain_run o fuel calls s hs hkeys reps s1 hrun,
    wellFormed_of_entriesWellFormed now s1 main.1, main.2, ?_⟩
  intro now1 hle
  exact (entriesWellFormed_purge o now1 s1 (entriesWellFormed_mono now now1 s1 hle main.1)).1

theorem numeric_calls_keep_entries_well_formed_witness :
    (∀ p ∈
        ([("cache:a", { v := .num 1, t := some 1, u := 2, d := some 10000 }),
          ("cache:b", { v := .str "x", t := some 4, u := 0, d := some 4996 })] :
            List (String × Entry)),
      wellFormed 4 p.2 = true) ∧
    (∀ p ∈
        ([(1, Call.set "a" (.num 1) (.seconds 10)), (2, Call.get "a" .omitted), (3, Call.purge),
          (4, Call.set "b" (.str "x") (.date 5000))] : List (Int × Call)).zip
          [Reply.self, Reply.value (some (.num 1)), Reply.self, Reply.self],
      p.1.2 = Call.purge → p.2 = Reply.self) ∧
    (∀ now1, 4 ≤ now1 →
      (purge {} now1
        { all := [("cache:a", { v := .num 1, t := some 1, u := 2, d := some 10000 }),
                  ("cache:b", { v := .str "x", t := some 4, u := 0, d := some 4996 })],
          localStorage :=
            { emptyStorage with
              items := [("cache:a",
                  Raw.json { v := .num 1, t := some 1, u := 2, d := some 10000 }),
                ("cache:b", Raw.json { v := .str "x", t := some 4, u := 0, d := some 4996 })],
              writes := 3 },
          purges := 1 }).1 = true) :=
  (numeric_calls_keep_entries_well_formed {} 1
    [(1, .set "a" (.num 1) (.seconds 10)), (2, .get "a" .omitted), (3, .purge),
     (4, .set "b" (.str "x") (.date 5000))]
    { all := [], localStorage := emptyStorage } 4
    [Reply.self, Reply.value (some (.num 1)), Reply.self, Reply.self]
    { all := [("cache:a", { v := .num 1, t := some 1, u := 2, d := some 10000 }),
              ("cache:b", { v := .str "x", t := some 4, u := 0, d := some 4996 })],
      localStorage :=
        { emptyStorage with
          items := [("cache:a", Raw.json { v := .num 1, t := some 1, u := 2, d := some 10000 }),
            ("cache:b", Raw.json { v := .str "x", t := some 4, u := 0, d := some 4996 })],
          writes := 3 },
      purges := 1 }
    rfl
    (by
      intro c hc
      simp only [List.mem_cons, List.mem_singleton, List.not_mem_nil, or_false] at hc
      rcases hc with h | h | h | h <;> subst h <;> decide)
    (by decide)
    (by
      intro c hc
      simp only [List.mem_cons, List.mem_singleton, List.not_mem_nil, or_false] at hc
      rcases hc with h | h | h | h <;> subst h <;> decide)
    (by
      intro c hc
      simp only [List.mem_cons, List.mem_singleton, List.not_mem_nil, or_false] at hc
      rcases hc with h | h | h | h <;> subst h <;> decide)
    (by
      intro c hc
      simp only [List.mem_cons, List.mem_singleton, List.not_mem_nil, or_false] at hc
      rcases hc with h | h | h | h <;> subst h <;> rfl)
    rfl).2

/-- C11 (the code at the failing input): a cache with the prefix `''` is
constructed from an empty store that rejects one write; `set('undefined', 1,
10)` returns `this`, and afterwards the store holds the key `undefined` while
the mapping is empty, so that a cache constructed anew from that store has a
mapping with one entry instead of none. -/
theorem set_leaves_store_ahead_of_mapping :
    construct { pfx := "" } (failingStorage 1) =
      some { all := [], localStorage := failingStorage 1 } ∧
    call { pfx := "" } 2 5 (.set "undefined" (.num 1) (.seconds 10))
        { all := [], localStorage := failingStorage 1 } =
      some (Reply.self,
        { all := [],
          localStorage :=
            { failingStorage 1 with
              items := [("undefined",
                Raw.json { v := .num 1, t := some 5, u := 0, d := some 10000 })],
              writes := 2 } }) ∧
    stored { pfx := "" }
        { all := [],
          localStorage :=
            { failingStorage 1 with
              items := [("undefined",
                Raw.json { v := .num 1, t := some 5, u := 0, d := some 10000 })],
              writes := 2 } } =
      [("undefined", Raw.json { v := .num 1, t := some 5, u := 0, d := some 10000 })] ∧
    serialized ([] : List (String × Entry)) = [] ∧
    construct { pfx := "" }
        { failingStorage 1 with
          items := [("undefined",
            Raw.json { v := .num 1, t := some 5, u := 0, d := some 10000 })],
          writes := 2 } =
      some
        { all := [("undefined", { v := .num 1, t := some 5, u := 0, d := some 10000 })],
          localStorage :=
            { failingStorage 1 with
              items := [("undefined",
                Raw.json { v := .num 1, t := some 5, u := 0, d := some 10000 })],
              writes := 2 } } := by
  refine ⟨rfl, rfl, rfl, rfl, rfl⟩

/-! ## Consistency of the mapping and the store

Outside the key `"undefined"` the mapping and the store stay consistent: when
no normalized key is `"undefined"` (as with the default prefix), every public
call that returns normally keeps the prefixed items of the store equal to the
serialized mapping, whatever writes the store rejects before it accepts one. -/

theorem serialized_assign (k : String) (e : Entry) (m : List (String × Entry)) :
    serialized (assign k e m) = assign k (Raw.json e) (serialized m) := by
  induction m with
  | nil => rfl
  | cons q rest ih =>
    obtain ⟨k', e'⟩ := q
    by_cases hk : k' = k
    · simp [serialized, assign, hk]
    · simp only [serialized] at ih
      simp [serialized, assign, hk, ih]

theorem serialized_delete (k : String) (m : List (String × Entry)) :
    serialized (delete k m) = delete k (serialized m) := by
  induction m with
  | nil => rfl
  | cons q rest ih =>
    obtain ⟨k', e'⟩ := q
    simp only [serialized] at ih
    by_cases hk : k' = k
    · simp [serialized, delete, hk, ih]
    · simp [serialized, delete, hk, ih]

theorem filter_assign {β : Type} (P : String → Bool) (k : String) (b : β)
    (m : List (String × β)) (hk : P k = true) :
    (assign k b m).filter (fun p => P p.1) = assign k b (m.filter (fun p => P p.1)) := by
  induction m with
  | nil => simp [assign, hk]
  | cons q rest ih =>
    obtain ⟨k', b'⟩ := q
    by_cases h1 : k' = k
    · subst h1
      simp [assign, List.filter_cons, hk]
    · by_cases h2 : P k' = true
      · simp [assign, List.filter_cons, h1, h2, ih]
      · simp [assign, List.filter_cons, h1, h2, ih]

theorem filter_delete {β : Type} (P : String → Bool) (k : String) (m : List (String × β)) :
    (delete k m).filter (fun p => P p.1) = delete k (m.filter (fun p => P p.1)) := by
  induction m with
  | nil => rfl
  | cons q rest ih =>
    obtain ⟨k', b'⟩ := q
    by_cases h1 : k' = k
    · subst h1
      by_cases h2 : P k' = true
      · simp [delete, List.filter_cons, h2, ih]
      · simp [delete, List.filter_cons, h2, ih]
    · by_cases h2 : P k' = true
      · simp [delete, List.filter_cons, h1, h2, ih]
      · simp [delete, List.filter_cons, h1, h2, ih]

theorem delete_assign_comm {β : Type} (k u : String) (b : β) (m : List (String × β))
    (hne : k ≠ u) : delete u (assign k b m) = assign k b (delete u m) := by
  induction m with
  | nil => simp [assign, delete, hne]
  | cons q rest ih =>
    obtain ⟨k', b'⟩ := q
    by_cases h1 : k' = k
    · subst h1
      simp [assign, delete, hne]
    · by_cases h2 : k' = u
      · subst h2
        simp [assign, delete, h1, ih]
      · simp [assign, delete, h1, h2, ih]

theorem hasPrefix_normalizeKey (o : Options) (key : String) :
    hasPrefix o (normalizeKey o key) = true := by
  simp [hasPrefix, normalizeKey, String.data_append]

theorem normalizeKey_ne_undefinedKey (o : Options) (hp : o.pfx = "cache:") (key : String) :
    normalizeKey o key ≠ undefinedKey := by
  intro h
  have hd := congrArg String.data h
  simp [normalizeKey, undefinedKey, String.data_append, hp] at hd

theorem consistent_removeNormalized (o : Options) (hu : o.useLocalStorage = true)
    (nk : String) (s : State) (hp : s.plain) (hc : consistent o s) :
    consistent o (removeNormalized o nk s) := by
  unfold consistent stored at *
  rw [removeNormalized_items _ _ _ hu, removeNormalized_all, filter_delete, hc,
    ← serialized_delete]
  by_cases hk : nk = protoKey
  · rw [hk, deleteOwn_protoKey, delete_of_lookup_none _ _ hp]
  · rw [deleteOwn_of_ne _ _ hk]

/-- When the loop of `save` returns, either the first write was accepted, or
the key `"undefined"` has been removed from the mapping and the store before
the accepted write. -/
theorem saveLoop_ok_cases (o : Options) (hu : o.useLocalStorage = true) (nk : String)
    (raw : Raw) :
    ∀ (fuel : Nat) (s s1 : State), saveLoop o nk raw fuel s = .ok () s1 →
      (s1.all = s.all ∧ s1.localStorage.items = assign nk raw s.localStorage.items) ∨
      (s1.all = delete undefinedKey s.all ∧
        s1.localStorage.items = assign nk raw (delete undefinedKey s.localStorage.items)) := by
  intro fuel
  induction fuel with
  | zero => intro s s1 h; simp [saveLoop] at h
  | succ n ih =>
    intro s s1 h
    simp only [saveLoop, Storage.setItem] at h
    by_cases hr : s.localStorage.rejects s.localStorage.writes = true
    · simp only [hr, if_true, clearLru] at h
      by_cases hf : falsyKey (lruScan s.all) = true
      · simp [hf] at h
      · simp only [hf] at h
        cases hscan : lruScan s.all with
        | none => rw [hscan] at hf; simp [falsyKey] at hf
        | some l =>
          rw [hscan] at h
          right
          rcases ih _ s1 h with ⟨h1, h2⟩ | ⟨h1, h2⟩
          · rw [h1, h2, removeNormalized_all, removeNormalized_items _ _ _ hu,
              deleteOwn_undefinedKey]
            exact ⟨rfl, rfl⟩
          · rw [h1, h2, removeNormalized_all, removeNormalized_items _ _ _ hu,
              deleteOwn_undefinedKey]
            simp [delete_delete]
    · have hr1 : s.localStorage.rejects s.localStorage.writes = false := by simpa using hr
      simp only [hr1, Bool.false_eq_true, if_false, Outcome.ok.injEq, true_and] at h
      left
      rw [← h]
      exact ⟨rfl, rfl⟩

theorem consistent_save (o : Options) (hu : o.useLocalStorage = true) (fuel : Nat)
    (nk : String) (data : Entry) (s s1 : State) (hpre : hasPrefix o nk = true)
    (hne : nk ≠ undefinedKey) (hc : consistent o s)
    (h : save o fuel nk data s = .ok () s1) : consistent o s1 := by
  unfold save at h
  rw [if_pos hu] at h
  unfold consistent stored at *
  rcases saveLoop_ok_cases o hu nk (Raw.json data) fuel _ s1 h with ⟨h1, h2⟩ | ⟨h1, h2⟩
  · rw [h1, h2]
    simp only
    rw [filter_assign (fun k => hasPrefix o k) nk _ _ hpre, hc, serialized_assign]
  · rw [h1, h2]
    simp only
    rw [filter_assign (fun k => hasPrefix o k) nk _ _ hpre, filter_delete, hc,
      serialized_delete, serialized_assign, delete_assign_comm _ _ _ _ hne]

theorem consistent_get (o : Options) (hu : o.useLocalStorage = true) (fuel : Nat)
    (now : Int) (key : String) (duration : Duration) (s s1 : State) (r : Option Value)
    (hne : normalizeKey o key ≠ undefinedKey) (hp : s.plain) (hc : consistent o s)
    (h : get o fuel now key duration s = .ok r s1) : consistent o s1 := by
  cases hlook : lookup (normalizeKey o key) s.all with
  | none =>
    rw [get_of_lookup_none o fuel now key duration s hlook] at h
    simp only [Outcome.ok.injEq] at h
    rw [← h.2]; exact hc
  | some data =>
    by_cases hl : live now data (getDuration o now data duration) = true
    · simp only [get, hlook, hl, if_true, tap] at h
      cases hsave : save o fuel (normalizeKey o key) { data with u := now } s with
      | timeout => rw [hsave] at h; cases h
      | thrown s2 => rw [hsave] at h; cases h
      | ok a s2 =>
        rw [hsave] at h
        simp only [Outcome.ok.injEq] at h
        rw [← h.2]
        exact consistent_save o hu fuel _ _ s s2 (hasPrefix_normalizeKey o key) hne hc hsave
    · have hl2 : live now data (getDuration o now data duration) = false := by simpa using hl
      rw [get_of_not_live o fuel now key duration s data hlook hl2] at h
      simp only [Outcome.ok.injEq] at h
      rw [← h.2]
      exact consistent_removeNormalized o hu _ s hp hc

theorem consistent_set (o : Options) (hu : o.useLocalStorage = true) (fuel : Nat)
    (now : Int) (key : String) (val : Value) (duration : Duration) (s s1 : State)
    (hne : normalizeKey o key ≠ undefinedKey) (hp : s.plain) (hc : consistent o s)
    (h : set o fuel now key val duration s = .ok () s1) : consistent o s1 := by
  unfold set at h
  by_cases hle : nonPositive (setDuration o now duration) = true
  · simp only [hle, if_true, Outcome.ok.injEq, true_and] at h
    rw [← h]
    exact consistent_removeNormalized o hu _ s hp hc
  · simp only [hle, if_false] at h
    exact consistent_save o hu fuel _ _ s s1 (hasPrefix_normalizeKey o key) hne hc h

theorem consistent_purgeLoop (o : Options) (hu : o.useLocalStorage = true) (now : Int) :
    ∀ (ks : List String) (s : State), s.plain → consistent o s →
      consistent o (purgeLoop o now ks s).2 := by
  intro ks
  induction ks with
  | nil => intro s _ hc; exact hc
  | cons k ks ih =>
    intro s hp hc
    simp only [purgeLoop]
    split
    · exact ih s hp hc
    · split
      · split
        · exact hc
        · split
          · exact ih _ (plain_removeNormalized o k s hp)
              (consistent_removeNormalized o hu k s hp hc)
          · exact ih s hp hc
      · exact hc

theorem consistent_purge (o : Options) (hu : o.useLocalStorage = true) (now : Int)
    (s : State) (hp : s.plain) (hc : consistent o s) : consistent o (purge o now s).2 :=
  consistent_purgeLoop o hu now (keys s.all) { s with purges := s.purges + 1 }
    (plain_of_eq s _ rfl hp) hc

theorem consistent_clear (o : Options) (hu : o.useLocalStorage = true) :
    ∀ (ks : List String) (s : State), s.plain → consistent o s →
      consistent o (ks.foldl (fun acc k => removeNormalized o k acc) s) := by
  intro ks
  induction ks with
  | nil => intro s _ hc; exact hc
  | cons k ks ih =>
    intro s hp hc
    exact ih _ (plain_removeNormalized o k s hp) (consistent_removeNormalized o hu k s hp hc)

theorem consistent_clean (o : Options) (hu : o.useLocalStorage = true) (fuel : Nat)
    (now : Int) (duration : Duration) (s s1 : State) (b : Bool)
    (hne : normalizeKey o "__lastClean" ≠ undefinedKey) (hp : s.plain) (hc : consistent o s)
    (h : clean o fuel now duration s = .ok b s1) : consistent o s1 := by
  unfold clean at h
  cases hget : get o fuel now "__lastClean" (cleanDuration o duration) s with
  | timeout => simp [hget] at h
  | thrown s2 => simp [hget] at h
  | ok r s2 =>
    have hc2 := consistent_get o hu fuel now "__lastClean" _ s s2 r hne hp hc hget
    have hp2 : s2.plain :=
      plain_get o fuel now "__lastClean" _ s hp (Reply.value r) s2 (by rw [hget]; rfl)
    simp only [hget] at h
    by_cases htr : truthyResult r = true
    · simp only [htr, if_true, Outcome.ok.injEq] at h
      rw [← h.2]; exact hc2
    · simp only [htr] at h
      have hc3 := consistent_purge o hu now s2 hp2 hc2
      have hp3 := plain_purge o now s2 hp2
      cases hpu : purge o now s2 with
      | mk flag s3 =>
        rw [hpu] at hc3 hp3 h
        simp only at hc3 hp3
        cases flag with
        | false => simp at h
        | true =>
          simp only [Bool.false_eq_true, if_false] at h
          cases hset : set o fuel now "__lastClean" (.bool true)
              (cleanDuration o duration) s3 with
          | timeout => rw [hset] at h; simp at h
          | thrown s4 => rw [hset] at h; simp at h
          | ok a s4 =>
            rw [hset] at h
            simp only [Outcome.ok.injEq] at h
            rw [← h.2]
            exact consistent_set o hu fuel now "__lastClean" (.bool true) _ s3 s4 hne hp3 hc3
              hset

/-- When the cache uses the store and no normalized key is `"undefined"`, every
public call that returns normally, made on a cache in which nothing has been
assigned to `this.all['__proto__']`, keeps the mapping and the store
consistent, whatever writes the store rejects. -/
theorem consistent_call (o : Options) (hu : o.useLocalStorage = true)
    (hkey : ∀ key, normalizeKey o key ≠ undefinedKey) (fuel : Nat) (now : Int) (c : Call)
    (s s1 : State) (rep : Reply) (hp : s.plain) (hc : consistent o s)
    (h : call o fuel now c s = some (rep, s1)) (hrep : rep ≠ Reply.threw) :
    consistent o s1 := by
  cases c with
  | get key duration =>
    simp only [call] at h
    cases hget : get o fuel now key duration s with
    | timeout => simp [hget, Outcome.reply] at h
    | thrown s2 =>
      simp only [hget, Outcome.reply, Option.some.injEq, Prod.mk.injEq] at h
      exact absurd h.1.symm hrep
    | ok r s2 =>
      simp only [hget, Outcome.reply, Option.some.injEq, Prod.mk.injEq] at h
      rw [← h.2]
      exact consistent_get o hu fuel now key duration s s2 r (hkey key) hp hc hget
  | set key val duration =>
    simp only [call] at h
    cases hset : set o fuel now key val duration s with
    | timeout => simp [hset, Outcome.reply] at h
    | thrown s2 =>
      simp only [hset, Outcome.reply, Option.some.injEq, Prod.mk.injEq] at h
      exact absurd h.1.symm hrep
    | ok r s2 =>
      simp only [hset, Outcome.reply, Option.some.injEq, Prod.mk.injEq] at h
      rw [← h.2]
      exact consistent_set o hu fuel now key val duration s s2 (hkey key) hp hc hset
  | remove key =>
    simp only [call, Option.some.injEq, Prod.mk.injEq] at h
    rw [← h.2]
    exact consistent_removeNormalized o hu _ s hp hc
  | clear =>
    simp only [call, Option.some.injEq, Prod.mk.injEq] at h
    rw [← h.2]
    exact consistent_clear o hu _ s hp hc
  | purge =>
    have hc3 := consistent_purge o hu now s hp hc
    simp only [call] at h
    cases hpu : purge o now s with
    | mk flag s3 =>
      rw [hpu] at hc3 h
      cases flag <;>
      · simp only [Option.some.injEq, Prod.mk.injEq] at h
        rw [← h.2]
        exact hc3
  | clean duration =>
    simp only [call] at h
    cases hcl : clean o fuel now duration s with
    | timeout => simp [hcl, Outcome.reply] at h
    | thrown s2 =>
      simp only [hcl, Outcome.reply, Option.some.injEq, Prod.mk.injEq] at h
      exact absurd h.1.symm hrep
    | ok b s2 =>
      simp only [hcl, Outcome.reply, Option.some.injEq, Prod.mk.injEq] at h
      rw [← h.2]
      exact consistent_clean o hu fuel now duration s s2 b (hkey "__lastClean") hp hc hcl

theorem serialized_injective (m1 m2 : List (String × Entry))
    (h : serialized m1 = serialized m2) : m1 = m2 := by
  induction m1 generalizing m2 with
  | nil =>
    cases m2 with
    | nil => rfl
    | cons q rest => simp [serialized] at h
  | cons p rest ih =>
    cases m2 with
    | nil => simp [serialized] at h
    | cons q rest2 =>
      simp only [serialized, List.map_cons, List.cons.injEq, Prod.mk.injEq,
        Raw.json.injEq] at h
      obtain ⟨⟨h1, h2⟩, h3⟩ := h
      have := ih rest2 h3
      rw [this]
      congr 1
      exact Prod.ext h1 h2

/-- A cache constructed from a store has a mapping consistent with it, and a
store consistent with a mapping gives that mapping back to the constructor. -/
theorem consistent_construct (o : Options) (hu : o.useLocalStorage = true) (ls : Storage)
    (hnd : (keys ls.items).Nodup) :
    (∀ s, construct o ls = some s → consistent o s) ∧
    (∀ s, s.localStorage = ls → consistent o s →
      ∃ s1, construct o ls = some s1 ∧ s1.all = s.all) := by
  constructor
  · intro s hs
    by_cases hbad : ∃ p ∈ ls.items, hasPrefix o p.1 = true ∧ parse p.2 = none
    · have hl : load o ls = none := by
        simp [load, hu, foldlM_loadStep_none o ls.items [] hbad]
      simp [construct, hl] at hs
    · have hgood : ∀ p ∈ ls.items, hasPrefix o p.1 = true → parse p.2 ≠ none :=
        fun p hp hpre hn => hbad ⟨p, hp, hpre, hn⟩
      have hl : load o ls = some (parsedItems o ls.items) := by
        simp only [load, hu, if_true]
        rw [foldlM_loadStep_some o ls.items [] hnd (fun k _ hk => by simp [keys] at hk) hgood]
        simp
      simp only [construct, hl] at hs
      cases hent : entries (parsedItems o ls.items) with
      | none => rw [hent] at hs; cases hs
      | some all =>
        rw [hent] at hs
        simp only [Option.map_some', Option.some.injEq] at hs
        rw [← hs]
        unfold consistent stored
        exact (entries_parsedItems o ls.items all hgood hent).symm
  · intro s hls hc
    unfold consistent stored at hc
    rw [hls] at hc
    have hgood : ∀ p ∈ ls.items, hasPrefix o p.1 = true → ∃ e, p.2 = Raw.json e := by
      intro p hp hpre
      have hmem : p ∈ ls.items.filter (fun p => hasPrefix o p.1) :=
        List.mem_filter.mpr ⟨hp, hpre⟩
      rw [hc] at hmem
      obtain ⟨q, _, hq⟩ := List.mem_map.mp hmem
      exact ⟨q.2, by rw [← hq]⟩
    obtain ⟨s1, hcon, _, hser⟩ := construct_of_json o ls hu hnd hgood
    refine ⟨s1, hcon, ?_⟩
    apply serialized_injective
    rw [hser, hc]

/-- A mapping consistent with the store holds only keys that bear the prefix. -/
theorem hasPrefix_of_consistent (o : Options) (s : State) (hc : consistent o s)
    (k : String) (hk : k ∈ keys s.all) : hasPrefix o k = true := by
  unfold consistent stored at hc
  obtain ⟨p, hp, hpk⟩ := List.mem_map.mp hk
  have hmem : (p.1, Raw.json p.2) ∈ serialized s.all := List.mem_map.mpr ⟨p, hp, rfl⟩
  rw [← hc] at hmem
  have := (List.mem_filter.mp hmem).2
  rw [← hpk]
  exact this

/-- With the default prefix a mapping consistent with the store holds nothing
under `__proto__`. -/
theorem plain_of_consistent (o : Options) (hp : o.pfx = "cache:") (s : State)
    (hc : consistent o s) : s.plain := by
  unfold State.plain
  apply lookup_eq_none_of_not_mem
  intro hk
  have h := hasPrefix_of_consistent o s hc _ hk
  rw [hasPrefix, hp] at h
  revert h
  decide

/-- With the default prefix every public call that returns normally keeps the
mapping and the store consistent. -/
theorem consistent_call_of_default_prefix (o : Options) (hu : o.useLocalStorage = true)
    (hp : o.pfx = "cache:") (fuel : Nat) (now : Int) (c : Call) (s s1 : State) (rep : Reply)
    (hc : consistent o s) (h : call o fuel now c s = some (rep, s1))
    (hrep : rep ≠ Reply.threw) : consistent o s1 :=
  consistent_call o hu (normalizeKey_ne_undefinedKey o hp) fuel now c s s1 rep
    (plain_of_consistent o hp s hc) hc h hrep

end Cache
